import Mathlib

/-! # Classic Paxos simulation (b9r5/learn-paxos): embedding and properties

The Go sources are embedded shallowly.  An `Epoch` of the program is a struct
holding a pointer to a `big.Int` and the number of proposers, so the embedding
carries an explicit store of `big.Int` cells (`Heap`): every operation that
reads or writes through the pointer takes the store as an argument.
-/

/-! ## The store of big.Int cells -/

/-- The store of `big.Int` cells: `cell a` is the integer held by the
`big.Int` at address `a`; `next` is the first address not yet handed out. -/
structure Heap where
  cell : Nat → Int
  next : Nat

/-- The empty store at program start. -/
def Heap.empty : Heap := { cell := fun _ => 0, next := 0 }

/-- Overwrite the cell at address `a`. -/
def Heap.write (h : Heap) (a : Nat) (v : Int) : Heap :=
  { cell := fun b => if b = a then v else h.cell b, next := h.next }

/-- `big.NewInt(v)`: allocate a fresh cell holding `v` and return its address. -/
def Heap.NewInt (h : Heap) (v : Int) : Nat × Heap :=
  (h.next, { cell := fun b => if b = h.next then v else h.cell b, next := h.next + 1 })

/-- `z.Add(x, y)` of `math/big` for an operand `y` just made by `big.NewInt`
and referenced nowhere else, given by the integer it holds: stores `x + y` into
the cell `z` points to and returns `z`; a nil `z` or `x` is a nil dereference
(`none`). -/
def bigAdd (h : Heap) (z x : Option Nat) (y : Int) : Option (Option Nat × Heap) :=
  match z, x with
  | some a, some b => some (some a, h.write a (h.cell b + y))
  | _, _ => none

/-- `x.Cmp(y)` of `math/big`: `0` when the two pointers are identical, otherwise
the sign of the comparison of the two integers; dereferencing a nil pointer
fails (`none`). -/
def bigCmp (h : Heap) (x y : Option Nat) : Option Int :=
  if x = y then some 0
  else
    match x, y with
    | some a, some b =>
      some (if h.cell a < h.cell b then -1 else if h.cell a = h.cell b then 0 else 1)
    | _, _ => none

/-! ## epoch.go -/

/-- The struct `Epoch` (`epoch` in package main): `i` is the `*big.Int`
(`none` is the nil pointer), `nProposers` the total number of proposers. -/
structure Epoch where
  i : Option Nat
  nProposers : Int
deriving DecidableEq, Repr

/-- The variable `nilEpoch` of package main; also the zero value `Epoch{}`. -/
def nilEpoch : Epoch := { i := none, nProposers := 0 }

/-- `newEpoch(proposerID, nProposers)`: a fresh `big.Int` holding `proposerID`. -/
def newEpoch (proposerID nProposers : Int) (h : Heap) : Epoch × Heap :=
  let r := h.NewInt proposerID
  ({ i := some r.1, nProposers := nProposers }, r.2)

/-- `e.Next()`: `e.i.Add(e.i, big.NewInt(int64(e.nProposers)))` with the same
`nProposers`.  The sum is stored through `e.i` itself, and the pointer of the
result is `e.i` again. -/
def Epoch.Next (e : Epoch) (h : Heap) : Option (Epoch × Heap) :=
  match bigAdd h e.i e.i e.nProposers with
  | none => none
  | some (p, h2) => some ({ i := p, nProposers := e.nProposers }, h2)

/-- `e.Nil()` of package classicpaxos: `e == Epoch{}`. -/
def Epoch.Nil (e : Epoch) : Bool := decide (e = { i := none, nProposers := 0 })

/-- `e.nil()` of package main: `e.i == nil`. -/
def Epoch.nil (e : Epoch) : Bool := e.i.isNone

/-- `e.Cmp(f)` of package classicpaxos: `e.i.Cmp(f.i)`. -/
def Epoch.Cmp (e f : Epoch) (h : Heap) : Option Int := bigCmp h e.i f.i

/-- `e.cmp(f)` of package main: `e.i.Cmp(f.i)`. -/
def Epoch.cmp (e f : Epoch) (h : Heap) : Option Int := bigCmp h e.i f.i

/-- The integer an epoch denotes in store `h`: `none` for a nil pointer, which
orders below every integer in `Option`-as-`WithBot`. -/
def Epoch.val (e : Epoch) (h : Heap) : WithBot Int :=
  match e.i with
  | none => ⊥
  | some a => ((h.cell a : Int) : WithBot Int)

/-! ## message.go -/

/-- The four message structs.  `replyTo` is a channel handle, here the index of
the proposer inbound channel it stands for. -/
inductive message where
  | prepare (epoch : Epoch) (proposerID : Int) (replyTo : Nat)
  | promise (epoch acceptedEpoch : Epoch) (acceptedValue : String) (acceptorID : Int)
  | propose (epoch : Epoch) (value : String) (proposerID : Int) (replyTo : Nat)
  | accept (epoch : Epoch) (acceptorID : Int)
deriving DecidableEq, Repr

/-! ## acceptor.go -/

/-- The three local variables of `acceptor.run`. -/
structure AcceptorState where
  promisedEpoch : Epoch
  acceptedEpoch : Epoch
  acceptedValue : String
deriving DecidableEq, Repr

/-- The values the three variables are initialised with. -/
def acceptor.init : AcceptorState :=
  { promisedEpoch := nilEpoch, acceptedEpoch := nilEpoch, acceptedValue := "" }

/-- The guard `promisedEpoch.nil() || epoch.cmp(promisedEpoch) >= 0`, with the
short circuit of `||`; `none` when `cmp` dereferences nil. -/
def acceptor.guard (h : Heap) (promisedEpoch epoch : Epoch) : Option Bool :=
  if promisedEpoch.nil then some true
  else
    match epoch.cmp promisedEpoch h with
    | none => none
    | some c => some (decide (c ≥ 0))

/-- One iteration of the loop of `acceptor.run` on the received message `m`:
the new variables and the messages sent, each with the channel it is sent on. -/
def acceptor.step (id : Int) (h : Heap) (s : AcceptorState) (m : message) :
    Option (AcceptorState × List (Nat × message)) :=
  match m with
  | .prepare epoch _ replyTo =>
    match acceptor.guard h s.promisedEpoch epoch with
    | none => none
    | some true =>
      some ({ s with promisedEpoch := epoch },
        [(replyTo, .promise epoch s.acceptedEpoch s.acceptedValue id)])
    | some false => some (s, [])
  | .propose epoch value _ replyTo =>
    match acceptor.guard h s.promisedEpoch epoch with
    | none => none
    | some true =>
      some ({ promisedEpoch := epoch, acceptedEpoch := epoch, acceptedValue := value },
        [(replyTo, .accept epoch id)])
    | some false => some (s, [])
  | _ => some (s, [])

/-- What the acceptor goroutine meets between two observations of its
variables: a message received from its input channel, or a proposer goroutine
executing `e.Next()` on an epoch it holds (the `big.Int` cells are shared with
the proposers through the epochs carried by the messages). -/
inductive Event where
  | recv (m : message)
  | next (e : Epoch)
deriving DecidableEq, Repr

/-- The situation after one event of an acceptor run: the store, the three
variables, and the messages the acceptor sent during the event. -/
structure Snapshot where
  heap : Heap
  state : AcceptorState
  out : List (Nat × message)

/-- The loop of `acceptor.run` along a sequence of events, started with the
variables `s` in store `h`: the snapshot after each event; `none` when the
goroutine fails on a nil dereference. -/
def acceptor.run (id : Int) : Heap → AcceptorState → List Event → Option (List Snapshot)
  | _, _, [] => some []
  | h, s, .recv m :: es =>
    match acceptor.step id h s m with
    | none => none
    | some (s1, out) =>
      match acceptor.run id h s1 es with
      | none => none
      | some t => some ({ heap := h, state := s1, out := out } :: t)
  | h, s, .next e :: es =>
    match e.Next h with
    | none => none
    | some (_, h1) =>
      match acceptor.run id h1 s es with
      | none => none
      | some t => some ({ heap := h1, state := s, out := [] } :: t)

/-- The epoch field of a reply of the acceptor (promise or accept). -/
def message.ackEpoch : message → Option Epoch
  | .promise epoch _ _ _ => some epoch
  | .accept epoch _ => some epoch
  | _ => none

/-- The integers of the epochs acknowledged during a run, each read when the
reply was sent, in the order of sending. -/
def acceptor.acks : List Snapshot → List (WithBot Int)
  | [] => []
  | c :: t => (c.out.filterMap (fun o => o.2.ackEpoch)).map (fun e => e.val c.heap) ++ acceptor.acks t

/-- The proposals accepted during a run, oldest first: the epoch and value of
each received propose that the acceptor answered. -/
def acceptor.accepted : List Event → List Snapshot → List (Epoch × String)
  | .recv (.propose e v _ _) :: es, c :: t =>
    if c.out = [] then acceptor.accepted es t else (e, v) :: acceptor.accepted es t
  | _ :: es, _ :: t => acceptor.accepted es t
  | _, _ => []

/-- Well-formed traffic at an acceptor: requests carry a real epoch, and `Next`
is called on a real epoch whose population size is not negative. -/
def Event.wf : Event → Prop
  | .recv (.prepare e _ _) => e.i ≠ none
  | .recv (.propose e _ _ _) => e.i ≠ none
  | .recv _ => True
  | .next e => e.i ≠ none ∧ 0 ≤ e.nProposers

/-- The value of a received propose is not the empty string (candidate values
are never empty). -/
def Event.valued : Event → Prop
  | .recv (.propose _ v _ _) => v ≠ ""
  | _ => True

/-! ## proposer.go -/

/-- Where a proposer goroutine stands in the loop of `proposer.run`: at the top
of the loop, in the first receive loop, or in the second receive loop. -/
inductive Phase where
  | start
  | phase1
  | phase2
deriving DecidableEq, Repr

/-- The local variables of `proposer.run`; the two maps are kept as the lists
of their keys. -/
structure ProposerState where
  epoch : Epoch
  pc : Phase
  value : String
  maxEpoch : Epoch
  promisedAcceptors : List Int
  acceptedAcceptors : List Int
deriving DecidableEq, Repr

/-- The variables when the goroutine starts: `var epoch Epoch` is `Epoch{}`. -/
def proposer.init : ProposerState :=
  { epoch := { i := none, nProposers := 0 }, pc := .start, value := "",
    maxEpoch := { i := none, nProposers := 0 }, promisedAcceptors := [], acceptedAcceptors := [] }

/-- The assignment `m[k] = true` on a `map[int]bool` kept as its key list. -/
def mapSet (m : List Int) (k : Int) : List Int := if k ∈ m then m else k :: m

/-- The string `fmt.Sprintf("v%d", p.id)`. -/
def candidateValue (id : Int) : String := "v" ++ toString id

/-- The number `(len(p.acceptors)/2)+1`. -/
def quorum (nAcceptors : Nat) : Nat := nAcceptors / 2 + 1

/-- Top of the loop of `proposer.run` up to the prepare broadcast: fresh
locals, epoch selection, and the prepare message that is sent to every
acceptor. -/
def proposer.attempt (id nProposers : Int) (replyTo : Nat) (h : Heap) (s : ProposerState) :
    Option (Heap × ProposerState × message) :=
  let r := if s.epoch.Nil then some (newEpoch id nProposers h) else s.epoch.Next h
  match r with
  | none => none
  | some (epoch, h1) =>
    some (h1,
      { epoch := epoch, pc := .phase1, value := "", maxEpoch := { i := none, nProposers := 0 },
        promisedAcceptors := [], acceptedAcceptors := [] },
      .prepare epoch id replyTo)

/-- The test `!promise.acceptedEpoch.Nil() && (maxEpoch.Nil() ||
promise.acceptedEpoch.Cmp(maxEpoch) > 0)` with its short circuits. -/
def proposer.greater (h : Heap) (acceptedEpoch maxEpoch : Epoch) : Option Bool :=
  if acceptedEpoch.Nil then some false
  else if maxEpoch.Nil then some true
  else
    match acceptedEpoch.Cmp maxEpoch h with
    | none => none
    | some c => some (decide (c > 0))

/-- The body of the first receive loop on message `msg`. -/
def proposer.onPromise (h : Heap) (s : ProposerState) (msg : message) : Option ProposerState :=
  match msg with
  | .promise _ acceptedEpoch acceptedValue acceptorID =>
    match proposer.greater h acceptedEpoch s.maxEpoch with
    | none => none
    | some true =>
      some { s with promisedAcceptors := mapSet s.promisedAcceptors acceptorID,
                    maxEpoch := acceptedEpoch, value := acceptedValue }
    | some false => some { s with promisedAcceptors := mapSet s.promisedAcceptors acceptorID }
  | _ => some s

/-- The body of the second receive loop on message `msg`. -/
def proposer.onAccept (h : Heap) (s : ProposerState) (msg : message) : Option ProposerState :=
  match msg with
  | .accept epoch acceptorID =>
    match s.epoch.Cmp epoch h with
    | none => none
    | some c =>
      if c = 0 then some { s with acceptedAcceptors := mapSet s.acceptedAcceptors acceptorID }
      else some s
  | _ => some s

/-- What a proposer does after leaving a receive loop with a quorum. -/
inductive Outcome where
  | wait
  | broadcast (m : message)
  | decide (value : String)
deriving DecidableEq, Repr

/-- One receive in `proposer.run`, followed by the loop test and, when the
quorum is reached, by the code after the loop: in phase 1 the value selection
and the propose to broadcast, in phase 2 the value sent on `p.values`, after
which the outer loop starts over. -/
def proposer.recv (id : Int) (replyTo : Nat) (nAcceptors : Nat) (h : Heap) (s : ProposerState)
    (msg : message) : Option (ProposerState × Outcome) :=
  match s.pc with
  | .start => none
  | .phase1 =>
    match proposer.onPromise h s msg with
    | none => none
    | some s1 =>
      if s1.promisedAcceptors.length < quorum nAcceptors then some (s1, .wait)
      else
        let value := if s1.value = "" then candidateValue id else s1.value
        some ({ s1 with value := value, pc := .phase2 },
          .broadcast (.propose s1.epoch value id replyTo))
  | .phase2 =>
    match proposer.onAccept h s msg with
    | none => none
    | some s1 =>
      if s1.acceptedAcceptors.length < quorum nAcceptors then some (s1, .wait)
      else some ({ s1 with pc := .start }, .decide s1.value)

/-- The branch `case <-time.After(p.timeout)` of either receive loop: the loop
ends and `continue` returns to the top of the outer loop. -/
def proposer.timeout (s : ProposerState) : Option ProposerState :=
  match s.pc with
  | .start => none
  | _ => some { s with pc := .start }

/-! ## config.go: the system of proposers and acceptors

Every role reads from the output of its own lossy channel.  For the protocol
level the channel is the list of messages sent to it and neither delivered nor
dropped yet: any of them may be delivered next (reordering, arbitrary delay)
or dropped. -/

/-- Ghost record of one execution of the propose branch of an acceptor: who
accepted which epoch (and the integer it denoted at that moment) and value. -/
structure Accepted where
  acceptorID : Int
  epoch : Epoch
  epochInt : WithBot Int
  value : String

/-- Record of one send on the values channel: the proposer, its epoch (and the
integer it denoted at that moment) and the value sent. -/
structure Decided where
  proposerID : Int
  epoch : Epoch
  epochInt : WithBot Int
  value : String

/-- The state of the system built by `Config.Run`. -/
structure System where
  heap : Heap
  proposers : List ProposerState
  acceptors : List AcceptorState
  acceptorIn : List (List message)
  proposerIn : List (List message)
  decided : List Decided
  accepted : List Accepted

/-- The values sent on the values channel so far, oldest first. -/
def System.values (s : System) : List String := s.decided.map (fun d => d.value)

/-- The system right after `newAcceptors` and `newProposers`. -/
def System.init (nProposers nAcceptors : Nat) : System :=
  { heap := Heap.empty
    proposers := List.replicate nProposers proposer.init
    acceptors := List.replicate nAcceptors acceptor.init
    acceptorIn := List.replicate nAcceptors []
    proposerIn := List.replicate nProposers []
    decided := []
    accepted := [] }

/-- The loop `for _, a := range p.acceptors { a <- m }`. -/
def broadcast (chans : List (List message)) (m : message) : List (List message) :=
  chans.map (fun c => c ++ [m])

/-- The send `replyTo <- m` on the channel with index `r`. -/
def sendTo : List (List message) → Nat → message → List (List message)
  | [], _, _ => []
  | c :: cs, 0, m => (c ++ [m]) :: cs
  | c :: cs, r + 1, m => c :: sendTo cs r m

/-- All the sends of one acceptor step. -/
def sendAll (chans : List (List message)) (out : List (Nat × message)) : List (List message) :=
  out.foldl (fun cs o => sendTo cs o.1 o.2) chans

/-- Remove the `k`-th pending message of channel `i` and return it. -/
def takeFrom (chans : List (List message)) (i k : Nat) : Option (message × List (List message)) :=
  match chans[i]? with
  | none => none
  | some c =>
    match c.get? k with
    | none => none
    | some m => some (m, chans.set i (c.eraseIdx k))

/-- The moves of the system: a proposer starts an attempt, a proposer times
out, a proposer or an acceptor receives the `k`-th pending message of its
channel, a lossy channel drops its `k`-th pending message. -/
inductive Move where
  | attempt (p : Nat)
  | timeout (p : Nat)
  | proposerRecv (p k : Nat)
  | acceptorRecv (a k : Nat)
  | dropProposer (p k : Nat)
  | dropAcceptor (a k : Nat)
deriving DecidableEq, Repr

/-- The ghost records of an acceptor step: one record when the step sent an
accept, that is when it executed the propose branch. -/
def acceptedLog (h : Heap) (s1 : AcceptorState) (out : List (Nat × message)) : List Accepted :=
  out.filterMap (fun o =>
    match o.2 with
    | .accept e id => some { acceptorID := id, epoch := e, epochInt := e.val h, value := s1.acceptedValue }
    | _ => none)

/-- One move of the system; `none` when the move is not possible in the state
or a goroutine fails. -/
def System.step (s : System) : Move → Option System
  | .attempt p =>
    match s.proposers[p]? with
    | none => none
    | some ps =>
      if ps.pc ≠ .start then none
      else
        match proposer.attempt (p : Int) (s.proposers.length : Int) p s.heap ps with
        | none => none
        | some (h1, ps1, m) =>
          some { s with heap := h1, proposers := s.proposers.set p ps1,
                        acceptorIn := broadcast s.acceptorIn m }
  | .timeout p =>
    match s.proposers[p]? with
    | none => none
    | some ps =>
      match proposer.timeout ps with
      | none => none
      | some ps1 => some { s with proposers := s.proposers.set p ps1 }
  | .proposerRecv p k =>
    match s.proposers[p]? with
    | none => none
    | some ps =>
      match takeFrom s.proposerIn p k with
      | none => none
      | some (m, chans) =>
        match proposer.recv (p : Int) p s.acceptors.length s.heap ps m with
        | none => none
        | some (ps1, .wait) => some { s with proposers := s.proposers.set p ps1, proposerIn := chans }
        | some (ps1, .broadcast m1) =>
          some { s with proposers := s.proposers.set p ps1, proposerIn := chans,
                        acceptorIn := broadcast s.acceptorIn m1 }
        | some (ps1, .decide v) =>
          some { s with proposers := s.proposers.set p ps1, proposerIn := chans,
                        decided := s.decided ++
                          [{ proposerID := (p : Int), epoch := ps1.epoch,
                             epochInt := ps1.epoch.val s.heap, value := v }] }
  | .acceptorRecv a k =>
    match s.acceptors[a]? with
    | none => none
    | some st =>
      match takeFrom s.acceptorIn a k with
      | none => none
      | some (m, chans) =>
        match acceptor.step (a : Int) s.heap st m with
        | none => none
        | some (st1, out) =>
          some { s with acceptors := s.acceptors.set a st1, acceptorIn := chans,
                        proposerIn := sendAll s.proposerIn out,
                        accepted := s.accepted ++ acceptedLog s.heap st1 out }
  | .dropProposer p k =>
    match takeFrom s.proposerIn p k with
    | none => none
    | some (_, chans) => some { s with proposerIn := chans }
  | .dropAcceptor a k =>
    match takeFrom s.acceptorIn a k with
    | none => none
    | some (_, chans) => some { s with acceptorIn := chans }

/-- A sequence of moves. -/
def System.run (s : System) : List Move → Option System
  | [] => some s
  | a :: as =>
    match s.step a with
    | none => none
    | some s1 => s1.run as

/-- The states the system of `nProposers` proposers and `nAcceptors` acceptors
can reach. -/
def Reachable (nProposers nAcceptors : Nat) (s : System) : Prop :=
  ∃ acts : List Move, (System.init nProposers nAcceptors).run acts = some s

/-- The acceptors that executed the propose branch for epoch `e` and value `v`,
without repetition. -/
def acceptorsOf (log : List Accepted) (e : Epoch) (v : String) : List Int :=
  ((log.filter (fun r => decide (r.epoch = e) && decide (r.value = v))).map
    (fun r => r.acceptorID)).dedup

/-! ## Concrete stores, epochs and schedules used in the examples -/

/-- The store after `newEpoch(0, 2)` and `newEpoch(1, 2)`. -/
def heap01 : Heap := (newEpoch 1 2 (newEpoch 0 2 Heap.empty).2).2

/-- The epoch returned by `newEpoch(0, 2)` in the empty store. -/
def epochP0 : Epoch := (newEpoch 0 2 Heap.empty).1

/-- The epoch returned by the following `newEpoch(1, 2)`. -/
def epochP1 : Epoch := (newEpoch 1 2 (newEpoch 0 2 Heap.empty).2).1

/-- An acceptor run in which proposer 0 advances its epoch after the acceptor
accepted its proposal and then promised to proposer 1. -/
def eventsAdvance : List Event :=
  [.recv (.prepare epochP0 0 0), .recv (.propose epochP0 "v0" 0 0),
   .recv (.prepare epochP1 1 1), .next epochP0]

/-! ## Predicates used to state the system properties -/

/-- The string `v` is the candidate value of one of the `n` proposers. -/
def isCandidate (n : Nat) (v : String) : Prop :=
  ∃ p : Nat, p < n ∧ v = candidateValue (p : Int)

/-- Absent (the empty string) or the candidate value of a proposer. -/
def emptyOrCandidate (n : Nat) (v : String) : Prop := v = "" ∨ isCandidate n v

/-- The value carried by a message is admissible: a candidate value in a
propose, absent or a candidate value in a promise. -/
def message.valueOK (n : Nat) : message → Prop
  | .propose _ v _ _ => isCandidate n v
  | .promise _ _ av _ => emptyOrCandidate n av
  | _ => True

/-- The invariant behind validity: every value held anywhere in the system
is absent or a candidate value, and it is a candidate value wherever it can be
decided from. -/
structure System.ValuesOK (n : Nat) (s : System) : Prop where
  nprop : s.proposers.length = n
  decided : ∀ d ∈ s.decided, isCandidate n d.value
  accIn : ∀ c ∈ s.acceptorIn, ∀ m ∈ c, message.valueOK n m
  propIn : ∀ c ∈ s.proposerIn, ∀ m ∈ c, message.valueOK n m
  acceptors : ∀ a ∈ s.acceptors, emptyOrCandidate n a.acceptedValue
  proposers : ∀ p ∈ s.proposers,
    emptyOrCandidate n p.value ∧ (p.pc = .phase2 → isCandidate n p.value)

/-- A schedule of 2 proposers and 3 acceptors that ends in disagreement.
Proposer 0 gets promises from acceptors 0 and 1 for its epoch 0 and proposes
"v0", which only acceptor 0 accepts.  Proposer 1 gets promises from acceptors
1 and 2 for its epoch 1, proposes "v1", both accept, and proposer 1 decides
"v1".  Proposer 0 times out and calls `Next`: its epoch becomes 2, and so does
the `acceptedEpoch` stored by acceptor 0, which holds the same `big.Int`.
Proposer 0 gets the promises of acceptor 0, reporting (2, "v0"), and of
acceptor 1, reporting (1, "v1"), proposes "v0", both accept, and proposer 0
decides "v0". -/
def schedDisagree : List Move :=
  [.attempt 0, .acceptorRecv 0 0, .acceptorRecv 1 0, .dropAcceptor 2 0,
   .proposerRecv 0 0, .proposerRecv 0 0,
   .acceptorRecv 0 0, .dropAcceptor 1 0, .dropAcceptor 2 0,
   .attempt 1, .dropAcceptor 0 0, .acceptorRecv 1 0, .acceptorRecv 2 0,
   .proposerRecv 1 0, .proposerRecv 1 0,
   .dropAcceptor 0 0, .acceptorRecv 1 0, .acceptorRecv 2 0,
   .proposerRecv 1 0, .proposerRecv 1 0,
   .dropProposer 0 0, .timeout 0,
   .attempt 0, .acceptorRecv 0 0, .acceptorRecv 1 0, .dropAcceptor 2 0,
   .proposerRecv 0 0, .proposerRecv 0 0,
   .acceptorRecv 0 0, .acceptorRecv 1 0,
   .proposerRecv 0 0, .proposerRecv 0 0]

/-- A schedule of 2 proposers and 3 acceptors in which a decision is taken
without a quorum of acceptances.  Proposer 0 proposes (0, "v0"); acceptor 0
accepts and its accept stays in transit; proposer 0 times out.  Proposer 1
proposes (1, "v1"), accepted by acceptor 1 only.  Proposer 0 calls `Next`
(epoch 2), gets the promises of acceptors 1 and 2, adopts "v1" and proposes
(2, "v1"), accepted by acceptor 1 only.  The accept of acceptor 0 from the
first attempt then arrives: it carries the `big.Int` of proposer 0, so it
compares equal to the current epoch and is counted with the accept of
acceptor 1, and proposer 0 decides "v1". -/
def schedNoQuorum : List Move :=
  [.attempt 0, .acceptorRecv 0 0, .acceptorRecv 1 0, .dropAcceptor 2 0,
   .proposerRecv 0 0, .proposerRecv 0 0,
   .acceptorRecv 0 0, .dropAcceptor 1 0, .dropAcceptor 2 0,
   .timeout 0,
   .attempt 1, .dropAcceptor 0 0, .acceptorRecv 1 0, .acceptorRecv 2 0,
   .proposerRecv 1 0, .proposerRecv 1 0,
   .dropAcceptor 0 0, .acceptorRecv 1 0, .dropAcceptor 2 0,
   .attempt 0, .dropAcceptor 0 0, .acceptorRecv 1 0, .acceptorRecv 2 0,
   .proposerRecv 0 1, .proposerRecv 0 1,
   .dropAcceptor 0 0, .acceptorRecv 1 0, .dropAcceptor 2 0,
   .proposerRecv 0 0, .proposerRecv 0 0]

/-- A schedule of 2 proposers and 3 acceptors after which acceptor 0 has
accepted the proposal of proposer 0, promised epoch 1 to proposer 1, and
proposer 0 has timed out and called `Next`. -/
def schedAdvance : List Move :=
  [.attempt 0, .acceptorRecv 0 0, .acceptorRecv 1 0, .proposerRecv 0 0, .proposerRecv 0 0,
   .acceptorRecv 0 0, .attempt 1, .acceptorRecv 0 0, .timeout 0, .attempt 0]

/-- The run of one proposer and one acceptor without loss. -/
def schedSingle : List Move :=
  [.attempt 0, .acceptorRecv 0 0, .proposerRecv 0 0, .acceptorRecv 0 0, .proposerRecv 0 0]

/-- The state reached by `schedSingle`. -/
def systemSingle : System := ((System.init 1 1).run schedSingle).getD (System.init 1 1)

/-- A second schedule of 2 proposers and 3 acceptors that ends in
disagreement, through a promise of an earlier attempt.  Acceptor 0 promises
epoch 0 to proposer 0 and the promise stays in transit; proposer 0 times out.
Proposer 1 gets promises from acceptors 0 and 1 for epoch 1, proposes "v1",
both accept, and proposer 1 decides "v1".  Proposer 0 starts its second attempt
(epoch 2); only acceptor 2 receives the prepare.  Proposer 0 counts the promise
of acceptor 0 from the first attempt and the promise of acceptor 2, neither of
which reports an accepted value, proposes "v0", acceptors 0 and 2 accept, and
proposer 0 decides "v0". -/
def schedStalePromise : List Move :=
  [.attempt 0, .acceptorRecv 0 0, .dropAcceptor 1 0, .dropAcceptor 2 0, .timeout 0,
   .attempt 1, .acceptorRecv 0 0, .acceptorRecv 1 0, .dropAcceptor 2 0,
   .proposerRecv 1 0, .proposerRecv 1 0,
   .acceptorRecv 0 0, .acceptorRecv 1 0, .dropAcceptor 2 0,
   .proposerRecv 1 0, .proposerRecv 1 0,
   .attempt 0, .dropAcceptor 0 0, .dropAcceptor 1 0, .acceptorRecv 2 0,
   .proposerRecv 0 0, .proposerRecv 0 0,
   .acceptorRecv 0 0, .dropAcceptor 1 0, .acceptorRecv 2 0,
   .proposerRecv 0 0, .proposerRecv 0 0]


/-! ## Epoch succession -/

/-- The result of `j` successive calls of `Next`, each on the epoch returned by
the previous call. -/
def Epoch.nexts : Nat → Epoch → Heap → Option (Epoch × Heap)
  | 0, e, h => some (e, h)
  | j + 1, e, h =>
    match e.Next h with
    | none => none
    | some (e1, h1) => Epoch.nexts j e1 h1

/-- The attempt number `k + 1` of a proposer: `k + 1` passes through the top of
the loop of `proposer.run`, started with the variables `s` in store `h`.  The
receive loops between two passes change neither the variable `epoch` nor the
store. -/
def proposer.attempts (id nProposers : Int) (replyTo : Nat) :
    Nat → Heap → ProposerState → Option (Heap × ProposerState × message)
  | 0, h, s => proposer.attempt id nProposers replyTo h s
  | k + 1, h, s =>
    match proposer.attempt id nProposers replyTo h s with
    | none => none
    | some (h1, s1, _) => proposer.attempts id nProposers replyTo k h1 s1

/-- A schedule of 2 proposers and 1 acceptor in which proposer 0 decides, goes
on with a new attempt, and decides a second time, while proposer 1 has not
started. -/
def schedDecideTwice : List Move :=
  [.attempt 0, .acceptorRecv 0 0, .proposerRecv 0 0, .acceptorRecv 0 0, .proposerRecv 0 0,
   .attempt 0, .acceptorRecv 0 0, .proposerRecv 0 0, .acceptorRecv 0 0, .proposerRecv 0 0]

/-! ## config.go and main.go: the driver -/

/-- The struct `Config`; the two durations are in nanoseconds, the drop
probability is a rational number. -/
structure Config where
  NProposers : Int
  NAcceptors : Int
  ProposerTimeout : Int
  ChannelTimeout : Int
  Buffer : Int
  Drop : ℚ

/-- How a call ends: it returns a result, it blocks forever on a channel, or
it panics. -/
inductive Ending (α : Type) where
  | returned (a : α)
  | blocked
  | panicked
deriving DecidableEq, Repr

/-- The text `%v` prints for a `[]string`. -/
def formatValues (vals : List String) : String := "[" ++ " ".intercalate vals ++ "]"

/-- The message of the error built by `fmt.Errorf` in `checkValues`. -/
def errorText (vals : List String) : String :=
  "the following values were agreed, and some of them differ: " ++ formatValues vals ++ "\n"

/-- The loop of `checkValues` with `todo` iterations left: `chan` holds the
values that will arrive on the channel, `vals` and `problem` are the two local
variables; the index `i` of the loop is `len(vals)`.  `none` when the channel
runs dry, where the receive blocks. -/
def checkValues.loop : Nat → List String → List String → Bool → Option (List String × Bool)
  | 0, _, vals, problem => some (vals, problem)
  | _ + 1, [], _, _ => none
  | todo + 1, v :: chan, vals, problem =>
    let vals1 := vals ++ [v]
    let problem1 := if 0 < vals.length ∧ vals1[vals.length]? ≠ vals1[0]? then true else problem
    checkValues.loop todo chan vals1 problem1

/-- The code of `checkValues` after the loop: `nil` (here `none`) or the
error; the success message reads `vals[0]`, which panics on an empty slice. -/
def checkValues.result (vals : List String) (problem : Bool) : Ending (Option String) :=
  if problem then .returned (some (errorText vals))
  else
    match vals with
    | [] => .panicked
    | _ :: _ => .returned none

/-- The function `checkValues(n, values)` of package main; `make([]string, 0, n)`
panics for a negative `n`. -/
def checkValues (n : Int) (values : List String) : Ending (Option String) :=
  if n < 0 then .panicked
  else
    match checkValues.loop n.toNat values [] false with
    | none => .blocked
    | some (vals, problem) => checkValues.result vals problem

/-- The method `Config.checkValues`: the slice is made with capacity
`c.NAcceptors`, and the loop runs `c.NProposers` times. -/
def Config.checkValues (c : Config) (values : List String) : Ending (Option String) :=
  if c.NAcceptors < 0 then .panicked
  else
    match checkValues.loop c.NProposers.toNat values [] false with
    | none => .blocked
    | some (vals, problem) => checkValues.result vals problem

/-- What `Run` has started: lossy channels (each with its worker goroutine),
acceptor goroutines and proposer goroutines. -/
structure Started where
  channels : Nat
  acceptors : Nat
  proposers : Nat
deriving DecidableEq, Repr

/-- The method `newAcceptors`: the number of acceptors created, `none` when a
`make` panics (negative length, or negative channel capacity). -/
def Config.newAcceptors (c : Config) : Option Nat :=
  if c.NAcceptors < 0 then none
  else if 0 < c.NAcceptors ∧ c.Buffer < 0 then none
  else some c.NAcceptors.toNat

/-- The method `newProposers`: the number of proposers created, `none` when a
`make` panics. -/
def Config.newProposers (c : Config) : Option Nat :=
  if c.NProposers < 0 then none
  else if 0 < c.NProposers ∧ c.Buffer < 0 then none
  else some c.NProposers.toNat

/-- A configuration of two proposers and three acceptors. -/
def configTwo : Config :=
  { NProposers := 2, NAcceptors := 3, ProposerTimeout := 100000000, ChannelTimeout := 10000000,
    Buffer := 1, Drop := 0 }

/-! ## lossy_channel.go -/

/-- The struct `lossyChannel` for messages of type `α`.  `input` holds the
messages the producer sends on the input channel, in order; `closed` tells
whether the input channel has been closed (a receive on a closed channel with
nothing left yields nil at once); `buf` is the buffer, whose elements may be
nil (`none`).  The clock that `timeout` is compared with is part of `Tick`. -/
structure lossyChannel (α : Type) where
  input : List α
  closed : Bool
  buf : List (Option α)
  size : Int
  drop : ℚ

/-- What one iteration of a loop of `receive` depends on besides the channel:
`late` tells whether the clock shows `remaining <= 0` at the top of the
iteration, `timer` whether the `select` takes the timer case rather than the
input case, `draw` is the value of `rand.Float64()`, and `pick i` is the random
integer that `rand.Shuffle` reduces modulo `i + 1` to choose `j` for index
`i`. -/
structure Tick where
  late : Bool
  timer : Bool
  draw : ℚ
  pick : Nat → Nat

/-- The swap `l.buf[i], l.buf[j] = l.buf[j], l.buf[i]`. -/
def swapAt {β : Type} (l : List β) (i j : Nat) : List β :=
  match l[i]?, l[j]? with
  | some a, some b => (l.set i b).set j a
  | _, _ => l

/-- The loop of `rand.Shuffle` from index `i` down to 1: swap `i` with a random
`j` in `[0, i]`. -/
def shuffleFrom {β : Type} (pick : Nat → Nat) : Nat → List β → List β
  | 0, l => l
  | i + 1, l => shuffleFrom pick i (swapAt l (i + 1) (pick (i + 1) % (i + 2)))

/-- The call `rand.Shuffle(len(l.buf), swap)`. -/
def shuffle {β : Type} (pick : Nat → Nat) (l : List β) : List β :=
  shuffleFrom pick (l.length - 1) l

/-- How far a call of `receive` has come when the given outcomes are used up:
it has returned `msg`, it is still waiting, or it has failed on `l.buf[0]`.
In each case the channel and the messages discarded during the call are
recorded. -/
inductive Received (α : Type) where
  | returned (msg : Option α) (l : lossyChannel α) (dropped : List (Option α)) (rest : List Tick)
  | waiting (l : lossyChannel α) (dropped : List (Option α))
  | failed (l : lossyChannel α) (dropped : List (Option α))

/-- The inner loop of `receive` that is entered when the timer fires on an
empty buffer: read messages until one is not dropped, and return it. -/
def lossyChannel.forced {α : Type} (l : lossyChannel α) (dropped : List (Option α)) :
    List Tick → Received α
  | [] => .waiting l dropped
  | t :: ts =>
    match l.input with
    | m :: rest =>
      if t.draw ≥ l.drop then .returned (some m) { l with input := rest } dropped ts
      else lossyChannel.forced { l with input := rest } (dropped ++ [some m]) ts
    | [] =>
      if l.closed then
        if t.draw ≥ l.drop then .returned none l dropped ts
        else lossyChannel.forced l (dropped ++ [none]) ts
      else .waiting l dropped

/-- The outer loop of `receive`; `expired` tells whether an earlier iteration
of this call has seen the timeout elapse. -/
def lossyChannel.loop {α : Type} (l : lossyChannel α) (expired : Bool)
    (dropped : List (Option α)) : List Tick → Received α
  | [] => .waiting l dropped
  | t :: ts =>
    if (l.buf.length : Int) ≥ l.size ∨ ((expired || t.late) = true ∧ 0 < l.buf.length) then
      match shuffle t.pick l.buf with
      | [] => .failed l dropped
      | m :: rest => .returned m { l with buf := rest } dropped ts
    else if t.timer = true ∨ (l.input.isEmpty = true ∧ l.closed = false) then
      if l.buf.length ≤ 0 then l.forced dropped ts
      else lossyChannel.loop l true dropped ts
    else
      match l.input with
      | m :: rest =>
        if t.draw ≥ l.drop then
          lossyChannel.loop { l with input := rest, buf := l.buf ++ [some m] }
            (expired || t.late) dropped ts
        else lossyChannel.loop { l with input := rest } (expired || t.late) (dropped ++ [some m]) ts
      | [] =>
        if t.draw ≥ l.drop then
          lossyChannel.loop { l with buf := l.buf ++ [none] } (expired || t.late) dropped ts
        else lossyChannel.loop l (expired || t.late) (dropped ++ [none]) ts

/-- The method `receive`. -/
def lossyChannel.receive {α : Type} (l : lossyChannel α) (ticks : List Tick) : Received α :=
  l.loop false [] ticks

/-- How a sequence of calls of `receive` stands: all calls have returned, the
last one is still waiting, or the last one has failed. -/
inductive CallStatus where
  | done
  | waiting
  | failed
deriving DecidableEq, Repr

/-- The record of successive calls of `receive`: the messages returned, in
order, the messages discarded, the channel, and the outcomes not used. -/
structure Calls (α : Type) where
  returned : List (Option α)
  dropped : List (Option α)
  chan : lossyChannel α
  status : CallStatus
  rest : List Tick

/-- The first `k` successive calls of `receive`. -/
def lossyChannel.receives {α : Type} : Nat → lossyChannel α → List Tick → Calls α
  | 0, l, ts => { returned := [], dropped := [], chan := l, status := .done, rest := ts }
  | k + 1, l, ts =>
    match l.receive ts with
    | .returned m l1 d rest =>
      let r := lossyChannel.receives k l1 rest
      { r with returned := m :: r.returned, dropped := d ++ r.dropped }
    | .waiting l1 d => { returned := [], dropped := d, chan := l1, status := .waiting, rest := [] }
    | .failed l1 d => { returned := [], dropped := d, chan := l1, status := .failed, rest := [] }

/-- A lossy channel as `newLossyChannel` makes it, with `msgs` to come on its
input. -/
def lossyChannel.new {α : Type} (size : Int) (drop : ℚ) (msgs : List α) : lossyChannel α :=
  { input := msgs, closed := false, buf := [], size := size, drop := drop }

/-- Outcomes in which the timer never fires early and every draw is 1/2. -/
def tickInput : Tick := { late := false, timer := false, draw := 1 / 2, pick := fun _ => 0 }

/-- Outcomes in which the timer case is taken. -/
def tickTimer : Tick := { late := true, timer := true, draw := 1 / 2, pick := fun i => i }

/-- The channel recorded in the outcome of a call. -/
def Received.chan {α : Type} : Received α → lossyChannel α
  | .returned _ l _ _ => l
  | .waiting l _ => l
  | .failed l _ => l

/-- The messages a call accounts for outside the input channel: the message
returned, if any, the messages discarded, and the buffer. -/
def Received.held {α : Type} : Received α → List (Option α)
  | .returned m l d _ => m :: (d ++ l.buf)
  | .waiting l d => d ++ l.buf
  | .failed l d => d ++ l.buf

/-- The configuration of the channel `l1` is that of `l`, and its input
channel is not closed. -/
def lossyChannel.sameOpen {α : Type} (l l1 : lossyChannel α) : Prop :=
  l1.closed = false ∧ l1.size = l.size ∧ l1.drop = l.drop

/-! ## Nil epochs in messages and in role state -/

/-- The epoch is the zero value `Epoch{}` or holds a `big.Int`. -/
def Epoch.nilOrReal (e : Epoch) : Prop := e = { i := none, nProposers := 0 } ∨ e.i ≠ none

/-- The field `epoch` of a message. -/
def message.epochOf : message → Epoch
  | .prepare epoch _ _ => epoch
  | .promise epoch _ _ _ => epoch
  | .propose epoch _ _ _ => epoch
  | .accept epoch _ => epoch

/-- The field `acceptorID` of a promise. -/
def message.promiseID : message → Option Int
  | .promise _ _ _ acceptorID => some acceptorID
  | _ => none

/-- The epochs of a message as the roles produce them: the field `epoch` holds
a `big.Int`, and the field `acceptedEpoch` of a promise is `Epoch{}` or holds a
`big.Int`. -/
def message.epochsOK : message → Prop
  | .promise epoch acceptedEpoch _ _ => epoch.i ≠ none ∧ acceptedEpoch.nilOrReal
  | m => m.epochOf.i ≠ none

/-- The invariant that keeps nil epochs out of the comparisons: pending
messages have well-formed epochs, acceptors hold `Epoch{}` or a real epoch as
`acceptedEpoch`, and a proposer holds `Epoch{}` or a real epoch as `epoch` and
as `maxEpoch`, a real `epoch` once it has left the top of its loop. -/
structure System.EpochsOK (s : System) : Prop where
  accIn : ∀ c ∈ s.acceptorIn, ∀ m ∈ c, message.epochsOK m
  propIn : ∀ c ∈ s.proposerIn, ∀ m ∈ c, message.epochsOK m
  acceptors : ∀ a ∈ s.acceptors, a.acceptedEpoch.nilOrReal
  proposers : ∀ p ∈ s.proposers,
    p.epoch.nilOrReal ∧ (p.pc ≠ .start → p.epoch.i ≠ none) ∧ p.maxEpoch.nilOrReal

/-- The state reached by `schedAdvance`. -/
def systemAdvance : System := ((System.init 2 3).run schedAdvance).getD (System.init 2 3)

/-! ## The first receive loop of the proposer -/

/-- The first receive loop of `proposer.run`, started with the variables `s`,
along the messages that arrive on `p.input`; each message comes with the store
in which it is received, since other goroutines may call `Next` between two
receives.  The loop test comes first, then the body.  The result is the
variables when the loop stops, whether it stopped by its test (rather than for
want of messages), and the messages not received. -/
def proposer.phase1 (nAcceptors : Nat) :
    ProposerState → List (Heap × message) → Option (ProposerState × Bool × List (Heap × message))
  | s, [] => some (s, decide (quorum nAcceptors ≤ s.promisedAcceptors.length), [])
  | s, (h, m) :: ms =>
    if s.promisedAcceptors.length < quorum nAcceptors then
      match proposer.onPromise h s m with
      | none => none
      | some s1 => proposer.phase1 nAcceptors s1 ms
    else some (s, true, (h, m) :: ms)

/-- The variables of proposer 0 of 2 after the top of the loop in its first
attempt. -/
def proposerPhase1 : ProposerState :=
  { epoch := epochP0, pc := .phase1, value := "", maxEpoch := { i := none, nProposers := 0 },
    promisedAcceptors := [], acceptedAcceptors := [] }

/-- Messages for proposer 0 of 2 with 5 acceptors: a promise of acceptor 3, an
accept, the same promise again, a promise of acceptor 1 for the epoch of the
other proposer, a promise of acceptor 4 reporting an accepted proposal, and a
promise of acceptor 0. -/
def promisesReceived : List (Heap × message) :=
  [(heap01, .promise epochP0 nilEpoch "" 3), (heap01, .accept epochP0 2),
   (heap01, .promise epochP0 nilEpoch "" 3), (heap01, .promise epochP1 nilEpoch "" 1),
   (heap01, .promise epochP0 epochP1 "v1" 4), (heap01, .promise epochP0 nilEpoch "" 0)]

/-! ## lossy_channel.go: the output channel, `run` and `close` -/

/-- A lossy channel together with its output channel and the goroutine `run`:
`output` is the queue of the output channel (capacity `chan.size`),
`outputClosed` tells whether the output channel has been closed, and
`pending` holds the message of the statement `l.output <- msg` when `run` has
reached that statement and not completed it. -/
structure Piped (α : Type) where
  chan : lossyChannel α
  output : List α
  outputClosed : Bool
  pending : Option α

/-- Where the goroutine `run` stands: still in its loop (inside `receive`, or
blocked on a full output channel), returned, or stopped by a run-time panic
(send on a closed channel, index out of range). -/
inductive RunStatus where
  | running
  | returned
  | panicked
deriving DecidableEq, Repr

/-- The channel `newLossyChannel` returns, with `msgs` to come on its input. -/
def Piped.new {α : Type} (size : Int) (drop : ℚ) (msgs : List α) : Piped α :=
  { chan := lossyChannel.new size drop msgs, output := [], outputClosed := false, pending := none }

/-- The goroutine `run` for at most `n` statements of its loop (`msg :=
l.receive()` with the test of `msg`, or `l.output <- msg`).  A send on the
closed output channel panics; a send on a full output channel waits for the
consumer; a nil message makes `run` return. -/
def lossyChannel.run {α : Type} : Nat → Piped α → List Tick → Piped α × RunStatus
  | 0, p, _ => (p, .running)
  | n + 1, p, ts =>
    match p.pending with
    | some m =>
      if p.outputClosed then (p, .panicked)
      else if (p.output.length : Int) ≥ p.chan.size then (p, .running)
      else lossyChannel.run n { p with output := p.output ++ [m], pending := none } ts
    | none =>
      match p.chan.receive ts with
      | .waiting l1 _ => ({ p with chan := l1 }, .running)
      | .failed l1 _ => ({ p with chan := l1 }, .panicked)
      | .returned none l1 _ _ => ({ p with chan := l1 }, .returned)
      | .returned (some m) l1 _ rest => lossyChannel.run n { p with chan := l1, pending := some m } rest

/-- The method `close`: `close(l.input)` then `close(l.output)`; closing a
closed channel panics (`none`). -/
def lossyChannel.close {α : Type} (p : Piped α) : Option (Piped α) :=
  if p.chan.closed = true ∨ p.outputClosed = true then none
  else some { p with chan := { p.chan with closed := true }, outputClosed := true }

/-- The producer statement `l.input <- msg`; a send on the closed input channel
panics (`none`). -/
def Piped.send {α : Type} (p : Piped α) (msg : α) : Option (Piped α) :=
  if p.chan.closed then none
  else some { p with chan := { p.chan with input := p.chan.input ++ [msg] } }

/-- What a consumer receive `<-l.output` yields. -/
inductive Got (α : Type) where
  | msg (m : α)
  | endOfStream
  | waits
deriving DecidableEq, Repr

/-- The consumer statement `<-l.output`: the head of the queue; on an empty
queue the end-of-stream signal when the channel is closed, and a wait
otherwise. -/
def Piped.recv {α : Type} (p : Piped α) : Got α × Piped α :=
  match p.output with
  | m :: rest => (.msg m, { p with output := rest })
  | [] => if p.outputClosed then (.endOfStream, p) else (.waits, p)

/-- A channel of size 2 without drops, after the producer sent 5 and 7, `run`
buffered both, put one of them on the output channel and came back to the top
of its loop. -/
def pipedBeforeClose : Piped Nat :=
  (lossyChannel.run 2 (Piped.new 2 0 [5, 7]) [tickInput, tickInput, tickInput]).1

/-- The same channel after `close`. -/
def pipedClosed : Piped Nat := (lossyChannel.close pipedBeforeClose).getD pipedBeforeClose

/-- What is seen of a channel: the messages to come on the input, the buffer,
the output queue, whether input and output are closed, and the pending send. -/
def Piped.view {α : Type} (p : Piped α) :
    List α × List (Option α) × List α × Bool × Bool × Option α :=
  (p.chan.input, p.chan.buf, p.output, p.chan.closed, p.outputClosed, p.pending)

/-! ## What is seen of a proposer in a state of the system -/

/-- What a promise reports when it is read in store `h`: the acceptor, the
integer of its accepted epoch (`⊥` for nil) and its accepted value. -/
def message.report (h : Heap) : message → Option (Int × WithBot Int × String)
  | .promise _ acceptedEpoch acceptedValue acceptorID =>
    some (acceptorID, acceptedEpoch.val h, acceptedValue)
  | _ => none

/-- The variables of proposer `p` and the messages pending on its channel: the
integer of its epoch, where it stands, its value, its promised and accepted
sets, and the pending messages. -/
def System.view (s : System) (p : Nat) :
    Option (WithBot Int × Phase × String × List Int × List Int × List message) :=
  match s.proposers[p]?, s.proposerIn[p]? with
  | some ps, some c =>
    some (ps.epoch.val s.heap, ps.pc, ps.value, ps.promisedAcceptors, ps.acceptedAcceptors, c)
  | _, _ => none

/-- The executions of the propose branch recorded so far: acceptor, integer of
the epoch at that moment, value. -/
def System.acceptedView (s : System) : List (Int × WithBot Int × String) :=
  s.accepted.map (fun r => (r.acceptorID, r.epochInt, r.value))

/-- The promises pending on the channel of proposer `p`, read in the current
store. -/
def System.reports (s : System) (p : Nat) : List (Int × WithBot Int × String) :=
  ((s.proposerIn[p]?).getD []).filterMap (message.report s.heap)

/-- A schedule of 3 proposers and 5 acceptors (quorum 3).  Proposer 0 proposes
(0, "v0"), accepted by acceptor 0; proposer 1 proposes (1, "v1"), accepted by
acceptor 1.  Proposer 2 sends prepare for epoch 2, and acceptors 0, 1 and 2
promise: the three promises are pending at the end. -/
def schedSelectSent : List Move :=
  [.attempt 0, .acceptorRecv 0 0, .acceptorRecv 3 0, .acceptorRecv 4 0,
   .dropAcceptor 1 0, .dropAcceptor 2 0,
   .proposerRecv 0 0, .proposerRecv 0 0, .proposerRecv 0 0,
   .acceptorRecv 0 0, .dropAcceptor 1 0, .dropAcceptor 2 0, .dropAcceptor 3 0,
   .dropAcceptor 4 0, .dropProposer 0 0,
   .attempt 1, .dropAcceptor 0 0, .acceptorRecv 1 0, .acceptorRecv 2 0, .acceptorRecv 3 0,
   .dropAcceptor 4 0,
   .proposerRecv 1 0, .proposerRecv 1 0, .proposerRecv 1 0,
   .dropAcceptor 0 0, .acceptorRecv 1 0, .dropAcceptor 2 0, .dropAcceptor 3 0,
   .dropAcceptor 4 0, .dropProposer 1 0,
   .attempt 2, .acceptorRecv 0 0, .acceptorRecv 1 0, .acceptorRecv 2 0,
   .dropAcceptor 3 0, .dropAcceptor 4 0]

/-- The schedule goes on: proposer 2 receives the promise of acceptor 0;
proposer 0 times out and starts its next attempt; proposer 2 receives the
promise of acceptor 1. -/
def schedSelectSecond : List Move :=
  schedSelectSent ++ [.proposerRecv 2 0, .timeout 0, .attempt 0, .proposerRecv 2 0]

/-- The end of the schedule: proposer 1 times out and starts its next attempt;
proposer 2 receives the promise of acceptor 2, which completes its quorum, and
broadcasts its propose. -/
def schedSelect : List Move :=
  schedSelectSecond ++ [.timeout 1, .attempt 1, .proposerRecv 2 0]

/-- The three promises for proposer 2 pending after `schedSelectSent`: by
acceptor 0 reporting the accepted proposal of proposer 0, by acceptor 1
reporting the accepted proposal of proposer 1, and by acceptor 2 reporting
none. -/
def promisesSelect : List message :=
  [.promise { i := some 2, nProposers := 3 } { i := some 0, nProposers := 3 } "v0" 0,
   .promise { i := some 2, nProposers := 3 } { i := some 1, nProposers := 3 } "v1" 1,
   .promise { i := some 2, nProposers := 3 } { i := none, nProposers := 0 } "" 2]

/-- What the first receive loop has selected when the promises among `seen`
have been received, all of them in the store `h`: no promise seen reports an
accepted epoch above `maxEpoch`; `maxEpoch` and `value` are the accepted epoch
and value of a promise seen, unless `maxEpoch` is still `Epoch{}`, in which
case no promise seen reports an accepted epoch and `value` is still empty. -/
def proposer.Selected (h : Heap) (seen : List message) (s : ProposerState) : Prop :=
  s.maxEpoch.nilOrReal ∧
  (∀ e ae av id, message.promise e ae av id ∈ seen → ae.Nil = false →
    s.maxEpoch.Nil = false ∧ ae.val h ≤ s.maxEpoch.val h) ∧
  (s.maxEpoch.Nil = false → ∃ e id, message.promise e s.maxEpoch s.value id ∈ seen) ∧
  (s.maxEpoch.Nil = true → s.value = "")
/-! ## config.go and main.go: `Run` and `runPaxos` -/

/-- Whether lossy channels with drop probability `drop` can make the move.  The
worker of a channel delivers a message when `rand.Float64() >= l.drop` and
discards it otherwise, and `rand.Float64()` lies in [0, 1): a delivery needs
`drop < 1`, a loss needs `0 < drop`. -/
def Move.allowed (drop : ℚ) : Move → Bool
  | .proposerRecv _ _ => decide (drop < 1)
  | .acceptorRecv _ _ => decide (drop < 1)
  | .dropProposer _ _ => decide (0 < drop)
  | .dropAcceptor _ _ => decide (0 < drop)
  | .attempt _ => true
  | .timeout _ => true

/-- The goroutines of `nProposers` proposers and `nAcceptors` acceptors, linked
by lossy channels with drop probability `drop`, along the moves `acts`; `none`
when `acts` is not a schedule of that system (a move is not possible in the
state it meets, or the channels cannot make it). -/
def System.execute (drop : ℚ) (nProposers nAcceptors : Nat) (acts : List Move) : Option System :=
  if acts.all (Move.allowed drop) = true then (System.init nProposers nAcceptors).run acts
  else none

/-- Whether the goroutine `run` of a channel just made by
`newLossyChannel(size, timeout, drop)` panics in the first iteration of its
first call of `receive`, before any message has been sent to the channel. -/
def lossyChannel.workerPanics (size : Int) (drop : ℚ) : Bool :=
  match (lossyChannel.run 1 (Piped.new size drop ([] : List message)) [tickInput]).2 with
  | .panicked => true
  | _ => false

/-- What has been started after the first `k` of the `go` statements that `Run`
executes for `a` acceptors and `n` proposers, in their order: the workers of
the `a` acceptor channels, the `a` acceptors, the workers of the `n` proposer
channels, the `n` proposers. -/
def Started.after (a n k : Nat) : Started :=
  { channels := min k a + min (k - 2 * a) n
    acceptors := min (k - a) a
    proposers := min (k - (2 * a + n)) n }

/-- The method `Config.Run`: `newAcceptors`, `newProposers`, `checkValues`.
Besides the configuration the outcome depends on the scheduling of the
goroutines: `early` is the number of `go` statements executed when the panic of
a channel worker stops the process (used when the workers panic), and `acts`
is the schedule of the proposers, acceptors and channels, which determines the
values sent on the value channel, read by `checkValues` in that order.  The
result is what has been started and how the call ends (`blocked` when
`checkValues` is still waiting for a value after `acts`); `none` when `acts`
is not a schedule of the system. -/
def Config.Run (c : Config) (early : Nat) (acts : List Move) :
    Option (Started × Ending (Option String)) :=
  match c.newAcceptors with
  | none => some ({ channels := 0, acceptors := 0, proposers := 0 }, .panicked)
  | some a =>
    match c.newProposers with
    | none =>
      if lossyChannel.workerPanics c.Buffer c.Drop = true ∧ 0 < a then
        some (Started.after a 0 (max 1 (min early (2 * a))), .panicked)
      else some ({ channels := a, acceptors := a, proposers := 0 }, .panicked)
    | some n =>
      if lossyChannel.workerPanics c.Buffer c.Drop = true ∧ 0 < a + n then
        some (Started.after a n (max 1 (min early (2 * (a + n)))), .panicked)
      else
        match System.execute c.Drop n a acts with
        | none => none
        | some s =>
          some ({ channels := a + n, acceptors := a, proposers := n }, c.checkValues s.values)

/-- The function `newAcceptors(n, buffer, timeout, drop)` of package main: the
number of acceptors created, `none` when a `make` panics. -/
def newAcceptors (n buffer : Int) : Option Nat :=
  if n < 0 then none
  else if 0 < n ∧ buffer < 0 then none
  else some n.toNat

/-- The function `newProposers(n, buffer, ...)` of package main: the number of
proposers created, `none` when a `make` panics. -/
def newProposers (n buffer : Int) : Option Nat :=
  if n < 0 then none
  else if 0 < n ∧ buffer < 0 then none
  else some n.toNat

/-- A configuration whose channels have size 0. -/
def configNoBuffer : Config :=
  { NProposers := 1, NAcceptors := 1, ProposerTimeout := 100000000, ChannelTimeout := 10000000,
    Buffer := 0, Drop := 1 }

/-- A schedule of one proposer and one acceptor in which the prepare of the
first attempt is lost and the proposer retries. -/
def schedLost : List Move := [.attempt 0, .dropAcceptor 0 0, .timeout 0, .attempt 0]

/-- The proposals accepted during a run, oldest first, each with the integer
its epoch denoted when the acceptor accepted it. -/
def acceptor.acceptedInts : List Event → List Snapshot → List (WithBot Int × String)
  | .recv (.propose e v _ _) :: es, c :: t =>
    if c.out = [] then acceptor.acceptedInts es t
    else (e.val c.heap, v) :: acceptor.acceptedInts es t
  | _ :: es, _ :: t => acceptor.acceptedInts es t
  | _, _ => []

/-- The pairs (accepted epoch, accepted value) reported by the promises sent
during a run, in the order of sending, each epoch as the integer it denoted
when the promise was sent. -/
def acceptor.reports : List Snapshot → List (WithBot Int × String)
  | [] => []
  | c :: t =>
    c.out.filterMap (fun o => (o.2.report c.heap).map (fun r => r.2)) ++ acceptor.reports t

/-- An acceptor run in which proposer 0 sends prepare and propose for its first
epoch, calls `Next`, and sends the prepare of its second attempt. -/
def eventsRetry : List Event :=
  [.recv (.prepare epochP0 0 0), .recv (.propose epochP0 "v0" 0 0), .next epochP0,
   .recv (.prepare epochP0 0 0)]

/-! # Properties -/

/-! ## Epoch comparison -/

/-- On two real epochs `bigCmp` returns the sign of the integer comparison. -/
theorem bigCmp_some (h : Heap) (a b : Nat) :
    bigCmp h (some a) (some b) =
      some (if h.cell a < h.cell b then -1 else if h.cell a = h.cell b then 0 else 1) := by
  unfold bigCmp
  by_cases hab : a = b
  · subst hab; simp
  · simp [hab]

/-- The acceptor guard on a real request epoch: it never fails, and it holds
exactly when the promised epoch is nil or not above the request epoch. -/
theorem acceptor_guard_eq (h : Heap) (pe e : Epoch) (he : e.nil = false) :
    acceptor.guard h pe e = some (decide (pe.nil = true ∨ pe.val h ≤ e.val h)) := by
  obtain ⟨pi, pn⟩ := pe
  obtain ⟨ei, en⟩ := e
  cases ei with
  | none => simp [Epoch.nil] at he
  | some a =>
    cases pi with
    | none => simp [acceptor.guard, Epoch.nil]
    | some b =>
      simp only [acceptor.guard, Epoch.nil, Epoch.cmp, Epoch.val, bigCmp_some, Option.isNone_some,
        WithBot.coe_le_coe]
      by_cases h1 : h.cell a < h.cell b
      · have : ¬ h.cell b ≤ h.cell a := by omega
        simp [h1, this]
      · by_cases h2 : h.cell a = h.cell b
        · simp [h2]
        · have : h.cell b ≤ h.cell a := by omega
          simp [h1, h2, this]

/-- The prepare branch of a step on a real request epoch, as one equation. -/
theorem acceptor_step_prepare (id : Int) (h : Heap) (s : AcceptorState) (e : Epoch)
    (pid : Int) (r : Nat) (he : e.nil = false) :
    acceptor.step id h s (.prepare e pid r) =
      some (if s.promisedEpoch.nil = true ∨ s.promisedEpoch.val h ≤ e.val h then
        ({ promisedEpoch := e, acceptedEpoch := s.acceptedEpoch, acceptedValue := s.acceptedValue },
          [(r, .promise e s.acceptedEpoch s.acceptedValue id)])
      else (s, [])) := by
  simp only [acceptor.step, acceptor_guard_eq h s.promisedEpoch e he]
  split_ifs with hc <;> simp [hc]

/-- The propose branch of a step on a real request epoch, as one equation. -/
theorem acceptor_step_propose (id : Int) (h : Heap) (s : AcceptorState) (e : Epoch)
    (v : String) (pid : Int) (r : Nat) (he : e.nil = false) :
    acceptor.step id h s (.propose e v pid r) =
      some (if s.promisedEpoch.nil = true ∨ s.promisedEpoch.val h ≤ e.val h then
        ({ promisedEpoch := e, acceptedEpoch := e, acceptedValue := v }, [(r, .accept e id)])
      else (s, [])) := by
  simp only [acceptor.step, acceptor_guard_eq h s.promisedEpoch e he]
  split_ifs with hc <;> simp [hc]

/-- C4 (acceptor prepare rule): for every acceptor state and every prepare with
a non-nil epoch `e`, if `promisedEpoch` is nil or `e >= promisedEpoch` (as
integers) the step sets `promisedEpoch := e`, keeps the accepted pair and sends
exactly one `promise(e, acceptedEpoch, acceptedValue, id)` on `replyTo`;
otherwise the state is unchanged and nothing is sent. -/
theorem acceptor_prepare_rule (id : Int) (h : Heap) (s : AcceptorState) (e : Epoch)
    (pid : Int) (r : Nat) (he : e.nil = false) :
    acceptor.step id h s (.prepare e pid r) =
      some (if s.promisedEpoch.nil = true ∨ s.promisedEpoch.val h ≤ e.val h then
        ({ promisedEpoch := e, acceptedEpoch := s.acceptedEpoch, acceptedValue := s.acceptedValue },
          [(r, .promise e s.acceptedEpoch s.acceptedValue id)])
      else (s, [])) := by
  simp only [acceptor.step, acceptor_guard_eq h s.promisedEpoch e he]
  by_cases hc : s.promisedEpoch.nil = true ∨ s.promisedEpoch.val h ≤ e.val h
  · simp [hc]
  · simp [hc]

/-- C5 (acceptor propose rule): for every acceptor state and every propose with
a non-nil epoch `e` and value `v`, if `promisedEpoch` is nil or
`e >= promisedEpoch` (as integers) the new state is `(e, e, v)` and exactly one
`accept(e, id)` is sent on `replyTo`; otherwise the state is unchanged and
nothing is sent. -/
theorem acceptor_propose_rule (id : Int) (h : Heap) (s : AcceptorState) (e : Epoch)
    (v : String) (pid : Int) (r : Nat) (he : e.nil = false) :
    acceptor.step id h s (.propose e v pid r) =
      some (if s.promisedEpoch.nil = true ∨ s.promisedEpoch.val h ≤ e.val h then
        ({ promisedEpoch := e, acceptedEpoch := e, acceptedValue := v }, [(r, .accept e id)])
      else (s, [])) := by
  simp only [acceptor.step, acceptor_guard_eq h s.promisedEpoch e he]
  by_cases hc : s.promisedEpoch.nil = true ∨ s.promisedEpoch.val h ≤ e.val h
  · simp [hc]
  · simp [hc]

/-- Witness of C4: an acceptor that promised and accepted epoch 0 honours the
prepare of epoch 1. -/
theorem acceptor_prepare_rule_witness :
    epochP1.nil = false ∧
    acceptor.step 0 heap01
        { promisedEpoch := epochP0, acceptedEpoch := epochP0, acceptedValue := "v0" }
        (.prepare epochP1 1 1) =
      some (if epochP0.nil = true ∨ epochP0.val heap01 ≤ epochP1.val heap01 then
        ({ promisedEpoch := epochP1, acceptedEpoch := epochP0, acceptedValue := "v0" },
          [(1, .promise epochP1 epochP0 "v0" 0)])
      else ({ promisedEpoch := epochP0, acceptedEpoch := epochP0, acceptedValue := "v0" }, [])) :=
  ⟨rfl, acceptor_prepare_rule 0 heap01
    { promisedEpoch := epochP0, acceptedEpoch := epochP0, acceptedValue := "v0" } epochP1 1 1 rfl⟩

/-- Witness of C5: an acceptor that promised epoch 1 ignores the propose of
epoch 0. -/
theorem acceptor_propose_rule_witness :
    epochP0.nil = false ∧
    acceptor.step 0 heap01
        { promisedEpoch := epochP1, acceptedEpoch := nilEpoch, acceptedValue := "" }
        (.propose epochP0 "v0" 0 0) =
      some (if epochP1.nil = true ∨ epochP1.val heap01 ≤ epochP0.val heap01 then
        ({ promisedEpoch := epochP0, acceptedEpoch := epochP0, acceptedValue := "v0" },
          [(0, .accept epochP0 0)])
      else ({ promisedEpoch := epochP1, acceptedEpoch := nilEpoch, acceptedValue := "" }, [])) :=
  ⟨rfl, acceptor_propose_rule 0 heap01
    { promisedEpoch := epochP1, acceptedEpoch := nilEpoch, acceptedValue := "" } epochP0 "v0" 0 0 rfl⟩

/-- The guard holds for an epoch against itself, whatever the epoch. -/
theorem acceptor_guard_self (h : Heap) (e : Epoch) : acceptor.guard h e e = some true := by
  unfold acceptor.guard
  by_cases hn : e.nil = true
  · simp [hn]
  · simp [hn, Epoch.cmp, bigCmp]

/-- C9 (re-prepare idempotence): when the acceptor honours `prepare(e)` (the
step sends a reply), handling the same `prepare(e)` again right away is
honoured too, sends the same promise (same epoch, acceptedEpoch, acceptedValue)
and leaves the acceptor state unchanged. -/
theorem acceptor_reprepare_idempotent (id : Int) (h : Heap) (s s1 : AcceptorState) (e : Epoch)
    (pid : Int) (r : Nat) (out : List (Nat × message))
    (hstep : acceptor.step id h s (.prepare e pid r) = some (s1, out)) (hout : out ≠ []) :
    out = [(r, .promise e s.acceptedEpoch s.acceptedValue id)] ∧
    acceptor.step id h s1 (.prepare e pid r) = some (s1, out) := by
  simp only [acceptor.step] at hstep
  cases hg : acceptor.guard h s.promisedEpoch e with
  | none => simp [hg] at hstep
  | some b =>
    cases b with
    | false =>
      simp [hg] at hstep
      exact absurd hstep.2 hout
    | true =>
      simp [hg] at hstep
      obtain ⟨hs, ho⟩ := hstep
      subst hs
      subst ho
      simp [acceptor.step, acceptor_guard_self]

/-- Witness of C9: the first prepare of epoch 0 at a fresh acceptor. -/
theorem acceptor_reprepare_idempotent_witness :
    [((0 : Nat), message.promise epochP0 nilEpoch "" 0)] =
        [(0, .promise epochP0 acceptor.init.acceptedEpoch acceptor.init.acceptedValue 0)] ∧
    acceptor.step 0 heap01 { acceptor.init with promisedEpoch := epochP0 } (.prepare epochP0 0 0) =
      some ({ acceptor.init with promisedEpoch := epochP0 },
        [(0, .promise epochP0 nilEpoch "" 0)]) :=
  acceptor_reprepare_idempotent 0 heap01 acceptor.init { acceptor.init with promisedEpoch := epochP0 }
    epochP0 0 0 [(0, .promise epochP0 nilEpoch "" 0)] rfl (by simp)

/-- Counterexample to C10 as stated: comparing the nil epoch with the real
epoch 0 (in either order, with `Cmp` or `cmp`) does not return -1 or +1: the
call fails on the nil pointer. -/
theorem Cmp_nil_real_fails :
    Epoch.Cmp nilEpoch epochP0 heap01 ≠ some (-1) ∧ Epoch.Cmp epochP0 nilEpoch heap01 ≠ some 1 ∧
    Epoch.Cmp nilEpoch epochP0 heap01 = none ∧ Epoch.Cmp epochP0 nilEpoch heap01 = none ∧
    Epoch.cmp nilEpoch epochP0 heap01 = none ∧ Epoch.cmp epochP0 nilEpoch heap01 = none := by
  have h1 : Epoch.Cmp nilEpoch epochP0 heap01 = none := rfl
  have h2 : Epoch.Cmp epochP0 nilEpoch heap01 = none := rfl
  refine ⟨?_, ?_, h1, h2, rfl, rfl⟩
  · rw [h1]; exact fun h => Option.noConfusion h
  · rw [h2]; exact fun h => Option.noConfusion h

/-- C10 amended: on real epochs `Cmp` (and `cmp`) never fails and returns the
three-way comparison of the two integers, so it is a total order by integer
value there; two nil epochs compare equal; with exactly one nil operand the
call fails instead of ordering nil below the real epoch. -/
theorem Cmp_orders_real_epochs (h : Heap) (a b : Nat) (n m : Int) :
    (Epoch.Cmp ⟨some a, n⟩ ⟨some b, m⟩ h =
      some (if h.cell a < h.cell b then -1 else if h.cell a = h.cell b then 0 else 1)) ∧
    (Epoch.cmp ⟨some a, n⟩ ⟨some b, m⟩ h = Epoch.Cmp ⟨some a, n⟩ ⟨some b, m⟩ h) ∧
    (Epoch.Cmp ⟨some a, n⟩ ⟨some b, m⟩ h = some (-1) ↔ h.cell a < h.cell b) ∧
    (Epoch.Cmp ⟨some a, n⟩ ⟨some b, m⟩ h = some 0 ↔ h.cell a = h.cell b) ∧
    (Epoch.Cmp ⟨some a, n⟩ ⟨some b, m⟩ h = some 1 ↔ h.cell b < h.cell a) ∧
    Epoch.Cmp nilEpoch nilEpoch h = some 0 ∧
    Epoch.Cmp ⟨none, n⟩ ⟨some b, m⟩ h = none ∧
    Epoch.Cmp ⟨some a, n⟩ ⟨none, m⟩ h = none := by
  have hc := bigCmp_some h a b
  refine ⟨hc, rfl, ?_, ?_, ?_, rfl, rfl, rfl⟩
  · simp only [Epoch.Cmp, hc]
    by_cases h1 : h.cell a < h.cell b
    · simp [h1]
    · by_cases h2 : h.cell a = h.cell b
      · simp [h2]
      · simp [h1, h2]
  · simp only [Epoch.Cmp, hc]
    by_cases h1 : h.cell a < h.cell b
    · have : h.cell a ≠ h.cell b := by omega
      simp [h1, this]
    · by_cases h2 : h.cell a = h.cell b
      · simp [h2]
      · simp [h1, h2]
  · simp only [Epoch.Cmp, hc]
    by_cases h1 : h.cell a < h.cell b
    · have : ¬ h.cell b < h.cell a := by omega
      simp [h1, this]
    · by_cases h2 : h.cell a = h.cell b
      · simp [h2]
      · have : h.cell b < h.cell a := by omega
        simp [h1, h2, this]

/-! ## Acceptor runs -/

/-- A call of `Next` on a real epoch succeeds. -/
theorem Next_some (e : Epoch) (h : Heap) (he : e.i ≠ none) :
    ∃ h1, e.Next h = some (e, h1) ∧
      ∀ b, h1.cell b = if some b = e.i then h.cell b + e.nProposers else h.cell b := by
  obtain ⟨ei, en⟩ := e
  cases ei with
  | none => exact absurd rfl he
  | some a =>
    refine ⟨h.write a (h.cell a + en), rfl, ?_⟩
    intro b
    by_cases hb : b = a
    · subst hb; simp [Heap.write]
    · simp [Heap.write, hb]

/-- No epoch denotes a smaller integer after a call of `Next` with a
non-negative population size. -/
theorem Next_val_le (e e1 : Epoch) (h h1 : Heap) (hn : e.Next h = some (e1, h1))
    (hpos : 0 ≤ e.nProposers) (x : Epoch) : x.val h ≤ x.val h1 := by
  have hi : e.i ≠ none := by
    intro hi
    simp [Epoch.Next, bigAdd, hi] at hn
  obtain ⟨h2, hs, hcell⟩ := Next_some e h hi
  rw [hs] at hn
  simp only [Option.some.injEq, Prod.mk.injEq] at hn
  obtain ⟨-, rfl⟩ := hn
  obtain ⟨xi, xn⟩ := x
  cases xi with
  | none => simp [Epoch.val]
  | some b =>
    simp only [Epoch.val, WithBot.coe_le_coe, hcell b]
    split_ifs <;> omega

/-- A step on a well-formed message succeeds, does not lower the promised
epoch, and every reply it sends carries the new promised epoch. -/
theorem acceptor_step_promised (id : Int) (h : Heap) (s : AcceptorState) (m : message)
    (hwf : (Event.recv m).wf) :
    ∃ s1 out, acceptor.step id h s m = some (s1, out) ∧
      s.promisedEpoch.val h ≤ s1.promisedEpoch.val h ∧
      ∀ o ∈ out, ∀ e, o.2.ackEpoch = some e → e = s1.promisedEpoch := by
  cases m with
  | prepare e pid r =>
    have he : e.nil = false := by
      simp only [Event.wf] at hwf
      cases hi : e.i with
      | none => exact absurd hi hwf
      | some a => simp [Epoch.nil, hi]
    rw [acceptor_step_prepare id h s e pid r he]
    by_cases hc : s.promisedEpoch.nil = true ∨ s.promisedEpoch.val h ≤ e.val h
    · refine ⟨_, _, by rw [if_pos hc], ?_, ?_⟩
      · rcases hc with hc | hc
        · have : s.promisedEpoch.val h = ⊥ := by
            cases hi : s.promisedEpoch.i with
            | none => simp [Epoch.val, hi]
            | some a => simp [Epoch.nil, hi] at hc
          rw [this]; exact bot_le
        · exact hc
      · intro o ho e1 he1
        simp only [List.mem_singleton] at ho
        subst ho
        simpa [message.ackEpoch] using he1.symm
    · refine ⟨_, _, by rw [if_neg hc], le_refl _, ?_⟩
      intro o ho
      simp at ho
  | propose e v pid r =>
    have he : e.nil = false := by
      simp only [Event.wf] at hwf
      cases hi : e.i with
      | none => exact absurd hi hwf
      | some a => simp [Epoch.nil, hi]
    rw [acceptor_step_propose id h s e v pid r he]
    by_cases hc : s.promisedEpoch.nil = true ∨ s.promisedEpoch.val h ≤ e.val h
    · refine ⟨_, _, by rw [if_pos hc], ?_, ?_⟩
      · rcases hc with hc | hc
        · have : s.promisedEpoch.val h = ⊥ := by
            cases hi : s.promisedEpoch.i with
            | none => simp [Epoch.val, hi]
            | some a => simp [Epoch.nil, hi] at hc
          rw [this]; exact bot_le
        · exact hc
      · intro o ho e1 he1
        simp only [List.mem_singleton] at ho
        subst ho
        simpa [message.ackEpoch] using he1.symm
    · refine ⟨_, _, by rw [if_neg hc], le_refl _, ?_⟩
      intro o ho
      simp at ho
  | promise e ae av aid =>
    exact ⟨s, [], rfl, le_refl _, by intro o ho; simp at ho⟩
  | accept e aid =>
    exact ⟨s, [], rfl, le_refl _, by intro o ho; simp at ho⟩

/-- Along a well-formed run: the run does not fail, the promised epoch never
decreases from one snapshot to the next, the acknowledged epochs are
non-decreasing, and none of them is below the promised epoch at the start. -/
theorem acceptor_run_monotone_aux (id : Int) (evs : List Event) :
    ∀ (h : Heap) (s : AcceptorState), (∀ ev ∈ evs, ev.wf) →
    ∃ t, acceptor.run id h s evs = some t ∧
      List.Chain (fun x y => x ≤ y) (s.promisedEpoch.val h)
        (t.map (fun c => c.state.promisedEpoch.val c.heap)) ∧
      List.Pairwise (fun x y => x ≤ y) (acceptor.acks t) ∧
      ∀ b ∈ acceptor.acks t, s.promisedEpoch.val h ≤ b := by
  induction evs with
  | nil =>
    intro h s _
    exact ⟨[], rfl, List.Chain.nil, List.Pairwise.nil, by intro b hb; simp [acceptor.acks] at hb⟩
  | cons ev es ih =>
    intro h s hwf
    have hev : ev.wf := hwf ev (List.mem_cons_self _ _)
    have hes : ∀ e ∈ es, e.wf := fun e he => hwf e (List.mem_cons_of_mem _ he)
    cases ev with
    | recv m =>
      obtain ⟨s1, out, hstep, hle, hout⟩ := acceptor_step_promised id h s m hev
      obtain ⟨t, hrun, hchain, hpw, hlow⟩ := ih h s1 hes
      refine ⟨{ heap := h, state := s1, out := out } :: t, ?_, ?_, ?_, ?_⟩
      · simp [acceptor.run, hstep, hrun]
      · exact List.Chain.cons hle hchain
      · simp only [acceptor.acks]
        rw [List.pairwise_append]
        refine ⟨?_, hpw, ?_⟩
        · rw [List.pairwise_iff_forall_sublist]
          intro a b hab
          have ha : a ∈ (out.filterMap (fun o => o.2.ackEpoch)).map (fun e => e.val h) :=
            hab.subset (List.mem_cons_self _ _)
          have hb : b ∈ (out.filterMap (fun o => o.2.ackEpoch)).map (fun e => e.val h) :=
            hab.subset (List.mem_cons_of_mem _ (List.mem_cons_self _ _))
          simp only [List.mem_map, List.mem_filterMap] at ha hb
          obtain ⟨e1, ⟨o1, ho1, he1⟩, rfl⟩ := ha
          obtain ⟨e2, ⟨o2, ho2, he2⟩, rfl⟩ := hb
          rw [hout o1 ho1 e1 he1, hout o2 ho2 e2 he2]
        · intro a ha b hb
          simp only [List.mem_map, List.mem_filterMap] at ha
          obtain ⟨e1, ⟨o1, ho1, he1⟩, rfl⟩ := ha
          rw [hout o1 ho1 e1 he1]
          exact hlow b hb
      · intro b hb
        simp only [acceptor.acks, List.mem_append] at hb
        rcases hb with hb | hb
        · simp only [List.mem_map, List.mem_filterMap] at hb
          obtain ⟨e1, ⟨o1, ho1, he1⟩, rfl⟩ := hb
          rw [hout o1 ho1 e1 he1]
          exact hle
        · exact le_trans hle (hlow b hb)
    | next e =>
      simp only [Event.wf] at hev
      obtain ⟨h1, hnext, -⟩ := Next_some e h hev.1
      have hmono := Next_val_le e e h h1 hnext hev.2
      obtain ⟨t, hrun, hchain, hpw, hlow⟩ := ih h1 s hes
      refine ⟨{ heap := h1, state := s, out := [] } :: t, ?_, ?_, ?_, ?_⟩
      · simp [acceptor.run, hnext, hrun]
      · exact List.Chain.cons (hmono _) hchain
      · simpa [acceptor.acks] using hpw
      · intro b hb
        simp only [acceptor.acks, List.filterMap_nil, List.map_nil, List.nil_append] at hb
        exact le_trans (hmono _) (hlow b hb)

/-- C6 (acceptor monotonicity): for every acceptor, started in any state and
store, and every sequence of received messages with real epochs, interleaved
with any calls of `Next` by the proposers, the run does not fail, the integer
of `promisedEpoch` never decreases from one step to the next (nil counting as
least), and the integers of the epochs carried by the successive promise and
accept replies, read when each reply is sent, are non-decreasing. -/
theorem acceptor_monotone (id : Int) (h : Heap) (s : AcceptorState) (evs : List Event)
    (hwf : ∀ ev ∈ evs, ev.wf) :
    ∃ t, acceptor.run id h s evs = some t ∧
      List.Chain (fun x y => x ≤ y) (s.promisedEpoch.val h)
        (t.map (fun c => c.state.promisedEpoch.val c.heap)) ∧
      List.Pairwise (fun x y => x ≤ y) (acceptor.acks t) := by
  obtain ⟨t, h1, h2, h3, -⟩ := acceptor_run_monotone_aux id evs h s hwf
  exact ⟨t, h1, h2, h3⟩

/-- Witness of C6: the run `eventsAdvance` of a fresh acceptor. -/
theorem acceptor_monotone_witness :
    (∀ ev ∈ eventsAdvance, ev.wf) ∧
    ∃ t, acceptor.run 0 heap01 acceptor.init eventsAdvance = some t ∧
      List.Chain (fun x y => x ≤ y) (acceptor.init.promisedEpoch.val heap01)
        (t.map (fun c => c.state.promisedEpoch.val c.heap)) ∧
      List.Pairwise (fun x y => x ≤ y) (acceptor.acks t) :=
  have hwf : ∀ ev ∈ eventsAdvance, ev.wf := by
    intro ev hev
    simp only [eventsAdvance, List.mem_cons, List.mem_singleton, List.not_mem_nil, or_false] at hev
    rcases hev with rfl | rfl | rfl | rfl <;> simp [Event.wf, epochP0, epochP1, newEpoch, Heap.NewInt]
  ⟨hwf, acceptor_monotone 0 heap01 acceptor.init eventsAdvance hwf⟩

/-- C7 at the failing run: a fresh acceptor promises and accepts epoch 0 of
proposer 0, promises epoch 1 of proposer 1, and proposer 0 then calls `Next`.
The pairs (integer of promisedEpoch, integer of acceptedEpoch) after the four
events are (0, nil), (0, 0), (1, 0), (1, 2): in the last state acceptedEpoch is
above promisedEpoch.  The same state of acceptor 0 is reached in the system of
2 proposers and 3 acceptors by `schedAdvance`. -/
theorem acceptor_accepted_above_promised :
    (∀ ev ∈ eventsAdvance, ev.wf) ∧
    (acceptor.run 0 heap01 acceptor.init eventsAdvance).map
        (fun t => t.map (fun c =>
          (c.state.promisedEpoch.val c.heap, c.state.acceptedEpoch.val c.heap))) =
      some [(((0 : Int) : WithBot Int), ⊥), (((0 : Int) : WithBot Int), ((0 : Int) : WithBot Int)),
        (((1 : Int) : WithBot Int), ((0 : Int) : WithBot Int)),
        (((1 : Int) : WithBot Int), ((2 : Int) : WithBot Int))] ∧
    ((System.init 2 3).run schedAdvance).map
        (fun s => s.acceptors.map (fun a =>
          (a.promisedEpoch.val s.heap, a.acceptedEpoch.val s.heap))) =
      some [(((1 : Int) : WithBot Int), ((2 : Int) : WithBot Int)),
        (((2 : Int) : WithBot Int), ⊥), (⊥, ⊥)] ∧
    ¬ (((2 : Int) : WithBot Int) ≤ ((1 : Int) : WithBot Int)) := by
  refine ⟨?_, rfl, rfl, by simp⟩
  intro ev hev
  simp only [eventsAdvance, List.mem_cons, List.mem_singleton, List.not_mem_nil, or_false] at hev
  rcases hev with rfl | rfl | rfl | rfl <;> simp [Event.wf, epochP0, epochP1, newEpoch, Heap.NewInt]

/-- Along a run whose requests carry real epochs and non-empty values, the
accepted epoch is nil exactly when the accepted value is the empty string,
provided this holds at the start. -/
theorem acceptor_accepted_nil_iff_empty (id : Int) (evs : List Event) :
    ∀ (h : Heap) (s : AcceptorState) (t : List Snapshot),
    (s.acceptedEpoch.nil = true ↔ s.acceptedValue = "") →
    (∀ ev ∈ evs, ev.wf ∧ ev.valued) →
    acceptor.run id h s evs = some t →
    ∀ c ∈ t, (c.state.acceptedEpoch.nil = true ↔ c.state.acceptedValue = "") := by
  induction evs with
  | nil =>
    intro h s t _ _ hrun c hc
    simp only [acceptor.run, Option.some.injEq] at hrun
    subst hrun
    simp at hc
  | cons ev es ih =>
    intro h s t hs hwf hrun c hc
    have hev := hwf ev (List.mem_cons_self _ _)
    have hes : ∀ e ∈ es, e.wf ∧ e.valued := fun e he => hwf e (List.mem_cons_of_mem _ he)
    cases ev with
    | next e =>
      simp only [acceptor.run] at hrun
      cases hn : e.Next h with
      | none => simp [hn] at hrun
      | some r =>
        obtain ⟨e1, h1⟩ := r
        simp only [hn] at hrun
        cases hr : acceptor.run id h1 s es with
        | none => simp [hr] at hrun
        | some t1 =>
          simp only [hr, Option.some.injEq] at hrun
          subst hrun
          rcases List.mem_cons.mp hc with rfl | hc1
          · exact hs
          · exact ih h1 s t1 hs hes hr c hc1
    | recv m =>
      simp only [acceptor.run] at hrun
      cases hst : acceptor.step id h s m with
      | none => simp [hst] at hrun
      | some r =>
        obtain ⟨s1, out⟩ := r
        simp only [hst] at hrun
        cases hr : acceptor.run id h s1 es with
        | none => simp [hr] at hrun
        | some t1 =>
          simp only [hr, Option.some.injEq] at hrun
          subst hrun
          have hs1 : s1.acceptedEpoch.nil = true ↔ s1.acceptedValue = "" := by
            cases m with
            | prepare e pid r =>
              have he : e.nil = false := by
                have h0 := hev.1
                simp only [Event.wf] at h0
                cases hi : e.i with
                | none => exact absurd hi h0
                | some a => simp [Epoch.nil, hi]
              rw [acceptor_step_prepare id h s e pid r he] at hst
              simp only [Option.some.injEq] at hst
              split_ifs at hst <;> simp only [Prod.mk.injEq] at hst <;> obtain ⟨rfl, -⟩ := hst <;>
                exact hs
            | propose e v pid r =>
              have he : e.nil = false := by
                have h0 := hev.1
                simp only [Event.wf] at h0
                cases hi : e.i with
                | none => exact absurd hi h0
                | some a => simp [Epoch.nil, hi]
              have hv : v ≠ "" := hev.2
              rw [acceptor_step_propose id h s e v pid r he] at hst
              simp only [Option.some.injEq] at hst
              split_ifs at hst <;> simp only [Prod.mk.injEq] at hst <;> obtain ⟨rfl, -⟩ := hst
              · simp [he, hv]
              · exact hs
            | promise e ae av aid =>
              simp only [acceptor.step, Option.some.injEq, Prod.mk.injEq] at hst
              obtain ⟨rfl, -⟩ := hst
              exact hs
            | accept e aid =>
              simp only [acceptor.step, Option.some.injEq, Prod.mk.injEq] at hst
              obtain ⟨rfl, -⟩ := hst
              exact hs
          rcases List.mem_cons.mp hc with rfl | hc1
          · exact hs1
          · exact ih h s1 t1 hs1 hes hr c hc1

/-- The last element of a non-empty list, with a default. -/
theorem getLast_cons_getD {α : Type} (x d : α) (l : List α) :
    ((x :: l).getLast?).getD d = (l.getLast?).getD x := by
  induction l generalizing x d with
  | nil => rfl
  | cons y l ih => rw [List.getLast?_cons_cons, ih y d, ih y x]

/-- The accepted pair after a step of a run: the pair of the propose when the
step answered a propose, the previous pair otherwise. -/
theorem acceptor_accepted_step (id : Int) (h : Heap) (s s1 : AcceptorState) (m : message)
    (out : List (Nat × message)) (hstep : acceptor.step id h s m = some (s1, out))
    (es : List Event) (t : List Snapshot) (hp : Heap) :
    ((acceptor.accepted (.recv m :: es) ({ heap := hp, state := s1, out := out } :: t)).getLast?).getD
        (s.acceptedEpoch, s.acceptedValue) =
      ((acceptor.accepted es t).getLast?).getD (s1.acceptedEpoch, s1.acceptedValue) := by
  cases m with
  | prepare e pid r =>
    have hs : s1.acceptedEpoch = s.acceptedEpoch ∧ s1.acceptedValue = s.acceptedValue := by
      simp only [acceptor.step] at hstep
      cases hg : acceptor.guard h s.promisedEpoch e with
      | none => simp [hg] at hstep
      | some b =>
        cases b <;> simp [hg] at hstep <;> obtain ⟨rfl, -⟩ := hstep <;> exact ⟨rfl, rfl⟩
    simp [acceptor.accepted, hs.1, hs.2]
  | propose e v pid r =>
    simp only [acceptor.step] at hstep
    cases hg : acceptor.guard h s.promisedEpoch e with
    | none => simp [hg] at hstep
    | some b =>
      cases b with
      | false =>
        simp [hg] at hstep
        obtain ⟨rfl, rfl⟩ := hstep
        simp [acceptor.accepted]
      | true =>
        simp [hg] at hstep
        obtain ⟨rfl, rfl⟩ := hstep
        simp only [acceptor.accepted]
        rw [if_neg (by simp), getLast_cons_getD]
  | promise e ae av aid =>
    simp only [acceptor.step, Option.some.injEq, Prod.mk.injEq] at hstep
    obtain ⟨rfl, rfl⟩ := hstep
    simp [acceptor.accepted]
  | accept e aid =>
    simp only [acceptor.step, Option.some.injEq, Prod.mk.injEq] at hstep
    obtain ⟨rfl, rfl⟩ := hstep
    simp [acceptor.accepted]

/-- The promise sent for a prepare that follows the events `pre` carries the
pair of the last propose accepted during `pre`, or the accepted pair of the
starting state when there is none. -/
theorem acceptor_promise_reports_aux (id : Int) (e : Epoch) (pid : Int) (r : Nat)
    (post : List Event) (pre : List Event) :
    ∀ (h : Heap) (s : AcceptorState),
    (∀ ev ∈ pre ++ .recv (.prepare e pid r) :: post, ev.wf) →
    ∃ tpre c tpost,
      acceptor.run id h s (pre ++ .recv (.prepare e pid r) :: post) = some (tpre ++ c :: tpost) ∧
      tpre.length = pre.length ∧
      (c.out = [] ∨
        c.out = [(r, .promise e
          (((acceptor.accepted pre tpre).getLast?).getD (s.acceptedEpoch, s.acceptedValue)).1
          (((acceptor.accepted pre tpre).getLast?).getD (s.acceptedEpoch, s.acceptedValue)).2
          id)]) := by
  induction pre with
  | nil =>
    intro h s hwf
    have hev : (Event.recv (.prepare e pid r)).wf := hwf _ (by simp)
    have he : e.nil = false := by
      simp only [Event.wf] at hev
      cases hi : e.i with
      | none => exact absurd hi hev
      | some a => simp [Epoch.nil, hi]
    have hstep := acceptor_step_prepare id h s e pid r he
    by_cases hc : s.promisedEpoch.nil = true ∨ s.promisedEpoch.val h ≤ e.val h
    · rw [if_pos hc] at hstep
      obtain ⟨t, ht, -⟩ := acceptor_run_monotone_aux id post h
        { promisedEpoch := e, acceptedEpoch := s.acceptedEpoch, acceptedValue := s.acceptedValue }
        (fun ev hev => hwf ev (by simp [hev]))
      refine ⟨[], Snapshot.mk h (AcceptorState.mk e s.acceptedEpoch s.acceptedValue)
        [(r, .promise e s.acceptedEpoch s.acceptedValue id)], t, ?_, rfl, Or.inr ?_⟩
      · simp [acceptor.run, hstep, ht]
      · simp [acceptor.accepted]
    · rw [if_neg hc] at hstep
      obtain ⟨t, ht, -⟩ := acceptor_run_monotone_aux id post h s
        (fun ev hev => hwf ev (by simp [hev]))
      refine ⟨[], Snapshot.mk h s [], t, ?_, rfl, Or.inl ?_⟩
      · simp [acceptor.run, hstep, ht]
      · rfl
  | cons ev pre ih =>
    intro h s hwf
    have hev : ev.wf := hwf ev (by simp)
    have hrest : ∀ x ∈ pre ++ .recv (.prepare e pid r) :: post, x.wf :=
      fun x hx => hwf x (by simp only [List.cons_append, List.mem_cons]; exact Or.inr hx)
    cases ev with
    | recv m =>
      obtain ⟨s1, out, hstep, -, -⟩ := acceptor_step_promised id h s m hev
      obtain ⟨tpre, c, tpost, hrun, hlen, hout⟩ := ih h s1 hrest
      refine ⟨{ heap := h, state := s1, out := out } :: tpre, c, tpost, ?_, by simp [hlen], ?_⟩
      · simp [acceptor.run, hstep, hrun]
      · rw [acceptor_accepted_step id h s s1 m out hstep pre tpre h]
        exact hout
    | next x =>
      simp only [Event.wf] at hev
      obtain ⟨h1, hnext, -⟩ := Next_some x h hev.1
      obtain ⟨tpre, c, tpost, hrun, hlen, hout⟩ := ih h1 s hrest
      refine ⟨{ heap := h1, state := s, out := [] } :: tpre, c, tpost, ?_, by simp [hlen], ?_⟩
      · simp [acceptor.run, hnext, hrun]
      · simpa [acceptor.accepted] using hout

/-- The promise carries the fields of the last accepted propose: in every run
of an acceptor from its initial state, along messages with real epochs
interleaved with any calls of `Next`, the step that handles a prepare either
sends nothing or sends one promise whose fields acceptedEpoch and acceptedValue
are the `Epoch` struct (the pointer to the `big.Int`, not the integer it held)
and the value of the most recent propose the acceptor accepted earlier in the
run, and `nilEpoch` and "" when it accepted none. -/
theorem acceptor_promise_reports_last_accepted (id : Int) (h : Heap) (e : Epoch) (pid : Int)
    (r : Nat) (pre post : List Event)
    (hwf : ∀ ev ∈ pre ++ .recv (.prepare e pid r) :: post, ev.wf) :
    ∃ tpre c tpost,
      acceptor.run id h acceptor.init (pre ++ .recv (.prepare e pid r) :: post) =
        some (tpre ++ c :: tpost) ∧
      tpre.length = pre.length ∧
      (c.out = [] ∨
        c.out = [(r, .promise e
          (((acceptor.accepted pre tpre).getLast?).getD (nilEpoch, "")).1
          (((acceptor.accepted pre tpre).getLast?).getD (nilEpoch, "")).2 id)]) :=
  acceptor_promise_reports_aux id e pid r post pre h acceptor.init hwf

/-- An instance: the prepare of proposer 1 in the run `eventsAdvance`, which
follows the acceptance of the proposal (0, "v0") of proposer 0. -/
theorem acceptor_promise_reports_last_accepted_witness :
    (∀ ev ∈ [Event.recv (.prepare epochP0 0 0), Event.recv (.propose epochP0 "v0" 0 0)] ++
        Event.recv (.prepare epochP1 1 1) :: [Event.next epochP0], ev.wf) ∧
    ∃ tpre c tpost,
      acceptor.run 0 heap01 acceptor.init
          ([Event.recv (.prepare epochP0 0 0), Event.recv (.propose epochP0 "v0" 0 0)] ++
            Event.recv (.prepare epochP1 1 1) :: [Event.next epochP0]) =
        some (tpre ++ c :: tpost) ∧
      tpre.length =
        [Event.recv (.prepare epochP0 0 0), Event.recv (.propose epochP0 "v0" 0 0)].length ∧
      (c.out = [] ∨
        c.out = [(1, .promise epochP1
          (((acceptor.accepted
            [Event.recv (.prepare epochP0 0 0), Event.recv (.propose epochP0 "v0" 0 0)]
            tpre).getLast?).getD (nilEpoch, "")).1
          (((acceptor.accepted
            [Event.recv (.prepare epochP0 0 0), Event.recv (.propose epochP0 "v0" 0 0)]
            tpre).getLast?).getD (nilEpoch, "")).2 0)]) :=
  have hwf : ∀ ev ∈ [Event.recv (.prepare epochP0 0 0), Event.recv (.propose epochP0 "v0" 0 0)] ++
      Event.recv (.prepare epochP1 1 1) :: [Event.next epochP0], ev.wf := by
    intro ev hev
    simp only [List.cons_append, List.nil_append, List.mem_cons, List.mem_singleton,
      List.not_mem_nil, or_false] at hev
    rcases hev with rfl | rfl | rfl | rfl <;> simp [Event.wf, epochP0, epochP1, newEpoch, Heap.NewInt]
  ⟨hwf, acceptor_promise_reports_last_accepted 0 heap01 epochP1 1 1
    [Event.recv (.prepare epochP0 0 0), Event.recv (.propose epochP0 "v0" 0 0)]
    [Event.next epochP0] hwf⟩

/-! ## Validity -/

/-- Messages pending after a broadcast are the broadcast message or were
pending before. -/
theorem mem_broadcast (chans : List (List message)) (m x : message) (c : List message)
    (hc : c ∈ broadcast chans m) (hx : x ∈ c) : x = m ∨ ∃ c0 ∈ chans, x ∈ c0 := by
  simp only [broadcast, List.mem_map] at hc
  obtain ⟨c0, hc0, rfl⟩ := hc
  simp only [List.mem_append, List.mem_singleton] at hx
  rcases hx with hx | hx
  · exact Or.inr ⟨c0, hc0, hx⟩
  · exact Or.inl hx

/-- Messages pending after a send are the sent message or were pending before. -/
theorem mem_sendTo (chans : List (List message)) (r : Nat) (m x : message) (c : List message)
    (hc : c ∈ sendTo chans r m) (hx : x ∈ c) : x = m ∨ ∃ c0 ∈ chans, x ∈ c0 := by
  induction chans generalizing r with
  | nil => simp [sendTo] at hc
  | cons c1 cs ih =>
    cases r with
    | zero =>
      simp only [sendTo, List.mem_cons] at hc
      rcases hc with rfl | hc
      · simp only [List.mem_append, List.mem_singleton] at hx
        rcases hx with hx | hx
        · exact Or.inr ⟨c1, List.mem_cons_self _ _, hx⟩
        · exact Or.inl hx
      · exact Or.inr ⟨c, List.mem_cons_of_mem _ hc, hx⟩
    | succ r =>
      simp only [sendTo, List.mem_cons] at hc
      rcases hc with rfl | hc
      · exact Or.inr ⟨c, List.mem_cons_self _ _, hx⟩
      · rcases ih r hc with h1 | ⟨c0, hc0, hx0⟩
        · exact Or.inl h1
        · exact Or.inr ⟨c0, List.mem_cons_of_mem _ hc0, hx0⟩

/-- Messages pending after the sends of an acceptor step are among the
messages sent or were pending before. -/
theorem mem_sendAll (out : List (Nat × message)) (chans : List (List message)) (x : message)
    (c : List message) (hc : c ∈ sendAll chans out) (hx : x ∈ c) :
    (∃ o ∈ out, x = o.2) ∨ ∃ c0 ∈ chans, x ∈ c0 := by
  induction out generalizing chans with
  | nil => exact Or.inr ⟨c, by simpa [sendAll] using hc, hx⟩
  | cons o os ih =>
    have hc1 : c ∈ sendAll (sendTo chans o.1 o.2) os := by simpa [sendAll] using hc
    rcases ih (sendTo chans o.1 o.2) hc1 with ⟨o1, ho1, hx1⟩ | ⟨c0, hc0, hx0⟩
    · exact Or.inl ⟨o1, List.mem_cons_of_mem _ ho1, hx1⟩
    · rcases mem_sendTo chans o.1 o.2 x c0 hc0 hx0 with h1 | h1
      · exact Or.inl ⟨o, List.mem_cons_self _ _, h1⟩
      · exact Or.inr h1

/-- The message taken from a channel was pending, and what stays pending was
pending before. -/
theorem takeFrom_mem (chans chans1 : List (List message)) (i k : Nat) (m : message)
    (ht : takeFrom chans i k = some (m, chans1)) :
    (∃ c0 ∈ chans, m ∈ c0) ∧ ∀ c ∈ chans1, ∀ x ∈ c, ∃ c0 ∈ chans, x ∈ c0 := by
  unfold takeFrom at ht
  cases hci : chans[i]? with
  | none => simp [hci] at ht
  | some c0 =>
    cases hmk : c0.get? k with
    | none => rw [hci] at ht; simp only [hmk] at ht; exact absurd ht (by simp)
    | some m0 =>
      rw [hci] at ht
      simp only [hmk, Option.some.injEq, Prod.mk.injEq] at ht
      obtain ⟨rfl, rfl⟩ := ht
      have hc0 : c0 ∈ chans := List.getElem?_mem hci
      refine ⟨⟨c0, hc0, List.get?_mem hmk⟩, ?_⟩
      intro c hc x hx
      rcases List.mem_or_eq_of_mem_set hc with h1 | h1
      · exact ⟨c, h1, hx⟩
      · subst h1
        exact ⟨c0, hc0, List.mem_of_mem_eraseIdx hx⟩

/-- The first receive loop keeps the value absent or a candidate value and
does not move the goroutine. -/
theorem proposer_onPromise_ok (n : Nat) (h : Heap) (ps s1 : ProposerState) (m : message)
    (hv : emptyOrCandidate n ps.value) (hm : message.valueOK n m)
    (hr : proposer.onPromise h ps m = some s1) :
    emptyOrCandidate n s1.value ∧ s1.pc = ps.pc := by
  cases m with
  | promise e ae av aid =>
    simp only [proposer.onPromise] at hr
    cases hg : proposer.greater h ae ps.maxEpoch with
    | none => simp [hg] at hr
    | some b =>
      cases b with
      | false =>
        simp only [hg, Option.some.injEq] at hr
        subst hr
        exact ⟨hv, rfl⟩
      | true =>
        simp only [hg, Option.some.injEq] at hr
        subst hr
        exact ⟨hm, rfl⟩
  | prepare e pid r =>
    simp only [proposer.onPromise, Option.some.injEq] at hr
    subst hr
    exact ⟨hv, rfl⟩
  | propose e v pid r =>
    simp only [proposer.onPromise, Option.some.injEq] at hr
    subst hr
    exact ⟨hv, rfl⟩
  | accept e aid =>
    simp only [proposer.onPromise, Option.some.injEq] at hr
    subst hr
    exact ⟨hv, rfl⟩

/-- The second receive loop changes neither the value nor the position. -/
theorem proposer_onAccept_ok (h : Heap) (ps s1 : ProposerState) (m : message)
    (hr : proposer.onAccept h ps m = some s1) : s1.value = ps.value ∧ s1.pc = ps.pc := by
  cases m with
  | accept e aid =>
    simp only [proposer.onAccept] at hr
    cases hc : ps.epoch.Cmp e h with
    | none => simp [hc] at hr
    | some c =>
      simp only [hc] at hr
      by_cases h0 : c = 0
      · simp only [h0, if_true, Option.some.injEq] at hr
        subst hr
        exact ⟨rfl, rfl⟩
      · simp only [h0, if_false, Option.some.injEq] at hr
        subst hr
        exact ⟨rfl, rfl⟩
  | prepare e pid r =>
    simp only [proposer.onAccept, Option.some.injEq] at hr
    subst hr
    exact ⟨rfl, rfl⟩
  | propose e v pid r =>
    simp only [proposer.onAccept, Option.some.injEq] at hr
    subst hr
    exact ⟨rfl, rfl⟩
  | promise e ae av aid =>
    simp only [proposer.onAccept, Option.some.injEq] at hr
    subst hr
    exact ⟨rfl, rfl⟩

/-- A receive of proposer `p` keeps its value admissible; the propose it may
broadcast and the value it may decide are candidate values. -/
theorem proposer_recv_ok (n p : Nat) (hp : p < n) (r nA : Nat) (h : Heap)
    (ps ps1 : ProposerState) (m : message) (o : Outcome)
    (hps : emptyOrCandidate n ps.value ∧ (ps.pc = .phase2 → isCandidate n ps.value))
    (hm : message.valueOK n m)
    (hr : proposer.recv (p : Int) r nA h ps m = some (ps1, o)) :
    (emptyOrCandidate n ps1.value ∧ (ps1.pc = .phase2 → isCandidate n ps1.value)) ∧
    (∀ m1, o = .broadcast m1 → message.valueOK n m1) ∧
    (∀ v, o = .decide v → isCandidate n v) := by
  unfold proposer.recv at hr
  cases hpc : ps.pc with
  | start => simp [hpc] at hr
  | phase1 =>
    simp only [hpc] at hr
    cases hon : proposer.onPromise h ps m with
    | none => simp [hon] at hr
    | some s1 =>
      obtain ⟨hv1, hpc1⟩ := proposer_onPromise_ok n h ps s1 m hps.1 hm hon
      simp only [hon] at hr
      by_cases hq : s1.promisedAcceptors.length < quorum nA
      · simp only [hq, if_true, Option.some.injEq, Prod.mk.injEq] at hr
        obtain ⟨rfl, rfl⟩ := hr
        refine ⟨⟨hv1, ?_⟩, ?_, ?_⟩
        · intro h2; rw [hpc1, hpc] at h2; exact absurd h2 (by decide)
        · intro m1 h1; exact absurd h1 (by simp)
        · intro v h1; exact absurd h1 (by simp)
      · simp only [hq, if_false, Option.some.injEq, Prod.mk.injEq] at hr
        obtain ⟨rfl, rfl⟩ := hr
        have hcand : isCandidate n (if s1.value = "" then candidateValue (p : Int) else s1.value) := by
          by_cases he : s1.value = ""
          · rw [if_pos he]; exact ⟨p, hp, rfl⟩
          · rw [if_neg he]
            rcases hv1 with h1 | h1
            · exact absurd h1 he
            · exact h1
        refine ⟨⟨Or.inr hcand, fun _ => hcand⟩, ?_, ?_⟩
        · intro m1 h1
          simp only [Outcome.broadcast.injEq] at h1
          subst h1
          exact hcand
        · intro v h1; exact absurd h1 (by simp)
  | phase2 =>
    simp only [hpc] at hr
    cases hon : proposer.onAccept h ps m with
    | none => simp [hon] at hr
    | some s1 =>
      obtain ⟨hv1, hpc1⟩ := proposer_onAccept_ok h ps s1 m hon
      have hcand : isCandidate n s1.value := by rw [hv1]; exact hps.2 hpc
      simp only [hon] at hr
      by_cases hq : s1.acceptedAcceptors.length < quorum nA
      · simp only [hq, if_true, Option.some.injEq, Prod.mk.injEq] at hr
        obtain ⟨rfl, rfl⟩ := hr
        refine ⟨⟨Or.inr hcand, fun _ => hcand⟩, ?_, ?_⟩
        · intro m1 h1; exact absurd h1 (by simp)
        · intro v h1; exact absurd h1 (by simp)
      · simp only [hq, if_false, Option.some.injEq, Prod.mk.injEq] at hr
        obtain ⟨rfl, rfl⟩ := hr
        refine ⟨⟨Or.inr hcand, fun _ => hcand⟩, ?_, ?_⟩
        · intro m1 h1; exact absurd h1 (by simp)
        · intro v h1
          simp only [Outcome.decide.injEq] at h1
          subst h1
          exact hcand

/-- An acceptor step keeps the accepted value admissible and sends only
messages with admissible values. -/
theorem acceptor_step_ok (n : Nat) (id : Int) (h : Heap) (st st1 : AcceptorState) (m : message)
    (out : List (Nat × message)) (hst : emptyOrCandidate n st.acceptedValue)
    (hm : message.valueOK n m) (hr : acceptor.step id h st m = some (st1, out)) :
    emptyOrCandidate n st1.acceptedValue ∧ ∀ o ∈ out, message.valueOK n o.2 := by
  cases m with
  | prepare e pid r =>
    simp only [acceptor.step] at hr
    cases hg : acceptor.guard h st.promisedEpoch e with
    | none => simp [hg] at hr
    | some b =>
      cases b with
      | false =>
        simp only [hg, Option.some.injEq, Prod.mk.injEq] at hr
        obtain ⟨rfl, rfl⟩ := hr
        exact ⟨hst, by intro o ho; simp at ho⟩
      | true =>
        simp only [hg, Option.some.injEq, Prod.mk.injEq] at hr
        obtain ⟨rfl, rfl⟩ := hr
        refine ⟨hst, ?_⟩
        intro o ho
        simp only [List.mem_singleton] at ho
        subst ho
        exact hst
  | propose e v pid r =>
    simp only [acceptor.step] at hr
    cases hg : acceptor.guard h st.promisedEpoch e with
    | none => simp [hg] at hr
    | some b =>
      cases b with
      | false =>
        simp only [hg, Option.some.injEq, Prod.mk.injEq] at hr
        obtain ⟨rfl, rfl⟩ := hr
        exact ⟨hst, by intro o ho; simp at ho⟩
      | true =>
        simp only [hg, Option.some.injEq, Prod.mk.injEq] at hr
        obtain ⟨rfl, rfl⟩ := hr
        refine ⟨Or.inr hm, ?_⟩
        intro o ho
        simp only [List.mem_singleton] at ho
        subst ho
        trivial
  | promise e ae av aid =>
    simp only [acceptor.step, Option.some.injEq, Prod.mk.injEq] at hr
    obtain ⟨rfl, rfl⟩ := hr
    exact ⟨hst, by intro o ho; simp at ho⟩
  | accept e aid =>
    simp only [acceptor.step, Option.some.injEq, Prod.mk.injEq] at hr
    obtain ⟨rfl, rfl⟩ := hr
    exact ⟨hst, by intro o ho; simp at ho⟩

/-- Replacing one proposer by an admissible one keeps all proposers admissible. -/
theorem proposers_set_ok (n : Nat) (l : List ProposerState) (p : Nat) (ps1 : ProposerState)
    (hl : ∀ q ∈ l, emptyOrCandidate n q.value ∧ (q.pc = .phase2 → isCandidate n q.value))
    (h1 : emptyOrCandidate n ps1.value ∧ (ps1.pc = .phase2 → isCandidate n ps1.value)) :
    ∀ q ∈ l.set p ps1, emptyOrCandidate n q.value ∧ (q.pc = .phase2 → isCandidate n q.value) := by
  intro q hq
  rcases List.mem_or_eq_of_mem_set hq with h | h
  · exact hl q h
  · subst h; exact h1

/-- Every move of the system preserves the invariant. -/
theorem System.step_valuesOK (n : Nat) (s s1 : System) (a : Move) (hinv : s.ValuesOK n)
    (hstep : s.step a = some s1) : s1.ValuesOK n := by
  cases a with
  | attempt p =>
    simp only [System.step] at hstep
    cases hps : s.proposers[p]? with
    | none => simp [hps] at hstep
    | some ps =>
      simp only [hps] at hstep
      by_cases hpc : ps.pc ≠ .start
      · simp [hpc] at hstep
      · simp only [hpc, if_false] at hstep
        cases hat : proposer.attempt (p : Int) (s.proposers.length : Int) p s.heap ps with
        | none => simp [hat] at hstep
        | some res =>
          obtain ⟨h1, ps1, m⟩ := res
          simp only [hat, Option.some.injEq] at hstep
          subst hstep
          have hres : ps1.value = "" ∧ ps1.pc = .phase1 ∧ ∃ e, m = .prepare e (p : Int) p := by
            unfold proposer.attempt at hat
            by_cases hn : ps.epoch.Nil = true
            · simp only [hn, if_true, Option.some.injEq, Prod.mk.injEq] at hat
              obtain ⟨-, rfl, rfl⟩ := hat
              exact ⟨rfl, rfl, _, rfl⟩
            · simp only [hn] at hat
              cases hnx : ps.epoch.Next s.heap with
              | none => simp [hnx] at hat
              | some r =>
                obtain ⟨e1, h2⟩ := r
                simp only [hnx, Option.some.injEq, Prod.mk.injEq] at hat
                obtain ⟨-, rfl, rfl⟩ := hat
                exact ⟨rfl, rfl, _, rfl⟩
          obtain ⟨hv, hp1, e, rfl⟩ := hres
          refine ⟨by simpa using hinv.nprop, hinv.decided, ?_, hinv.propIn, hinv.acceptors, ?_⟩
          · intro c hc x hx
            rcases mem_broadcast s.acceptorIn _ x c hc hx with h2 | ⟨c0, hc0, hx0⟩
            · subst h2; trivial
            · exact hinv.accIn c0 hc0 x hx0
          · refine proposers_set_ok n s.proposers p ps1 hinv.proposers ⟨Or.inl hv, ?_⟩
            intro h2; rw [hp1] at h2; exact absurd h2 (by decide)
  | timeout p =>
    simp only [System.step] at hstep
    cases hps : s.proposers[p]? with
    | none => simp [hps] at hstep
    | some ps =>
      simp only [hps] at hstep
      cases hto : proposer.timeout ps with
      | none => simp [hto] at hstep
      | some ps1 =>
        simp only [hto, Option.some.injEq] at hstep
        subst hstep
        have hmem : ps ∈ s.proposers := List.getElem?_mem hps
        have hres : ps1.value = ps.value ∧ ps1.pc = .start := by
          unfold proposer.timeout at hto
          cases hpc : ps.pc <;> simp [hpc] at hto <;> subst hto <;> exact ⟨rfl, rfl⟩
        refine ⟨by simpa using hinv.nprop, hinv.decided, hinv.accIn, hinv.propIn, hinv.acceptors, ?_⟩
        refine proposers_set_ok n s.proposers p ps1 hinv.proposers ⟨?_, ?_⟩
        · rw [hres.1]; exact (hinv.proposers ps hmem).1
        · intro h2; rw [hres.2] at h2; exact absurd h2 (by decide)
  | proposerRecv p k =>
    simp only [System.step] at hstep
    cases hps : s.proposers[p]? with
    | none => simp [hps] at hstep
    | some ps =>
      simp only [hps] at hstep
      cases htk : takeFrom s.proposerIn p k with
      | none => simp [htk] at hstep
      | some res =>
        obtain ⟨m, chans⟩ := res
        simp only [htk] at hstep
        obtain ⟨⟨c0, hc0, hm0⟩, hrest⟩ := takeFrom_mem s.proposerIn chans p k m htk
        have hm : message.valueOK n m := hinv.propIn c0 hc0 m hm0
        have hchans : ∀ c ∈ chans, ∀ x ∈ c, message.valueOK n x := by
          intro c hc x hx
          obtain ⟨c1, hc1, hx1⟩ := hrest c hc x hx
          exact hinv.propIn c1 hc1 x hx1
        have hmem : ps ∈ s.proposers := List.getElem?_mem hps
        have hp : p < n := by
          have := (List.getElem?_eq_some.mp hps).1
          rw [hinv.nprop] at this
          exact this
        cases hrv : proposer.recv (p : Int) p s.acceptors.length s.heap ps m with
        | none => simp [hrv] at hstep
        | some res =>
          obtain ⟨ps1, o⟩ := res
          obtain ⟨hps1, hbro, hdec⟩ := proposer_recv_ok n p hp p s.acceptors.length s.heap ps ps1 m o
            (hinv.proposers ps hmem) hm hrv
          have hset := proposers_set_ok n s.proposers p ps1 hinv.proposers hps1
          cases o with
          | wait =>
            simp only [hrv, Option.some.injEq] at hstep
            subst hstep
            exact ⟨by simpa using hinv.nprop, hinv.decided, hinv.accIn, hchans, hinv.acceptors, hset⟩
          | broadcast m1 =>
            simp only [hrv, Option.some.injEq] at hstep
            subst hstep
            refine ⟨by simpa using hinv.nprop, hinv.decided, ?_, hchans, hinv.acceptors, hset⟩
            intro c hc x hx
            rcases mem_broadcast s.acceptorIn _ x c hc hx with h2 | ⟨c1, hc1, hx1⟩
            · subst h2; exact hbro _ rfl
            · exact hinv.accIn c1 hc1 x hx1
          | decide v =>
            simp only [hrv, Option.some.injEq] at hstep
            subst hstep
            refine ⟨by simpa using hinv.nprop, ?_, hinv.accIn, hchans, hinv.acceptors, hset⟩
            intro d hd
            simp only [List.mem_append, List.mem_singleton] at hd
            rcases hd with hd | hd
            · exact hinv.decided d hd
            · subst hd; exact hdec v rfl
  | acceptorRecv a k =>
    simp only [System.step] at hstep
    cases hst : s.acceptors[a]? with
    | none => simp [hst] at hstep
    | some st =>
      simp only [hst] at hstep
      cases htk : takeFrom s.acceptorIn a k with
      | none => simp [htk] at hstep
      | some res =>
        obtain ⟨m, chans⟩ := res
        simp only [htk] at hstep
        obtain ⟨⟨c0, hc0, hm0⟩, hrest⟩ := takeFrom_mem s.acceptorIn chans a k m htk
        have hm : message.valueOK n m := hinv.accIn c0 hc0 m hm0
        have hchans : ∀ c ∈ chans, ∀ x ∈ c, message.valueOK n x := by
          intro c hc x hx
          obtain ⟨c1, hc1, hx1⟩ := hrest c hc x hx
          exact hinv.accIn c1 hc1 x hx1
        have hmem : st ∈ s.acceptors := List.getElem?_mem hst
        cases hsp : acceptor.step (a : Int) s.heap st m with
        | none => simp [hsp] at hstep
        | some res =>
          obtain ⟨st1, out⟩ := res
          simp only [hsp, Option.some.injEq] at hstep
          subst hstep
          obtain ⟨hst1, hout⟩ := acceptor_step_ok n (a : Int) s.heap st st1 m out
            (hinv.acceptors st hmem) hm hsp
          refine ⟨hinv.nprop, hinv.decided, hchans, ?_, ?_, hinv.proposers⟩
          · intro c hc x hx
            rcases mem_sendAll out s.proposerIn x c hc hx with ⟨o, ho, rfl⟩ | ⟨c1, hc1, hx1⟩
            · exact hout o ho
            · exact hinv.propIn c1 hc1 x hx1
          · intro q hq
            rcases List.mem_or_eq_of_mem_set hq with h2 | h2
            · exact hinv.acceptors q h2
            · subst h2; exact hst1
  | dropProposer p k =>
    simp only [System.step] at hstep
    cases htk : takeFrom s.proposerIn p k with
    | none => simp [htk] at hstep
    | some res =>
      obtain ⟨m, chans⟩ := res
      simp only [htk, Option.some.injEq] at hstep
      subst hstep
      obtain ⟨-, hrest⟩ := takeFrom_mem s.proposerIn chans p k m htk
      refine ⟨hinv.nprop, hinv.decided, hinv.accIn, ?_, hinv.acceptors, hinv.proposers⟩
      intro c hc x hx
      obtain ⟨c1, hc1, hx1⟩ := hrest c hc x hx
      exact hinv.propIn c1 hc1 x hx1
  | dropAcceptor a k =>
    simp only [System.step] at hstep
    cases htk : takeFrom s.acceptorIn a k with
    | none => simp [htk] at hstep
    | some res =>
      obtain ⟨m, chans⟩ := res
      simp only [htk, Option.some.injEq] at hstep
      subst hstep
      obtain ⟨-, hrest⟩ := takeFrom_mem s.acceptorIn chans a k m htk
      refine ⟨hinv.nprop, hinv.decided, ?_, hinv.propIn, hinv.acceptors, hinv.proposers⟩
      intro c hc x hx
      obtain ⟨c1, hc1, hx1⟩ := hrest c hc x hx
      exact hinv.accIn c1 hc1 x hx1

/-- The invariant holds in the initial system. -/
theorem System.init_valuesOK (n a : Nat) : (System.init n a).ValuesOK n := by
  refine ⟨by simp [System.init], ?_, ?_, ?_, ?_, ?_⟩
  · intro d hd; simp [System.init] at hd
  · intro c hc x hx
    simp only [System.init, List.mem_replicate] at hc
    rw [hc.2] at hx; simp at hx
  · intro c hc x hx
    simp only [System.init, List.mem_replicate] at hc
    rw [hc.2] at hx; simp at hx
  · intro st hst
    simp only [System.init, List.mem_replicate] at hst
    rw [hst.2]; exact Or.inl rfl
  · intro ps hps
    simp only [System.init, List.mem_replicate] at hps
    rw [hps.2]
    exact ⟨Or.inl rfl, fun h => absurd h (by decide)⟩

/-- The invariant holds after any sequence of moves. -/
theorem System.run_valuesOK (n : Nat) (acts : List Move) :
    ∀ s s1 : System, s.ValuesOK n → s.run acts = some s1 → s1.ValuesOK n := by
  induction acts with
  | nil =>
    intro s s1 hinv hrun
    simp only [System.run, Option.some.injEq] at hrun
    subst hrun; exact hinv
  | cons a as ih =>
    intro s s1 hinv hrun
    simp only [System.run] at hrun
    cases hst : s.step a with
    | none => simp [hst] at hrun
    | some s2 =>
      simp only [hst] at hrun
      exact ih s2 s1 (System.step_valuesOK n s s2 a hinv hst) hrun

/-- C2 (validity): in every reachable state of the system of `n` proposers and
`a` acceptors, every value sent on the values channel is the candidate value
`"v<p>"` of some proposer `p < n`; with `n = 1` it is `"v0"`. -/
theorem validity_of_decided_values (n a : Nat) (s : System) (hreach : Reachable n a s) (v : String)
    (hv : v ∈ s.values) :
    (∃ p : Nat, p < n ∧ v = candidateValue (p : Int)) ∧ (n = 1 → v = "v0") := by
  obtain ⟨acts, hrun⟩ := hreach
  have hinv := System.run_valuesOK n acts _ s (System.init_valuesOK n a) hrun
  simp only [System.values, List.mem_map] at hv
  obtain ⟨d, hd, rfl⟩ := hv
  obtain ⟨p, hp, hval⟩ := hinv.decided d hd
  refine ⟨⟨p, hp, hval⟩, ?_⟩
  intro h1
  subst h1
  have : p = 0 := by omega
  subst this
  rw [hval]
  rfl

/-- Witness of C2: one proposer and one acceptor decide "v0". -/
theorem validity_of_decided_values_witness :
    Reachable 1 1 systemSingle ∧ "v0" ∈ systemSingle.values ∧
    ((∃ p : Nat, p < 1 ∧ "v0" = candidateValue (p : Int)) ∧ (1 = 1 → "v0" = "v0")) :=
  have hreach : Reachable 1 1 systemSingle := ⟨schedSingle, rfl⟩
  have hmem : "v0" ∈ systemSingle.values := by decide
  ⟨hreach, hmem, validity_of_decided_values 1 1 systemSingle hreach "v0" hmem⟩

/-! ## Runs on which the system departs from agreement and from the quorum rule -/

/-- C1 at the failing schedules: with 2 proposers and 3 acceptors the state
after `schedDisagree` is reachable and the values sent on the values channel
are "v1" (by proposer 1, epoch 1) and then "v0" (by proposer 0, epoch 2); the
state after `schedStalePromise` is reachable too, with the same two values. -/
theorem agreement_violated :
    (∃ s, Reachable 2 3 s ∧ s.values = ["v1", "v0"] ∧
      s.decided.map (fun d => (d.proposerID, d.epochInt)) =
        [(1, ((1 : Int) : WithBot Int)), (0, ((2 : Int) : WithBot Int))]) ∧
    (∃ s, Reachable 2 3 s ∧ s.values = ["v1", "v0"]) := by
  have h : ((System.init 2 3).run schedDisagree).map
      (fun s => (s.values, s.decided.map (fun d => (d.proposerID, d.epochInt)))) =
      some (["v1", "v0"], [(1, ((1 : Int) : WithBot Int)), (0, ((2 : Int) : WithBot Int))]) := rfl
  have h2 : ((System.init 2 3).run schedStalePromise).map System.values =
      some ["v1", "v0"] := rfl
  constructor
  · cases hr : (System.init 2 3).run schedDisagree with
    | none => rw [hr] at h; exact absurd h (by simp)
    | some s =>
      rw [hr] at h
      simp only [Option.map_some', Option.some.injEq, Prod.mk.injEq] at h
      exact ⟨s, ⟨schedDisagree, hr⟩, h.1, h.2⟩
  · cases hr : (System.init 2 3).run schedStalePromise with
    | none => rw [hr] at h2; exact absurd h2 (by simp)
    | some s =>
      rw [hr] at h2
      simp only [Option.map_some', Option.some.injEq] at h2
      exact ⟨s, ⟨schedStalePromise, hr⟩, h2⟩

/-- C3 at the failing schedule: with 2 proposers and 3 acceptors (quorum 2) the
state after `schedNoQuorum` is reachable; proposer 0 has decided "v1" at the
end of its attempt with epoch 2; the propose branch was executed three times in
all, by acceptor 0 for (0, "v0"), by acceptor 1 for (1, "v1") and by acceptor 1
for (2, "v1"); so the decided epoch and value were accepted by acceptor 1
alone. -/
theorem quorum_requirement_violated :
    ∃ s d, Reachable 2 3 s ∧ s.decided = [d] ∧ d.proposerID = 0 ∧ d.value = "v1" ∧
      d.epochInt = ((2 : Int) : WithBot Int) ∧
      s.accepted.map (fun r => (r.acceptorID, r.epochInt, r.value)) =
        [(0, ((0 : Int) : WithBot Int), "v0"), (1, ((1 : Int) : WithBot Int), "v1"),
         (1, ((2 : Int) : WithBot Int), "v1")] ∧
      acceptorsOf s.accepted d.epoch d.value = [1] ∧
      (acceptorsOf s.accepted d.epoch d.value).length < quorum 3 := by
  have h : ((System.init 2 3).run schedNoQuorum).map
      (fun s => (s.decided.map (fun d => (d.proposerID, d.value, d.epochInt,
          acceptorsOf s.accepted d.epoch d.value)),
        s.accepted.map (fun r => (r.acceptorID, r.epochInt, r.value)))) =
      some ([(0, "v1", ((2 : Int) : WithBot Int), [1])],
        [(0, ((0 : Int) : WithBot Int), "v0"), (1, ((1 : Int) : WithBot Int), "v1"),
         (1, ((2 : Int) : WithBot Int), "v1")]) := rfl
  cases hr : (System.init 2 3).run schedNoQuorum with
  | none => rw [hr] at h; exact absurd h (by simp)
  | some s =>
    rw [hr] at h
    simp only [Option.map_some', Option.some.injEq, Prod.mk.injEq] at h
    obtain ⟨hd, ha⟩ := h
    cases hdl : s.decided with
    | nil => rw [hdl] at hd; exact absurd hd (by simp)
    | cons d ds =>
      rw [hdl] at hd
      simp only [List.map_cons, List.cons.injEq, Prod.mk.injEq, List.map_eq_nil_iff] at hd
      obtain ⟨⟨h1, h2, h3, h4⟩, h5⟩ := hd
      subst h5
      refine ⟨s, d, ⟨schedNoQuorum, hr⟩, hdl, h1, h2, h3, ha, h4, ?_⟩
      rw [h4]
      decide

/-! ## Epoch succession -/

/-- C11 at the failing input: `e := newEpoch(0, 2)` has integer value 0; the
call `e.Next()` returns an epoch with the same `big.Int` pointer, and afterwards
`e` itself has integer value 2.  In the system of 2 proposers and 3 acceptors
(`schedAdvance`), acceptor 0 holds (promisedEpoch, acceptedEpoch) = (1, 0)
before the second attempt of proposer 0 and (1, 2) after it, although it
received no message in between. -/
theorem Next_changes_receiver :
    epochP0.val heap01 = ((0 : Int) : WithBot Int) ∧
    (epochP0.Next heap01).map (fun r => (r.1, r.1.val r.2, epochP0.val r.2)) =
      some (epochP0, ((2 : Int) : WithBot Int), ((2 : Int) : WithBot Int)) ∧
    ((System.init 2 3).run schedAdvance.dropLast).map
        (fun s => s.acceptors.map (fun a =>
          (a.promisedEpoch.val s.heap, a.acceptedEpoch.val s.heap))) =
      some [(((1 : Int) : WithBot Int), ((0 : Int) : WithBot Int)),
        (((0 : Int) : WithBot Int), ⊥), (⊥, ⊥)] ∧
    ((System.init 2 3).run schedAdvance).map
        (fun s => s.acceptors.map (fun a =>
          (a.promisedEpoch.val s.heap, a.acceptedEpoch.val s.heap))) =
      some [(((1 : Int) : WithBot Int), ((2 : Int) : WithBot Int)),
        (((2 : Int) : WithBot Int), ⊥), (⊥, ⊥)] :=
  ⟨rfl, rfl, rfl, rfl⟩

/-- The first attempt of a proposer allocates its epoch: the prepare carries
the epoch now held, which denotes the proposer id. -/
theorem proposer_attempt_first (id n : Int) (r : Nat) (h : Heap) (s : ProposerState)
    (hs : s.epoch.Nil = true) :
    ∃ h1 s1 a, proposer.attempt id n r h s = some (h1, s1, .prepare s1.epoch id r) ∧
      s1.epoch = ⟨some a, n⟩ ∧ h1.cell a = id := by
  refine ⟨(newEpoch id n h).2,
    ProposerState.mk ⟨some h.next, n⟩ .phase1 "" ⟨none, 0⟩ [] [], h.next, ?_, rfl, ?_⟩
  · simp only [proposer.attempt, hs, if_true]
    rfl
  · simp [newEpoch, Heap.NewInt]

/-- A later attempt of a proposer advances the cell of its epoch by the
population size and keeps the pointer. -/
theorem proposer_attempt_later (id n : Int) (r : Nat) (h : Heap) (s : ProposerState) (a : Nat)
    (hs : s.epoch = ⟨some a, n⟩) :
    ∃ h1 s1, proposer.attempt id n r h s = some (h1, s1, .prepare s1.epoch id r) ∧
      s1.epoch = ⟨some a, n⟩ ∧ h1.cell a = h.cell a + n := by
  refine ⟨h.write a (h.cell a + n),
    ProposerState.mk ⟨some a, n⟩ .phase1 "" ⟨none, 0⟩ [] [], ?_, rfl, ?_⟩
  · have hn : s.epoch.Nil = false := by rw [hs]; simp [Epoch.Nil]
    simp only [proposer.attempt, hn, hs]
    rfl
  · simp [Heap.write]

/-- The attempt number `k + 1` of a proposer that starts with no epoch uses the
epoch with integer value `id + k * n`. -/
theorem proposer_attempts_epoch (id n : Int) (r : Nat) (k : Nat) :
    ∀ (h : Heap) (s : ProposerState), s.epoch.Nil = true →
    ∃ h1 s1 a, proposer.attempts id n r k h s = some (h1, s1, .prepare s1.epoch id r) ∧
      s1.epoch = ⟨some a, n⟩ ∧ h1.cell a = id + k * n := by
  have later : ∀ (k : Nat) (h : Heap) (s : ProposerState) (a : Nat), s.epoch = ⟨some a, n⟩ →
      ∃ h1 s1, proposer.attempts id n r k h s = some (h1, s1, .prepare s1.epoch id r) ∧
        s1.epoch = ⟨some a, n⟩ ∧ h1.cell a = h.cell a + (k + 1) * n := by
    intro k
    induction k with
    | zero =>
      intro h s a hs
      obtain ⟨h1, s1, h2, h3, h4⟩ := proposer_attempt_later id n r h s a hs
      exact ⟨h1, s1, h2, h3, by simpa using h4⟩
    | succ k ih =>
      intro h s a hs
      obtain ⟨h1, s1, h2, h3, h4⟩ := proposer_attempt_later id n r h s a hs
      obtain ⟨h5, s5, h6, h7, h8⟩ := ih h1 s1 a h3
      refine ⟨h5, s5, ?_, h7, ?_⟩
      · simp only [proposer.attempts, h2]
        exact h6
      · rw [h8, h4]; push_cast; ring
  intro h s hs
  cases k with
  | zero =>
    obtain ⟨h1, s1, a, h2, h3, h4⟩ := proposer_attempt_first id n r h s hs
    exact ⟨h1, s1, a, h2, h3, by simpa using h4⟩
  | succ k =>
    obtain ⟨h1, s1, a, h2, h3, h4⟩ := proposer_attempt_first id n r h s hs
    obtain ⟨h5, s5, h6, h7, h8⟩ := later k h1 s1 a h3
    refine ⟨h5, s5, a, ?_, h7, ?_⟩
    · simp only [proposer.attempts, h2]
      exact h6
    · rw [h8, h4]; push_cast; ring

/-- C12: for `n >= 1` and every proposer id `p` (in particular `0 <= p < n`), `newEpoch(p, n)`
is a non-nil epoch with integer value `p` and population size `n`; on a real
epoch with population size `n`, `Next` returns an epoch with population size
`n` whose integer value is the value before the call plus `n`; the attempt
number `k + 1` of proposer `p` sends its prepare with the epoch of integer
value `p + k * n`, which is strictly greater than the value used by the attempt
before. -/
theorem epoch_succession (n p : Int) (hn : 1 ≤ n) (h : Heap) (r : Nat) :
    ((newEpoch p n h).1.Nil = false ∧ (newEpoch p n h).1.nil = false ∧
      (newEpoch p n h).1.nProposers = n ∧
      (newEpoch p n h).1.val (newEpoch p n h).2 = ((p : Int) : WithBot Int)) ∧
    (∀ a : Nat, ∃ e1 h1, Epoch.Next ⟨some a, n⟩ h = some (e1, h1) ∧ e1.nProposers = n ∧
      e1.val h1 = ((h.cell a + n : Int) : WithBot Int)) ∧
    (∀ k : Nat, ∃ h1 s1 e1, proposer.attempts p n r k h proposer.init =
        some (h1, s1, .prepare e1 p r) ∧ s1.epoch = e1 ∧
        e1.val h1 = ((p + k * n : Int) : WithBot Int)) ∧
    (∀ k : Nat, p + k * n < p + (k + 1 : Nat) * n) := by
  refine ⟨⟨?_, ?_, rfl, ?_⟩, ?_, ?_, ?_⟩
  · simp [newEpoch, Epoch.Nil]
  · simp [newEpoch, Epoch.nil]
  · simp [newEpoch, Epoch.val, Heap.NewInt]
  · intro a
    refine ⟨⟨some a, n⟩, h.write a (h.cell a + n), rfl, rfl, ?_⟩
    simp [Epoch.val, Heap.write]
  · intro k
    obtain ⟨h1, s1, a, h2, h3, h4⟩ := proposer_attempts_epoch p n r k h proposer.init rfl
    refine ⟨h1, s1, s1.epoch, h2, rfl, ?_⟩
    rw [h3]
    simp [Epoch.val, h4]
  · intro k
    push_cast
    nlinarith

/-- Witness of C12: proposer 1 of 2. -/
theorem epoch_succession_witness :
    ((1 : Int) ≤ 2) ∧
    (((newEpoch 1 2 Heap.empty).1.Nil = false ∧ (newEpoch 1 2 Heap.empty).1.nil = false ∧
      (newEpoch 1 2 Heap.empty).1.nProposers = 2 ∧
      (newEpoch 1 2 Heap.empty).1.val (newEpoch 1 2 Heap.empty).2 = ((1 : Int) : WithBot Int)) ∧
    (∀ a : Nat, ∃ e1 h1, Epoch.Next ⟨some a, 2⟩ Heap.empty = some (e1, h1) ∧ e1.nProposers = 2 ∧
      e1.val h1 = ((Heap.empty.cell a + 2 : Int) : WithBot Int)) ∧
    (∀ k : Nat, ∃ h1 s1 e1, proposer.attempts 1 2 1 k Heap.empty proposer.init =
        some (h1, s1, .prepare e1 1 1) ∧ s1.epoch = e1 ∧
        e1.val h1 = ((1 + k * 2 : Int) : WithBot Int)) ∧
    (∀ k : Nat, (1 : Int) + k * 2 < 1 + (k + 1 : Nat) * 2)) :=
  ⟨by decide, epoch_succession 2 1 (by decide) Heap.empty 1⟩

/-- The result of `j` calls of `Next` on a real epoch: the same epoch struct,
its cell advanced by `j` times the population size, every other cell
unchanged. -/
theorem Epoch_nexts_some (a : Nat) (n : Int) (j : Nat) :
    ∀ h : Heap, ∃ h1, Epoch.nexts j ⟨some a, n⟩ h = some (⟨some a, n⟩, h1) ∧
      h1.cell a = h.cell a + j * n ∧ ∀ b, b ≠ a → h1.cell b = h.cell b := by
  induction j with
  | zero =>
    intro h
    exact ⟨h, rfl, by simp, fun _ _ => rfl⟩
  | succ j ih =>
    intro h
    obtain ⟨h1, h2, h3, h4⟩ := ih (h.write a (h.cell a + n))
    refine ⟨h1, ?_, ?_, ?_⟩
    · simp only [Epoch.nexts]
      exact h2
    · rw [h3]
      simp only [Heap.write, if_true]
      push_cast; ring
    · intro b hb
      rw [h4 b hb]
      simp [Heap.write, hb]

/-- Integers in different residue classes of `[0, n)` stay different after
adding multiples of `n`. -/
theorem residues_differ (n p q : Int) (hp : 0 ≤ p ∧ p < n) (hq : 0 ≤ q ∧ q < n) (hpq : p ≠ q)
    (j k : Nat) : p + j * n ≠ q + k * n := by
  intro heq
  have h1 : (p + j * n) % n = p := by
    rw [Int.add_mul_emod_self]
    exact Int.emod_eq_of_lt hp.1 hp.2
  have h2 : (q + k * n) % n = q := by
    rw [Int.add_mul_emod_self]
    exact Int.emod_eq_of_lt hq.1 hq.2
  rw [heq, h2] at h1
  exact hpq h1.symm

/-- C13 (epoch uniqueness): for distinct proposer ids `p`, `q` in `[0, n)` (so
`n >= 1`) and all `j`, `k`, after `newEpoch(p, n)`, `newEpoch(q, n)`, `j` calls
of `Next` on the first epoch and `k` calls of `Next` on the second, `Cmp` of the
two resulting epochs returns a result different from 0. -/
theorem epochs_of_distinct_proposers_differ (n p q : Int) (hp : 0 ≤ p ∧ p < n)
    (hq : 0 ≤ q ∧ q < n) (hpq : p ≠ q) (j k : Nat) (h : Heap) :
    ∃ ep h3 eq h4 c,
      Epoch.nexts j (newEpoch p n h).1 (newEpoch q n (newEpoch p n h).2).2 = some (ep, h3) ∧
      Epoch.nexts k (newEpoch q n (newEpoch p n h).2).1 h3 = some (eq, h4) ∧
      ep.Cmp eq h4 = some c ∧ c ≠ 0 ∧ eq.Cmp ep h4 ≠ some 0 := by
  obtain ⟨h3, hj, hja, hjb⟩ := Epoch_nexts_some h.next n j (newEpoch q n (newEpoch p n h).2).2
  obtain ⟨h4, hk, hka, hkb⟩ := Epoch_nexts_some (h.next + 1) n k h3
  have hne : h.next ≠ h.next + 1 := by omega
  have hva : h4.cell h.next = p + j * n := by
    rw [hkb _ hne, hja]
    simp [newEpoch, Heap.NewInt]
  have hvb : h4.cell (h.next + 1) = q + k * n := by
    rw [hka, hjb _ (Ne.symm hne)]
    simp [newEpoch, Heap.NewInt]
  have hd := residues_differ n p q hp hq hpq j k
  have hcmp := bigCmp_some h4 h.next (h.next + 1)
  have hcmp2 := bigCmp_some h4 (h.next + 1) h.next
  rw [hva, hvb] at hcmp hcmp2
  refine ⟨⟨some h.next, n⟩, h3, ⟨some (h.next + 1), n⟩, h4, _, hj, hk, hcmp, ?_, ?_⟩
  · by_cases h1 : p + j * n < q + k * n
    · simp [h1]
    · simp [h1, hd]
  · show bigCmp h4 (some (h.next + 1)) (some h.next) ≠ some 0
    rw [hcmp2]
    by_cases h1 : q + k * n < p + j * n
    · simp [h1]
    · simp [h1, Ne.symm hd]

/-- Witness of C13: proposers 0 and 1 of 2, after 3 and 1 calls of `Next`. -/
theorem epochs_of_distinct_proposers_differ_witness :
    ((0 : Int) ≤ 0 ∧ (0 : Int) < 2) ∧ ((0 : Int) ≤ 1 ∧ (1 : Int) < 2) ∧
    ((0 : Int) ≠ 1) ∧
    ∃ ep h3 eq h4 c,
      Epoch.nexts 3 (newEpoch 0 2 Heap.empty).1 (newEpoch 1 2 (newEpoch 0 2 Heap.empty).2).2 =
        some (ep, h3) ∧
      Epoch.nexts 1 (newEpoch 1 2 (newEpoch 0 2 Heap.empty).2).1 h3 = some (eq, h4) ∧
      ep.Cmp eq h4 = some c ∧ c ≠ 0 ∧ eq.Cmp ep h4 ≠ some 0 :=
  ⟨by decide, by decide, by decide,
    epochs_of_distinct_proposers_differ 2 0 1 (by decide) (by decide) (by decide) 3 1 Heap.empty⟩

/-! ## The proposer after a decision -/

/-- C14 at the failing schedule: with 2 proposers and 1 acceptor, after the
first five moves of `schedDecideTwice` proposer 0 has sent "v0" on the values
channel; its next move sends a new prepare to the acceptor; at the end of the
schedule the values channel has received "v0" twice, both times from proposer
0, with epochs 0 and 2, and proposer 1 has sent nothing. -/
theorem proposer_decides_twice :
    ((System.init 2 1).run (schedDecideTwice.take 5)).map
        (fun s => (s.decided.map (fun d => (d.proposerID, d.value)), s.acceptorIn)) =
      some ([(0, "v0")], [[]]) ∧
    ((System.init 2 1).run (schedDecideTwice.take 6)).map
        (fun s => (s.decided.map (fun d => (d.proposerID, d.value)), s.acceptorIn)) =
      some ([(0, "v0")], [[.prepare epochP0 0 0]]) ∧
    ((System.init 2 1).run schedDecideTwice).map
        (fun s => (s.values, s.decided.map (fun d => (d.proposerID, d.epochInt)))) =
      some (["v0", "v0"], [(0, ((0 : Int) : WithBot Int)), (0, ((2 : Int) : WithBot Int))]) ∧
    ∃ s, Reachable 2 1 s ∧ s.values = ["v0", "v0"] ∧
      s.decided.map (fun d => d.proposerID) = [0, 0] := by
  have h : ((System.init 2 1).run schedDecideTwice).map
      (fun s => (s.values, s.decided.map (fun d => d.proposerID))) =
      some (["v0", "v0"], [0, 0]) := rfl
  refine ⟨rfl, rfl, rfl, ?_⟩
  cases hr : (System.init 2 1).run schedDecideTwice with
  | none => rw [hr] at h; exact absurd h (by simp)
  | some s =>
    rw [hr] at h
    simp only [Option.map_some', Option.some.injEq, Prod.mk.injEq] at h
    exact ⟨s, ⟨schedDecideTwice, hr⟩, h.1, h.2⟩

/-! ## The driver -/

/-- The loop of `checkValues` once the first value `f` is read: it reads the
`vs` that follow and sets `problem` when one of them differs from `f`. -/
theorem checkValues_loop_cons (f : String) (vs more : List String) :
    ∀ (rest : List String) (problem : Bool),
    checkValues.loop vs.length (vs ++ more) (f :: rest) problem =
      some (f :: rest ++ vs, problem || vs.any (fun v => decide (v ≠ f))) := by
  induction vs with
  | nil =>
    intro rest problem
    simp [checkValues.loop]
  | cons v vs ih =>
    intro rest problem
    simp only [List.length_cons, List.cons_append, checkValues.loop]
    have h1 : (f :: (rest ++ [v]))[rest.length + 1]? = some v := by
      simp [List.getElem?_append_right]
    have h0 : (f :: (rest ++ [v]))[0]? = some f := by simp
    simp only [h1, h0, List.append_eq]
    have := ih (rest ++ [v]) (if 0 < rest.length + 1 ∧ some v ≠ some f then true else problem)
    simp only [List.cons_append] at this
    rw [this]
    by_cases hv : v = f
    · subst hv
      simp
    · simp [hv]

/-- The loop of `checkValues` from its start on a channel that holds at least
the values `f :: vs`. -/
theorem checkValues_loop_start (f : String) (vs more : List String) :
    checkValues.loop (f :: vs).length (f :: vs ++ more) [] false =
      some (f :: vs, vs.any (fun v => decide (v ≠ f))) := by
  simp only [List.length_cons, List.cons_append, checkValues.loop, List.length_nil, lt_self_iff_false,
    false_and, if_false, List.nil_append]
  simpa using checkValues_loop_cons f vs more [] false

/-- All values of `f :: vs` are equal exactly when none of `vs` differs from `f`. -/
theorem all_equal_iff (f : String) (vs : List String) :
    (∀ x ∈ f :: vs, ∀ y ∈ f :: vs, x = y) ↔ vs.any (fun v => decide (v ≠ f)) = false := by
  constructor
  · intro h
    rw [Bool.eq_false_iff]
    intro hany
    rw [List.any_eq_true] at hany
    obtain ⟨v, hv, hne⟩ := hany
    have := h v (List.mem_cons_of_mem _ hv) f (List.mem_cons_self _ _)
    simp [this] at hne
  · intro h x hx y hy
    have key : ∀ z ∈ f :: vs, z = f := by
      intro z hz
      rcases List.mem_cons.mp hz with rfl | hz
      · rfl
      · by_contra hne
        have : vs.any (fun v => decide (v ≠ f)) = true :=
          List.any_eq_true.mpr ⟨z, hz, by simpa using hne⟩
        rw [h] at this
        exact absurd this (by decide)
    rw [key x hx, key y hy]

/-- The text that `String.intercalate` builds starts with what it has built so
far and contains each of the strings still to be added. -/
theorem intercalate_go_contains (sep : String) (l : List String) :
    ∀ acc : String, (∃ post, String.intercalate.go acc sep l = acc ++ post) ∧
      ∀ v ∈ l, ∃ pre post, String.intercalate.go acc sep l = pre ++ v ++ post := by
  induction l with
  | nil =>
    intro acc
    exact ⟨⟨"", by simp [String.intercalate.go]⟩, fun v hv => absurd hv (by simp)⟩
  | cons a as ih =>
    intro acc
    obtain ⟨⟨post, hpost⟩, hmem⟩ := ih (acc ++ sep ++ a)
    refine ⟨⟨sep ++ a ++ post, ?_⟩, ?_⟩
    · show String.intercalate.go (acc ++ sep ++ a) sep as = _
      rw [hpost]
      simp only [String.append_assoc]
    · intro v hv
      rcases List.mem_cons.mp hv with rfl | hv
      · exact ⟨acc ++ sep, post, hpost⟩
      · obtain ⟨pre, post1, h1⟩ := hmem v hv
        exact ⟨pre, post1, h1⟩

/-- Each string of a list occurs in the text `String.intercalate` builds from
the list. -/
theorem intercalate_contains (sep : String) (l : List String) :
    ∀ v ∈ l, ∃ pre post, sep.intercalate l = pre ++ v ++ post := by
  intro v hv
  cases l with
  | nil => exact absurd hv (by simp)
  | cons a as =>
    obtain ⟨⟨post, hpost⟩, hmem⟩ := intercalate_go_contains sep as a
    rcases List.mem_cons.mp hv with rfl | hv
    · refine ⟨"", post, ?_⟩
      show String.intercalate.go v sep as = _
      rw [hpost]
      simp
    · obtain ⟨pre, post1, h1⟩ := hmem v hv
      exact ⟨pre, post1, h1⟩

/-- The message of the error of `checkValues`, written out. -/
theorem errorText_eq (vals : List String) :
    errorText vals =
      "the following values were agreed, and some of them differ: [" ++
        " ".intercalate vals ++ "]\n" := by
  have h1 : "the following values were agreed, and some of them differ: [" =
      "the following values were agreed, and some of them differ: " ++ "[" := by decide
  have h2 : "]\n" = "]" ++ "\n" := by decide
  rw [h1, h2]
  simp only [errorText, formatValues, String.append_assoc]

/-- C15 (checkValues): for `n >= 1` and every sequence `vals` of `n` strings
read from the values channel (whatever arrives after them), `checkValues`
returns nil exactly when all `n` strings are equal, and otherwise returns the
error whose message is "the following values were agreed, and some of them
differ: " followed by the `n` values read, in the order read, separated by
blanks and enclosed in brackets, and a newline, so that each value read occurs
in the message; the method of `Config` with `NProposers = n` does the same. -/
theorem checkValues_agreement (n : Nat) (hn : 1 ≤ n) (vals more : List String)
    (hlen : vals.length = n) (c : Config) (hc : c.NProposers = n) (ha : 0 ≤ c.NAcceptors) :
    (checkValues n (vals ++ more) = .returned none ↔ ∀ x ∈ vals, ∀ y ∈ vals, x = y) ∧
    ((¬ ∀ x ∈ vals, ∀ y ∈ vals, x = y) →
      checkValues n (vals ++ more) = .returned (some
        ("the following values were agreed, and some of them differ: [" ++
          " ".intercalate vals ++ "]\n"))) ∧
    (∀ v ∈ vals, ∃ pre post,
      "the following values were agreed, and some of them differ: [" ++
        " ".intercalate vals ++ "]\n" = pre ++ v ++ post) ∧
    c.checkValues (vals ++ more) = checkValues n (vals ++ more) := by
  cases vals with
  | nil => simp at hlen; omega
  | cons f vs =>
    have hloop := checkValues_loop_start f vs more
    rw [hlen] at hloop
    have hcv : checkValues n (f :: vs ++ more) =
        checkValues.result (f :: vs) (vs.any (fun v => decide (v ≠ f))) := by
      have h0 : ¬ ((n : Int) < 0) := by omega
      simp only [checkValues, h0, if_false, Int.toNat_ofNat, hloop]
    have hcc : c.checkValues (f :: vs ++ more) =
        checkValues.result (f :: vs) (vs.any (fun v => decide (v ≠ f))) := by
      have h0 : ¬ (c.NAcceptors < 0) := by omega
      simp only [Config.checkValues, h0, if_false, hc, Int.toNat_ofNat, hloop]
    refine ⟨?_, ?_, ?_, by rw [hcv, hcc]⟩
    · rw [hcv, all_equal_iff]
      cases hany : vs.any (fun v => decide (v ≠ f)) <;> simp [checkValues.result]
    · intro hne
      rw [all_equal_iff] at hne
      have hany : vs.any (fun v => decide (v ≠ f)) = true := by
        cases h : vs.any (fun v => decide (v ≠ f))
        · exact absurd h hne
        · rfl
      rw [hcv, hany, ← errorText_eq]
      rfl
    · intro v hv
      obtain ⟨pre, post, h⟩ := intercalate_contains " " (f :: vs) v hv
      refine ⟨"the following values were agreed, and some of them differ: [" ++ pre,
        post ++ "]\n", ?_⟩
      rw [h]
      simp only [String.append_assoc]

/-- Witness of C15: two proposers that decided "v0" and "v1". -/
theorem checkValues_agreement_witness :
    (1 ≤ 2) ∧ (["v0", "v1"].length = 2) ∧
    (configTwo.NProposers = ((2 : Nat) : Int)) ∧ (0 ≤ configTwo.NAcceptors) ∧
    ((checkValues (2 : Nat) (["v0", "v1"] ++ []) = .returned none ↔
        ∀ x ∈ ["v0", "v1"], ∀ y ∈ ["v0", "v1"], x = y) ∧
    ((¬ ∀ x ∈ ["v0", "v1"], ∀ y ∈ ["v0", "v1"], x = y) →
      checkValues (2 : Nat) (["v0", "v1"] ++ []) = .returned (some
        ("the following values were agreed, and some of them differ: [" ++
          " ".intercalate ["v0", "v1"] ++ "]\n"))) ∧
    (∀ v ∈ ["v0", "v1"], ∃ pre post,
      "the following values were agreed, and some of them differ: [" ++
        " ".intercalate ["v0", "v1"] ++ "]\n" = pre ++ v ++ post) ∧
    configTwo.checkValues (["v0", "v1"] ++ []) = checkValues (2 : Nat) (["v0", "v1"] ++ [])) :=
  ⟨by decide, rfl, rfl, by decide,
    checkValues_agreement 2 (by decide) ["v0", "v1"] [] rfl configTwo rfl (by decide)⟩

/-- The error for the values "v0" and "v1", and for three values of which the
last differs. -/
theorem checkValues_message_example :
    checkValues 2 ["v0", "v1"] = .returned (some
      "the following values were agreed, and some of them differ: [v0 v1]\n") ∧
    checkValues 3 ["v1", "v1", "v0", "v2"] = .returned (some
      "the following values were agreed, and some of them differ: [v1 v1 v0]\n") ∧
    checkValues 2 ["v1", "v1"] = .returned none := by
  refine ⟨by decide, by decide, by decide⟩

/-- The loop of `checkValues` keeps the values already read, reads only values
of the channel, and sets `problem` only when two of the values read differ. -/
theorem checkValues_loop_sound (todo : Nat) :
    ∀ (chan vals vals1 : List String) (problem problem1 : Bool),
    checkValues.loop todo chan vals problem = some (vals1, problem1) →
    (∀ x ∈ vals, x ∈ vals1) ∧ (∀ x ∈ vals1, x ∈ vals ∨ x ∈ chan) ∧
    (problem1 = true → problem = true ∨ ∃ x ∈ vals1, ∃ y ∈ vals1, x ≠ y) := by
  induction todo with
  | zero =>
    intro chan vals vals1 problem problem1 h
    simp only [checkValues.loop, Option.some.injEq, Prod.mk.injEq] at h
    obtain ⟨rfl, rfl⟩ := h
    exact ⟨fun x hx => hx, fun x hx => Or.inl hx, fun hp => Or.inl hp⟩
  | succ todo ih =>
    intro chan vals vals1 problem problem1 h
    cases chan with
    | nil => simp [checkValues.loop] at h
    | cons v chan =>
      simp only [checkValues.loop] at h
      obtain ⟨h1, h2, h3⟩ := ih _ _ _ _ _ h
      refine ⟨?_, ?_, ?_⟩
      · intro x hx
        exact h1 x (List.mem_append_left _ hx)
      · intro x hx
        rcases h2 x hx with h4 | h4
        · rcases List.mem_append.mp h4 with h5 | h5
          · exact Or.inl h5
          · simp only [List.mem_singleton] at h5
            subst h5
            exact Or.inr (List.mem_cons_self _ _)
        · exact Or.inr (List.mem_cons_of_mem _ h4)
      · intro hp
        rcases h3 hp with h4 | h4
        · by_cases hc : 0 < vals.length ∧ (vals ++ [v])[vals.length]? ≠ (vals ++ [v])[0]?
          · right
            obtain ⟨hpos, hne⟩ := hc
            have hv : (vals ++ [v])[vals.length]? = some v := by
              simp [List.getElem?_append_right]
            cases vals with
            | nil => simp at hpos
            | cons f rest =>
              have hf : (f :: rest ++ [v])[0]? = some f := by simp
              rw [hv, hf] at hne
              refine ⟨v, h1 v (by simp), f, h1 f (by simp), ?_⟩
              intro heq
              exact hne (by rw [heq])
          · rw [if_neg hc] at h4
            exact Or.inl h4
        · exact Or.inr h4

/-- Putting the element found at position `j` in front and `a` in its place
permutes `a :: t`. -/
theorem set_perm_cons {β : Type} (a b : β) (t : List β) (j : Nat) (hj : t[j]? = some b) :
    (b :: t.set j a).Perm (a :: t) := by
  induction t generalizing j with
  | nil => simp at hj
  | cons c t ih =>
    cases j with
    | zero =>
      simp only [List.getElem?_cons_zero, Option.some.injEq] at hj
      subst hj
      simp only [List.set_cons_zero]
      exact List.Perm.swap _ _ _
    | succ j =>
      simp only [List.getElem?_cons_succ] at hj
      simp only [List.set_cons_succ]
      exact ((List.Perm.swap c b _).trans ((ih j hj).cons c)).trans (List.Perm.swap a c t)

/-- A swap of two positions permutes the list. -/
theorem swapAt_perm {β : Type} (l : List β) : ∀ i j : Nat, (swapAt l i j).Perm l := by
  induction l with
  | nil => intro i j; simp [swapAt]
  | cons c t ih =>
    intro i j
    unfold swapAt
    cases hi : (c :: t)[i]? with
    | none => exact List.Perm.refl _
    | some a =>
      cases hj : (c :: t)[j]? with
      | none => exact List.Perm.refl _
      | some b =>
        simp only []
        cases i with
        | zero =>
          simp only [List.getElem?_cons_zero, Option.some.injEq] at hi
          subst hi
          cases j with
          | zero =>
            simp only [List.getElem?_cons_zero, Option.some.injEq] at hj
            subst hj
            simp
          | succ j =>
            simp only [List.getElem?_cons_succ] at hj
            simp only [List.set_cons_zero, List.set_cons_succ]
            exact set_perm_cons c b t j hj
        | succ i =>
          simp only [List.getElem?_cons_succ] at hi
          cases j with
          | zero =>
            simp only [List.getElem?_cons_zero, Option.some.injEq] at hj
            subst hj
            simp only [List.set_cons_zero, List.set_cons_succ]
            exact set_perm_cons c a t i hi
          | succ j =>
            simp only [List.getElem?_cons_succ] at hj
            simp only [List.set_cons_succ]
            have h := ih i j
            unfold swapAt at h
            simp only [hi, hj] at h
            exact h.cons c

/-- The loop of `rand.Shuffle` permutes the list. -/
theorem shuffleFrom_perm {β : Type} (pick : Nat → Nat) (i : Nat) :
    ∀ l : List β, (shuffleFrom pick i l).Perm l := by
  induction i with
  | zero => intro l; exact List.Perm.refl _
  | succ i ih =>
    intro l
    simp only [shuffleFrom]
    exact (ih _).trans (swapAt_perm l _ _)

/-- The call `rand.Shuffle` permutes the list. -/
theorem shuffle_perm {β : Type} (pick : Nat → Nat) (l : List β) : (shuffle pick l).Perm l :=
  shuffleFrom_perm pick _ l

/-- Accounting for the inner loop of `receive` on an open channel: the
messages taken from the input are exactly the message returned, if any, and
the messages discarded by this loop. -/
theorem lossyChannel.forced_account {α : Type} (ts : List Tick) :
    ∀ (l : lossyChannel α) (d : List (Option α)), l.closed = false →
    ∃ taken, l.input = taken ++ (l.forced d ts).chan.input ∧
      ((l.forced d ts).held).Perm (d ++ l.buf ++ taken.map some) ∧
      l.sameOpen (l.forced d ts).chan := by
  induction ts with
  | nil =>
    intro l d hc
    exact ⟨[], by simp [lossyChannel.forced, Received.chan],
      by simp [lossyChannel.forced, Received.held], hc, rfl, rfl⟩
  | cons t ts ih =>
    intro l d hc
    cases hin : l.input with
    | nil =>
      refine ⟨[], ?_, ?_, ?_⟩
      · simp [lossyChannel.forced, hin, hc, Received.chan]
      · simp [lossyChannel.forced, hin, hc, Received.held]
      · simp [lossyChannel.forced, hin, hc, Received.chan, lossyChannel.sameOpen]
    | cons m rest =>
      by_cases hk : t.draw ≥ l.drop
      · refine ⟨[m], ?_, ?_, ?_⟩
        · simp [lossyChannel.forced, hin, hk, Received.chan]
        · simp only [lossyChannel.forced, hin, hk, if_true, Received.held, List.map_cons,
            List.map_nil]
          rw [← Multiset.coe_eq_coe]
          simp only [← Multiset.coe_add, ← Multiset.cons_coe, ← Multiset.singleton_add,
            Multiset.coe_nil, add_zero]
          abel
        · simp [lossyChannel.forced, hin, hk, Received.chan, lossyChannel.sameOpen, hc]
      · obtain ⟨taken, h1, h2, h3⟩ := ih { l with input := rest } (d ++ [some m]) hc
        have hf : l.forced d (t :: ts) =
            lossyChannel.forced { l with input := rest } (d ++ [some m]) ts := by
          simp [lossyChannel.forced, hin, hk]
        rw [hf]
        refine ⟨m :: taken, ?_, ?_, h3⟩
        · simp only [List.cons_append]
          rw [← h1]
        · refine h2.trans ?_
          simp only [List.map_cons]
          rw [← Multiset.coe_eq_coe]
          simp only [← Multiset.coe_add, ← Multiset.cons_coe, ← Multiset.singleton_add,
            Multiset.coe_nil, add_zero]
          abel

/-- Accounting for a call of `receive` on an open channel: the messages taken
from the input and the buffer at the start are exactly the message returned,
if any, the messages discarded and the buffer at the end. -/
theorem lossyChannel.loop_account {α : Type} (ts : List Tick) :
    ∀ (l : lossyChannel α) (e : Bool) (d : List (Option α)), l.closed = false →
    ∃ taken, l.input = taken ++ (l.loop e d ts).chan.input ∧
      ((l.loop e d ts).held).Perm (d ++ l.buf ++ taken.map some) ∧
      l.sameOpen (l.loop e d ts).chan := by
  induction ts with
  | nil =>
    intro l e d hc
    exact ⟨[], by simp [lossyChannel.loop, Received.chan],
      by simp [lossyChannel.loop, Received.held], hc, rfl, rfl⟩
  | cons t ts ih =>
    intro l e d hc
    by_cases htop : (l.buf.length : Int) ≥ l.size ∨ ((e || t.late) = true ∧ 0 < l.buf.length)
    · cases hs : shuffle t.pick l.buf with
      | nil =>
        have hf : l.loop e d (t :: ts) = .failed l d := by
          simp only [lossyChannel.loop, htop, if_true, hs]
        rw [hf]
        exact ⟨[], by simp [Received.chan], by simp [Received.held], hc, rfl, rfl⟩
      | cons m rest =>
        have hf : l.loop e d (t :: ts) = .returned m { l with buf := rest } d ts := by
          simp only [lossyChannel.loop, htop, if_true, hs]
        rw [hf]
        refine ⟨[], by simp [Received.chan], ?_, hc, rfl, rfl⟩
        have hp := shuffle_perm t.pick l.buf
        rw [hs] at hp
        simp only [Received.held, List.map_nil, List.append_nil]
        refine List.Perm.trans ?_ (List.Perm.append_left d hp)
        rw [← Multiset.coe_eq_coe]
        simp only [← Multiset.coe_add, ← Multiset.cons_coe, ← Multiset.singleton_add]
        abel
    · by_cases htim : t.timer = true ∨ (l.input.isEmpty = true ∧ l.closed = false)
      · by_cases hb : l.buf.length ≤ 0
        · have hf : l.loop e d (t :: ts) = l.forced d ts := by
            simp only [lossyChannel.loop, htop, if_false, htim, if_true, hb]
          rw [hf]
          exact lossyChannel.forced_account ts l d hc
        · have hf : l.loop e d (t :: ts) = l.loop true d ts := by
            simp only [lossyChannel.loop, htop, if_false, htim, if_true, hb]
          rw [hf]
          exact ih l true d hc
      · cases hin : l.input with
        | nil =>
          exfalso
          apply htim
          right
          exact ⟨by simp [hin], hc⟩
        | cons m rest =>
          have htim2 := htim
          rw [hin] at htim2
          by_cases hk : t.draw ≥ l.drop
          · have hf : l.loop e d (t :: ts) =
                lossyChannel.loop { l with input := rest, buf := l.buf ++ [some m] }
                  (e || t.late) d ts := by
              simp only [lossyChannel.loop, htop, if_false, htim, htim2, hin, hk, if_true]
            rw [hf]
            obtain ⟨taken, h1, h2, h3⟩ :=
              ih { l with input := rest, buf := l.buf ++ [some m] } (e || t.late) d hc
            refine ⟨m :: taken, ?_, ?_, h3⟩
            · simp only [List.cons_append]
              rw [← h1]
            · refine h2.trans ?_
              simp only [List.map_cons]
              rw [← Multiset.coe_eq_coe]
              simp only [← Multiset.coe_add, ← Multiset.cons_coe, ← Multiset.singleton_add,
                Multiset.coe_nil, add_zero]
              abel
          · have hf : l.loop e d (t :: ts) =
                lossyChannel.loop { l with input := rest } (e || t.late) (d ++ [some m]) ts := by
              simp only [lossyChannel.loop, htop, if_false, htim, htim2, hin, hk]
            rw [hf]
            obtain ⟨taken, h1, h2, h3⟩ :=
              ih { l with input := rest } (e || t.late) (d ++ [some m]) hc
            refine ⟨m :: taken, ?_, ?_, h3⟩
            · simp only [List.cons_append]
              rw [← h1]
            · refine h2.trans ?_
              simp only [List.map_cons]
              rw [← Multiset.coe_eq_coe]
              simp only [← Multiset.coe_add, ← Multiset.cons_coe, ← Multiset.singleton_add,
                Multiset.coe_nil, add_zero]
              abel

/-- Accounting for successive calls of `receive` on an open channel: the
messages taken from the input and the buffer at the start are exactly the
messages returned, the messages discarded and the buffer at the end. -/
theorem lossyChannel.receives_account {α : Type} (k : Nat) :
    ∀ (l : lossyChannel α) (ts : List Tick), l.closed = false →
    ∃ taken, l.input = taken ++ (l.receives k ts).chan.input ∧
      ((l.receives k ts).returned ++ (l.receives k ts).dropped ++ (l.receives k ts).chan.buf).Perm
        (l.buf ++ taken.map some) ∧
      l.sameOpen (l.receives k ts).chan := by
  induction k with
  | zero =>
    intro l ts hc
    exact ⟨[], by simp [lossyChannel.receives], by simp [lossyChannel.receives], hc, rfl, rfl⟩
  | succ k ih =>
    intro l ts hc
    obtain ⟨taken1, h1, h2, h3⟩ := lossyChannel.loop_account ts l false [] hc
    cases hr : l.loop false [] ts with
    | waiting l1 d =>
      rw [hr] at h1 h2 h3
      simp only [Received.chan, Received.held, List.nil_append] at h1 h2 h3
      refine ⟨taken1, ?_, ?_, ?_⟩
      · simpa [lossyChannel.receives, lossyChannel.receive, hr] using h1
      · simpa [lossyChannel.receives, lossyChannel.receive, hr] using h2
      · simpa [lossyChannel.receives, lossyChannel.receive, hr] using h3
    | failed l1 d =>
      rw [hr] at h1 h2 h3
      simp only [Received.chan, Received.held, List.nil_append] at h1 h2 h3
      refine ⟨taken1, ?_, ?_, ?_⟩
      · simpa [lossyChannel.receives, lossyChannel.receive, hr] using h1
      · simpa [lossyChannel.receives, lossyChannel.receive, hr] using h2
      · simpa [lossyChannel.receives, lossyChannel.receive, hr] using h3
    | returned m l1 d rest =>
      rw [hr] at h1 h2 h3
      simp only [Received.chan, Received.held, List.nil_append] at h1 h2 h3
      obtain ⟨taken2, h4, h5, h6⟩ := ih l1 rest h3.1
      have hrec : l.receives (k + 1) ts =
          { l1.receives k rest with
            returned := m :: (l1.receives k rest).returned,
            dropped := d ++ (l1.receives k rest).dropped } := by
        simp [lossyChannel.receives, lossyChannel.receive, hr]
      rw [hrec]
      refine ⟨taken1 ++ taken2, ?_, ?_, ?_⟩
      · simp only [List.append_assoc]
        rw [← h4]
        exact h1
      · have e1 : ((m :: (l1.receives k rest).returned) ++ (d ++ (l1.receives k rest).dropped) ++
            (l1.receives k rest).chan.buf).Perm
            ((m :: d) ++ ((l1.receives k rest).returned ++ (l1.receives k rest).dropped ++
              (l1.receives k rest).chan.buf)) := by
          rw [← Multiset.coe_eq_coe]
          simp only [← Multiset.coe_add, ← Multiset.cons_coe, ← Multiset.singleton_add]
          abel
        have e2 : ((m :: d) ++ (l1.buf ++ taken2.map some)).Perm
            ((m :: (d ++ l1.buf)) ++ taken2.map some) := by
          rw [← Multiset.coe_eq_coe]
          simp only [← Multiset.coe_add, ← Multiset.cons_coe, ← Multiset.singleton_add]
          abel
        have e3 : ((l.buf ++ taken1.map some) ++ taken2.map some) =
            l.buf ++ (taken1 ++ taken2).map some := by
          simp [List.append_assoc]
        rw [← e3]
        exact (e1.trans (List.Perm.append_left _ h5)).trans
          (e2.trans (List.Perm.append_right _ h2))
      · exact ⟨h6.1, h6.2.1.trans h3.2.1, h6.2.2.trans h3.2.2⟩

/-- C19 (no duplication): for every drop probability, every input sequence of
pairwise distinct messages, every number of calls of `receive` and every
outcome of the drop trials, the timer and the shuffles, at the moment the
outcomes are used up the messages taken from the input are, up to order,
exactly the messages returned, the messages discarded and the messages in the
buffer, and no message occurs twice among them; so no message is returned
twice, every returned message was taken from the input, and every message
taken is in exactly one of the three places. -/
theorem lossy_channel_no_duplication {α : Type} (msgs : List α) (hnd : msgs.Nodup) (size : Int)
    (drop : ℚ) (k : Nat) (ticks : List Tick) :
    ∃ taken, msgs = taken ++ ((lossyChannel.new size drop msgs).receives k ticks).chan.input ∧
      (((lossyChannel.new size drop msgs).receives k ticks).returned ++
        ((lossyChannel.new size drop msgs).receives k ticks).dropped ++
        ((lossyChannel.new size drop msgs).receives k ticks).chan.buf).Perm (taken.map some) ∧
      (((lossyChannel.new size drop msgs).receives k ticks).returned ++
        ((lossyChannel.new size drop msgs).receives k ticks).dropped ++
        ((lossyChannel.new size drop msgs).receives k ticks).chan.buf).Nodup ∧
      ((lossyChannel.new size drop msgs).receives k ticks).returned.Nodup ∧
      ∀ m ∈ ((lossyChannel.new size drop msgs).receives k ticks).returned, m ∈ taken.map some := by
  obtain ⟨taken, h1, h2, -⟩ :=
    lossyChannel.receives_account k (lossyChannel.new size drop msgs) ticks rfl
  simp only [lossyChannel.new, List.nil_append] at h1 h2
  have htn : (taken.map some).Nodup := by
    have : taken.Nodup := by
      rw [h1] at hnd
      exact (List.nodup_append.mp hnd).1
    exact this.map (Option.some_injective α)
  have hall := h2.nodup_iff.mpr htn
  refine ⟨taken, h1, h2, hall, ?_, ?_⟩
  · exact (List.nodup_append.mp (List.nodup_append.mp hall).1).1
  · intro m hm
    exact h2.subset (List.mem_append_left _ (List.mem_append_left _ hm))

/-- Witness of C19: three distinct messages, each kept with probability 1/2,
two calls of `receive`. -/
theorem lossy_channel_no_duplication_witness :
    ([1, 2, 3] : List Nat).Nodup ∧
    ∃ taken, [1, 2, 3] = taken ++
        ((lossyChannel.new 2 (1 / 2) [1, 2, 3]).receives 2
          [tickInput, tickTimer, tickInput]).chan.input ∧
      (((lossyChannel.new 2 (1 / 2) [1, 2, 3]).receives 2 [tickInput, tickTimer, tickInput]).returned ++
        ((lossyChannel.new 2 (1 / 2) [1, 2, 3]).receives 2 [tickInput, tickTimer, tickInput]).dropped ++
        ((lossyChannel.new 2 (1 / 2) [1, 2, 3]).receives 2 [tickInput, tickTimer, tickInput]).chan.buf).Perm
        (taken.map some) ∧
      (((lossyChannel.new 2 (1 / 2) [1, 2, 3]).receives 2 [tickInput, tickTimer, tickInput]).returned ++
        ((lossyChannel.new 2 (1 / 2) [1, 2, 3]).receives 2 [tickInput, tickTimer, tickInput]).dropped ++
        ((lossyChannel.new 2 (1 / 2) [1, 2, 3]).receives 2 [tickInput, tickTimer, tickInput]).chan.buf).Nodup ∧
      ((lossyChannel.new 2 (1 / 2) [1, 2, 3]).receives 2 [tickInput, tickTimer, tickInput]).returned.Nodup ∧
      ∀ m ∈ ((lossyChannel.new 2 (1 / 2) [1, 2, 3]).receives 2
          [tickInput, tickTimer, tickInput]).returned, m ∈ taken.map some :=
  ⟨by decide, lossy_channel_no_duplication [1, 2, 3] (by decide) 2 (1 / 2) 2
    [tickInput, tickTimer, tickInput]⟩

/-- When every draw is below the drop probability the inner loop of `receive`
never returns and leaves the buffer alone. -/
theorem lossyChannel.forced_never {α : Type} (ts : List Tick) :
    ∀ (l : lossyChannel α) (d : List (Option α)), (∀ t ∈ ts, t.draw < l.drop) →
    ∃ l1 d1, l.forced d ts = .waiting l1 d1 ∧ l1.buf = l.buf := by
  induction ts with
  | nil => intro l d _; exact ⟨l, d, rfl, rfl⟩
  | cons t ts ih =>
    intro l d hd
    have ht : ¬ t.draw ≥ l.drop := not_le.mpr (hd t (List.mem_cons_self _ _))
    have hts : ∀ x ∈ ts, x.draw < l.drop := fun x hx => hd x (List.mem_cons_of_mem _ hx)
    cases hin : l.input with
    | nil =>
      cases hc : l.closed with
      | false => exact ⟨l, d, by simp [lossyChannel.forced, hin, hc], rfl⟩
      | true =>
        obtain ⟨l1, d1, h1, h2⟩ := ih l (d ++ [none]) hts
        exact ⟨l1, d1, by simp [lossyChannel.forced, hin, hc, ht, h1], h2⟩
    | cons m rest =>
      obtain ⟨l1, d1, h1, h2⟩ := ih { l with input := rest } (d ++ [some m]) hts
      exact ⟨l1, d1, by simp [lossyChannel.forced, hin, ht, h1], h2⟩

/-- When every draw is below the drop probability, the buffer is empty and
`size >= 1`, a call of `receive` never returns and the buffer stays empty. -/
theorem lossyChannel.loop_never {α : Type} (ts : List Tick) :
    ∀ (l : lossyChannel α) (e : Bool) (d : List (Option α)), l.buf = [] → 1 ≤ l.size →
    (∀ t ∈ ts, t.draw < l.drop) →
    ∃ l1 d1, l.loop e d ts = .waiting l1 d1 ∧ l1.buf = [] := by
  induction ts with
  | nil => intro l e d hb _ _; exact ⟨l, d, rfl, hb⟩
  | cons t ts ih =>
    intro l e d hb hs hd
    have ht : ¬ t.draw ≥ l.drop := not_le.mpr (hd t (List.mem_cons_self _ _))
    have hts : ∀ x ∈ ts, x.draw < l.drop := fun x hx => hd x (List.mem_cons_of_mem _ hx)
    have htop : ¬ ((l.buf.length : Int) ≥ l.size ∨ ((e || t.late) = true ∧ 0 < l.buf.length)) := by
      rw [hb]
      simp only [List.length_nil, Nat.cast_zero, lt_self_iff_false, and_false, or_false]
      omega
    by_cases htim : t.timer = true ∨ (l.input.isEmpty = true ∧ l.closed = false)
    · have hf : l.loop e d (t :: ts) = l.forced d ts := by
        have hlen : l.buf.length ≤ 0 := by rw [hb]; simp
        simp only [lossyChannel.loop, htop, if_false, htim, if_true, hlen]
      rw [hf]
      obtain ⟨l1, d1, h1, h2⟩ := lossyChannel.forced_never ts l d hts
      exact ⟨l1, d1, h1, by rw [h2, hb]⟩
    · cases hin : l.input with
      | nil =>
        have htim2 := htim
        rw [hin] at htim2
        obtain ⟨l1, d1, h1, h2⟩ := ih l (e || t.late) (d ++ [none]) hb hs hts
        refine ⟨l1, d1, ?_, h2⟩
        simp only [lossyChannel.loop, htop, if_false, htim, htim2, hin, ht]
        exact h1
      | cons m rest =>
        have htim2 := htim
        rw [hin] at htim2
        obtain ⟨l1, d1, h1, h2⟩ :=
          ih { l with input := rest } (e || t.late) (d ++ [some m]) hb hs hts
        refine ⟨l1, d1, ?_, h2⟩
        simp only [lossyChannel.loop, htop, if_false, htim, htim2, hin, ht]
        exact h1

/-- C20: with `drop = 1`, `size >= 1`, an empty buffer and draws in `[0, 1)`,
for every input sequence and every outcome of the timer, a call of `receive`
never returns: however many outcomes are supplied it is still waiting, the
buffer is still empty, and on an open channel every message taken from the
input has been discarded. -/
theorem lossy_channel_drops_everything {α : Type} (l : lossyChannel α) (hdrop : l.drop = 1)
    (hsize : 1 ≤ l.size) (hbuf : l.buf = []) (ticks : List Tick)
    (hdraw : ∀ t ∈ ticks, 0 ≤ t.draw ∧ t.draw < 1) :
    ∃ l1 d1, l.receive ticks = .waiting l1 d1 ∧ l1.buf = [] ∧
      (l.closed = false → ∃ taken, l.input = taken ++ l1.input ∧ d1.Perm (taken.map some)) := by
  have hd : ∀ t ∈ ticks, t.draw < l.drop := by
    intro t ht
    rw [hdrop]
    exact (hdraw t ht).2
  obtain ⟨l1, d1, h1, h2⟩ := lossyChannel.loop_never ticks l false [] hbuf hsize hd
  refine ⟨l1, d1, h1, h2, ?_⟩
  intro hc
  obtain ⟨taken, h3, h4, -⟩ := lossyChannel.loop_account ticks l false [] hc
  have h1b : l.loop false [] ticks = .waiting l1 d1 := h1
  rw [h1b] at h3 h4
  simp only [Received.chan, Received.held, h2, hbuf, List.append_nil, List.nil_append] at h3 h4
  exact ⟨taken, h3, h4⟩

/-- Witness of C20: the channel of the test, one message and `drop = 1`. -/
theorem lossy_channel_drops_everything_witness :
    ((lossyChannel.new 1 1 [7] : lossyChannel Nat).drop = 1) ∧
    (1 ≤ (lossyChannel.new 1 1 [7] : lossyChannel Nat).size) ∧
    ((lossyChannel.new 1 1 [7] : lossyChannel Nat).buf = []) ∧
    (∀ t ∈ [tickInput, tickTimer, tickTimer], 0 ≤ t.draw ∧ t.draw < 1) ∧
    ∃ l1 d1, (lossyChannel.new 1 1 [7] : lossyChannel Nat).receive
        [tickInput, tickTimer, tickTimer] = .waiting l1 d1 ∧ l1.buf = [] ∧
      ((lossyChannel.new 1 1 [7] : lossyChannel Nat).closed = false →
        ∃ taken, (lossyChannel.new 1 1 [7] : lossyChannel Nat).input = taken ++ l1.input ∧
          d1.Perm (taken.map some)) :=
  have hd : ∀ t ∈ [tickInput, tickTimer, tickTimer], 0 ≤ t.draw ∧ t.draw < 1 := by
    intro t ht
    simp only [List.mem_cons, List.mem_singleton, List.not_mem_nil, or_false] at ht
    rcases ht with rfl | rfl | rfl <;> norm_num [tickInput, tickTimer]
  ⟨rfl, by decide, rfl, hd,
    lossy_channel_drops_everything (lossyChannel.new 1 1 [7]) rfl (by decide) rfl
      [tickInput, tickTimer, tickTimer] hd⟩

/-- A shuffle of a non-empty list is not empty. -/
theorem shuffle_ne_nil {β : Type} (pick : Nat → Nat) (l : List β) (hl : l ≠ []) :
    ∃ m rest, shuffle pick l = m :: rest := by
  cases hs : shuffle pick l with
  | nil =>
    have hp := shuffle_perm pick l
    rw [hs] at hp
    exact absurd (List.Perm.eq_nil hp.symm) hl
  | cons m rest => exact ⟨m, rest, rfl⟩

/-- Once the timeout has elapsed, a call with a non-empty buffer returns at its
next iteration. -/
theorem lossyChannel.loop_expired {α : Type} (l : lossyChannel α) (d : List (Option α))
    (t : Tick) (ts : List Tick) (hb : l.buf ≠ []) :
    ∃ m l1, l.loop true d (t :: ts) = .returned m l1 d ts ∧ l1.input = l.input := by
  obtain ⟨m, rest, hs⟩ := shuffle_ne_nil t.pick l.buf hb
  have hlen : 0 < l.buf.length := List.length_pos.mpr hb
  have htop : (l.buf.length : Int) ≥ l.size ∨ ((true || t.late) = true ∧ 0 < l.buf.length) :=
    Or.inr ⟨by simp, hlen⟩
  refine ⟨m, { l with buf := rest }, ?_, rfl⟩
  simp only [lossyChannel.loop, htop, if_true, hs]

/-- One iteration of the loop of `receive` in which the timer case is taken on
an empty buffer. -/
theorem lossyChannel.loop_cons_timer_empty {α : Type} (l : lossyChannel α) (e : Bool)
    (d : List (Option α)) (t : Tick) (ts : List Tick)
    (htop : ¬ ((l.buf.length : Int) ≥ l.size ∨ ((e || t.late) = true ∧ 0 < l.buf.length)))
    (htim : t.timer = true ∨ (l.input.isEmpty = true ∧ l.closed = false))
    (hb : l.buf.length ≤ 0) : l.loop e d (t :: ts) = l.forced d ts := by
  simp only [lossyChannel.loop, htop, if_false, htim, if_true, hb]

/-- One iteration of the loop of `receive` in which the timer case is taken on
a non-empty buffer. -/
theorem lossyChannel.loop_cons_timer_nonempty {α : Type} (l : lossyChannel α) (e : Bool)
    (d : List (Option α)) (t : Tick) (ts : List Tick)
    (htop : ¬ ((l.buf.length : Int) ≥ l.size ∨ ((e || t.late) = true ∧ 0 < l.buf.length)))
    (htim : t.timer = true ∨ (l.input.isEmpty = true ∧ l.closed = false))
    (hb : ¬ l.buf.length ≤ 0) : l.loop e d (t :: ts) = l.loop true d ts := by
  simp only [lossyChannel.loop, htop, if_false, htim, if_true, hb]

/-- One iteration of the loop of `receive` in which a message is read and
kept. -/
theorem lossyChannel.loop_cons_keep {α : Type} (l : lossyChannel α) (e : Bool)
    (d : List (Option α)) (t : Tick) (ts : List Tick) (m : α) (rest : List α)
    (htop : ¬ ((l.buf.length : Int) ≥ l.size ∨ ((e || t.late) = true ∧ 0 < l.buf.length)))
    (htim : ¬ (t.timer = true ∨ (l.input.isEmpty = true ∧ l.closed = false)))
    (hin : l.input = m :: rest) (hk : t.draw ≥ l.drop) :
    l.loop e d (t :: ts) =
      lossyChannel.loop { l with input := rest, buf := l.buf ++ [some m] } (e || t.late) d ts := by
  have htim2 := htim
  rw [hin] at htim2
  simp only [lossyChannel.loop, htop, if_false, htim, htim2, hin, hk, if_true]

/-- One iteration of the inner loop of `receive` in which the message read is
kept. -/
theorem lossyChannel.forced_cons_keep {α : Type} (l : lossyChannel α) (d : List (Option α))
    (t : Tick) (ts : List Tick) (m : α) (rest : List α) (hin : l.input = m :: rest)
    (hk : t.draw ≥ l.drop) :
    l.forced d (t :: ts) = .returned (some m) { l with input := rest } d ts := by
  simp only [lossyChannel.forced, hin, hk, if_true]

/-- Progress of one call: on an open channel with `size >= 1`, when no draw is
below the drop probability and a message is in the buffer or still to come,
the call returns within `len(input) + 2` iterations, discarding nothing. -/
theorem lossyChannel.loop_returns {α : Type} (ts : List Tick) :
    ∀ (l : lossyChannel α) (e : Bool) (d : List (Option α)), l.closed = false → 1 ≤ l.size →
    (∀ t ∈ ts, l.drop ≤ t.draw) → (l.buf ≠ [] ∨ l.input ≠ []) →
    l.input.length + 2 ≤ ts.length →
    ∃ m l1 rest, l.loop e d ts = .returned m l1 d rest ∧
      ts.length ≤ rest.length + l.input.length + 2 ∧ (∀ t ∈ rest, t ∈ ts) ∧
      l1.input.length ≤ l.input.length := by
  induction ts with
  | nil => intro l e d _ _ _ _ hlen; simp at hlen
  | cons t ts ih =>
    intro l e d hc hs hd hne hlen
    have hk : t.draw ≥ l.drop := hd t (List.mem_cons_self _ _)
    have hts : ∀ x ∈ ts, l.drop ≤ x.draw := fun x hx => hd x (List.mem_cons_of_mem _ hx)
    by_cases htop : (l.buf.length : Int) ≥ l.size ∨ ((e || t.late) = true ∧ 0 < l.buf.length)
    · have hb : l.buf ≠ [] := by
        intro hb
        rw [hb] at htop
        simp only [List.length_nil, Nat.cast_zero, lt_self_iff_false, and_false, or_false] at htop
        omega
      obtain ⟨m, rest, hsh⟩ := shuffle_ne_nil t.pick l.buf hb
      refine ⟨m, { l with buf := rest }, ts, ?_, ?_, ?_, le_refl _⟩
      · simp only [lossyChannel.loop, htop, if_true, hsh]
      · simp only [List.length_cons]; omega
      · intro x hx; exact List.mem_cons_of_mem _ hx
    · by_cases htim : t.timer = true ∨ (l.input.isEmpty = true ∧ l.closed = false)
      · by_cases hb : l.buf.length ≤ 0
        · rw [lossyChannel.loop_cons_timer_empty l e d t ts htop htim hb]
          have hbn : l.buf = [] := List.length_eq_zero.mp (by omega)
          cases hin : l.input with
          | nil =>
            exfalso
            rcases hne with h | h
            · exact h hbn
            · exact h hin
          | cons m rest =>
            cases ts with
            | nil => simp at hlen
            | cons t1 ts1 =>
              have hk1 : t1.draw ≥ l.drop := hts t1 (List.mem_cons_self _ _)
              rw [lossyChannel.forced_cons_keep l d t1 ts1 m rest hin hk1]
              refine ⟨some m, { l with input := rest }, ts1, rfl, ?_, ?_, ?_⟩
              · simp only [List.length_cons]; omega
              · intro x hx
                exact List.mem_cons_of_mem _ (List.mem_cons_of_mem _ hx)
              · simp
        · rw [lossyChannel.loop_cons_timer_nonempty l e d t ts htop htim hb]
          have hbn : l.buf ≠ [] := by
            intro h; rw [h] at hb; simp at hb
          cases ts with
          | nil => simp at hlen
          | cons t1 ts1 =>
            obtain ⟨m, l1, h1, h2⟩ := lossyChannel.loop_expired l d t1 ts1 hbn
            refine ⟨m, l1, ts1, h1, ?_, ?_, by rw [h2]⟩
            · simp only [List.length_cons]; omega
            · intro x hx
              exact List.mem_cons_of_mem _ (List.mem_cons_of_mem _ hx)
      · cases hin : l.input with
        | nil =>
          exfalso
          apply htim
          right
          exact ⟨by simp [hin], hc⟩
        | cons m rest =>
          rw [lossyChannel.loop_cons_keep l e d t ts m rest htop htim hin hk]
          have hlen2 : rest.length + 2 ≤ ts.length := by
            rw [hin] at hlen
            simp only [List.length_cons] at hlen
            omega
          obtain ⟨m1, l1, rest1, h1, h2, h3, h4⟩ :=
            ih { l with input := rest, buf := l.buf ++ [some m] } (e || t.late) d hc hs hts
              (Or.inl (by simp)) hlen2
          refine ⟨m1, l1, rest1, h1, ?_, ?_, ?_⟩
          · simp only [List.length_cons] at h2 ⊢
            omega
          · intro x hx
            exact List.mem_cons_of_mem _ (h3 x hx)
          · simp only [List.length_cons] at h4 ⊢
            omega

/-- Progress of successive calls: on an open channel with `size >= 1`, when no
draw is below the drop probability, `k` calls all return, discarding nothing,
provided `k` messages are in the buffer or still to come and enough outcomes
are supplied. -/
theorem lossyChannel.receives_done {α : Type} (k : Nat) :
    ∀ (l : lossyChannel α) (ts : List Tick), l.closed = false → 1 ≤ l.size →
    (∀ t ∈ ts, l.drop ≤ t.draw) → k ≤ l.buf.length + l.input.length →
    k * (l.input.length + 2) ≤ ts.length →
    (l.receives k ts).status = .done ∧ (l.receives k ts).returned.length = k ∧
      (l.receives k ts).dropped = [] := by
  induction k with
  | zero => intro l ts _ _ _ _ _; simp [lossyChannel.receives]
  | succ k ih =>
    intro l ts hc hs hd hk hfuel
    have hne : l.buf ≠ [] ∨ l.input ≠ [] := by
      by_contra hcon
      push_neg at hcon
      rw [hcon.1, hcon.2] at hk
      simp at hk
    have hlen : l.input.length + 2 ≤ ts.length := by
      have : 1 * (l.input.length + 2) ≤ (k + 1) * (l.input.length + 2) :=
        Nat.mul_le_mul_right _ (by omega)
      omega
    obtain ⟨m, l1, rest, h1, h2, h3, h4⟩ := lossyChannel.loop_returns ts l false [] hc hs hd hne hlen
    obtain ⟨taken, h5, h6, h7⟩ := lossyChannel.loop_account ts l false [] hc
    rw [h1] at h5 h6 h7
    simp only [Received.chan, Received.held, List.nil_append] at h5 h6 h7
    have hl6 := h6.length_eq
    have hl5 := congrArg List.length h5
    simp only [List.length_cons, List.length_append, List.length_map] at hl6 hl5
    have hfuel1 : k * (l1.input.length + 2) ≤ rest.length := by
      have e1 : k * (l1.input.length + 2) ≤ k * (l.input.length + 2) :=
        Nat.mul_le_mul_left _ (by omega)
      have e2 : (k + 1) * (l.input.length + 2) = k * (l.input.length + 2) + (l.input.length + 2) := by
        ring
      omega
    have hd1 : ∀ t ∈ rest, l1.drop ≤ t.draw := by
      intro t ht
      rw [h7.2.2]
      exact hd t (h3 t ht)
    obtain ⟨h8, h9, h10⟩ := ih l1 rest h7.1 (by rw [h7.2.1]; exact hs) hd1 (by omega) hfuel1
    have hrec : l.receives (k + 1) ts =
        { l1.receives k rest with
          returned := m :: (l1.receives k rest).returned,
          dropped := [] ++ (l1.receives k rest).dropped } := by
      have h1b : l.receive ts = .returned m l1 [] rest := h1
      simp only [lossyChannel.receives, h1b]
    rw [hrec]
    exact ⟨h8, by simp [h9], by simp [h10]⟩

/-- C18: with `drop = 0` and `size >= 1`, for every list of `K` messages placed
on the input and every outcome of the timer and of the shuffles (draws in
`[0, 1)`, at least `K * (K + 2)` loop iterations supplied), `K` successive
calls of `receive` all return, and the `K` messages returned are a
permutation of the input list; nothing is discarded and nothing is left in
the channel. -/
theorem lossy_channel_delivers_permutation {α : Type} (msgs : List α) (size : Int)
    (hsize : 1 ≤ size) (K : Nat) (hlen : msgs.length = K) (ticks : List Tick)
    (hdraw : ∀ t ∈ ticks, 0 ≤ t.draw ∧ t.draw < 1) (hfuel : K * (K + 2) ≤ ticks.length) :
    ((lossyChannel.new size 0 msgs).receives K ticks).status = .done ∧
    ((lossyChannel.new size 0 msgs).receives K ticks).returned.length = K ∧
    ((lossyChannel.new size 0 msgs).receives K ticks).returned.Perm (msgs.map some) ∧
    ((lossyChannel.new size 0 msgs).receives K ticks).dropped = [] ∧
    ((lossyChannel.new size 0 msgs).receives K ticks).chan.buf = [] ∧
    ((lossyChannel.new size 0 msgs).receives K ticks).chan.input = [] := by
  have hd : ∀ t ∈ ticks, (lossyChannel.new size 0 msgs).drop ≤ t.draw :=
    fun t ht => (hdraw t ht).1
  obtain ⟨h1, h2, h3⟩ := lossyChannel.receives_done K (lossyChannel.new size 0 msgs) ticks rfl
    hsize hd (by simp [lossyChannel.new, hlen]) (by simpa [lossyChannel.new, hlen] using hfuel)
  obtain ⟨taken, h4, h5, -⟩ :=
    lossyChannel.receives_account K (lossyChannel.new size 0 msgs) ticks rfl
  rw [h3] at h5
  have h4 : msgs = taken ++ ((lossyChannel.new size 0 msgs).receives K ticks).chan.input := h4
  have h5 : (((lossyChannel.new size 0 msgs).receives K ticks).returned ++ [] ++
      ((lossyChannel.new size 0 msgs).receives K ticks).chan.buf).Perm (taken.map some) := h5
  have hl5 := h5.length_eq
  have hl4 := congrArg List.length h4
  simp only [List.length_append, List.length_map, List.length_nil] at hl5 hl4
  have hb : ((lossyChannel.new size 0 msgs).receives K ticks).chan.buf = [] :=
    List.length_eq_zero.mp (by omega)
  have hi : ((lossyChannel.new size 0 msgs).receives K ticks).chan.input = [] :=
    List.length_eq_zero.mp (by omega)
  refine ⟨h1, h2, ?_, h3, hb, hi⟩
  rw [hi, List.append_nil] at h4
  rw [hb, List.append_nil, List.append_nil, ← h4] at h5
  exact h5

/-- Witness of C18: three messages, `size = 2`, fifteen iterations. -/
theorem lossy_channel_delivers_permutation_witness :
    ((1 : Int) ≤ 2) ∧ (([1, 2, 3] : List Nat).length = 3) ∧
    (∀ t ∈ List.replicate 15 tickTimer, 0 ≤ t.draw ∧ t.draw < 1) ∧
    (3 * (3 + 2) ≤ (List.replicate 15 tickTimer).length) ∧
    (((lossyChannel.new 2 0 [1, 2, 3]).receives 3 (List.replicate 15 tickTimer)).status = .done ∧
    ((lossyChannel.new 2 0 [1, 2, 3]).receives 3 (List.replicate 15 tickTimer)).returned.length = 3 ∧
    ((lossyChannel.new 2 0 [1, 2, 3]).receives 3 (List.replicate 15 tickTimer)).returned.Perm
      (([1, 2, 3] : List Nat).map some) ∧
    ((lossyChannel.new 2 0 [1, 2, 3]).receives 3 (List.replicate 15 tickTimer)).dropped = [] ∧
    ((lossyChannel.new 2 0 [1, 2, 3]).receives 3 (List.replicate 15 tickTimer)).chan.buf = [] ∧
    ((lossyChannel.new 2 0 [1, 2, 3]).receives 3 (List.replicate 15 tickTimer)).chan.input = []) :=
  have hd : ∀ t ∈ List.replicate 15 tickTimer, 0 ≤ t.draw ∧ t.draw < 1 := by
    intro t ht
    rw [(List.mem_replicate.mp ht).2]
    norm_num [tickTimer]
  ⟨by decide, rfl, hd, by decide,
    lossy_channel_delivers_permutation [1, 2, 3] 2 (by decide) 3 rfl (List.replicate 15 tickTimer)
      hd (by decide)⟩

/-- One call of `receive` with `size = 1` on an open channel with an empty
buffer, when no draw is below the drop probability: if it returns, it returns
the first message of the input and leaves the buffer empty; it discards
nothing and does not fail. -/
theorem lossyChannel.loop_fifo {α : Type} (ts : List Tick) (l : lossyChannel α) (e : Bool)
    (d : List (Option α)) (hs : l.size = 1) (hc : l.closed = false) (hb : l.buf = [])
    (hd : ∀ t ∈ ts, l.drop ≤ t.draw) :
    (∀ m l1 d1 rest, l.loop e d ts = .returned m l1 d1 rest →
      ∃ x xs, l.input = x :: xs ∧ m = some x ∧ l1.input = xs ∧ l1.buf = [] ∧ l1.size = 1 ∧
        l1.closed = false ∧ l1.drop = l.drop ∧ d1 = d ∧ ∀ t ∈ rest, t ∈ ts) ∧
    (∀ l1 d1, l.loop e d ts = .waiting l1 d1 → d1 = d) ∧
    (∀ l1 d1, l.loop e d ts ≠ .failed l1 d1) := by
  obtain ⟨input, closed, buf, size, drop⟩ := l
  simp only at hs hc hb hd
  subst hs hc hb
  cases ts with
  | nil => simp [lossyChannel.loop]
  | cons t ts =>
    have hk : t.draw ≥ drop := hd t (List.mem_cons_self _ _)
    have htop : ¬ ((([] : List (Option α)).length : Int) ≥ 1 ∨
        ((e || t.late) = true ∧ 0 < ([] : List (Option α)).length)) := by simp
    by_cases htim : t.timer = true ∨ (input.isEmpty = true ∧ false = false)
    · rw [lossyChannel.loop_cons_timer_empty _ e d t ts htop htim (by simp)]
      cases ts with
      | nil => simp [lossyChannel.forced]
      | cons t1 ts1 =>
        cases input with
        | nil => simp [lossyChannel.forced]
        | cons m rest =>
          have hk1 : t1.draw ≥ drop :=
            hd t1 (List.mem_cons_of_mem _ (List.mem_cons_self _ _))
          rw [lossyChannel.forced_cons_keep _ d t1 ts1 m rest rfl hk1]
          refine ⟨?_, by simp, by simp⟩
          intro m1 l1 d1 rest1 h
          simp only [Received.returned.injEq] at h
          obtain ⟨rfl, rfl, rfl, rfl⟩ := h
          exact ⟨m, rest, rfl, rfl, rfl, rfl, rfl, rfl, rfl, rfl,
            fun x hx => List.mem_cons_of_mem _ (List.mem_cons_of_mem _ hx)⟩
    · cases input with
      | nil => exact absurd (Or.inr ⟨rfl, rfl⟩) htim
      | cons m rest =>
        rw [lossyChannel.loop_cons_keep _ e d t ts m rest htop htim rfl hk]
        cases ts with
        | nil => simp [lossyChannel.loop]
        | cons t1 ts1 =>
          have hl : lossyChannel.loop
              { input := rest, closed := false, buf := ([] : List (Option α)) ++ [some m],
                size := 1, drop := drop } (e || t.late) d (t1 :: ts1) =
              .returned (some m)
                { input := rest, closed := false, buf := [], size := 1, drop := drop } d ts1 := by
            simp [lossyChannel.loop, shuffle, shuffleFrom]
          rw [hl]
          refine ⟨?_, by simp, by simp⟩
          intro m1 l1 d1 rest1 h
          simp only [Received.returned.injEq] at h
          obtain ⟨rfl, rfl, rfl, rfl⟩ := h
          exact ⟨m, rest, rfl, rfl, rfl, rfl, rfl, rfl, rfl, rfl,
            fun x hx => List.mem_cons_of_mem _ (List.mem_cons_of_mem _ hx)⟩

/-- Successive calls of `receive` with `size = 1` on an open channel with an
empty buffer, when no draw is below the drop probability, return the first
messages of the input in their order. -/
theorem lossyChannel.receives_fifo {α : Type} (k : Nat) :
    ∀ (l : lossyChannel α) (ts : List Tick), l.size = 1 → l.closed = false → l.buf = [] →
    (∀ t ∈ ts, l.drop ≤ t.draw) →
    (l.receives k ts).returned =
        (l.input.take (l.receives k ts).returned.length).map some ∧
      (l.receives k ts).returned.length ≤ k ∧
      (l.receives k ts).status ≠ .failed ∧ (l.receives k ts).dropped = [] := by
  induction k with
  | zero => intro l ts _ _ _ _; simp [lossyChannel.receives]
  | succ k ih =>
    intro l ts hs hc hb hd
    obtain ⟨h1, h2, h3⟩ := lossyChannel.loop_fifo ts l false [] hs hc hb hd
    cases hr : l.loop false [] ts with
    | waiting l1 d1 =>
      have hd1 := h2 l1 d1 hr
      have hrec : l.receives (k + 1) ts =
          { returned := [], dropped := d1, chan := l1, status := .waiting, rest := [] } := by
        have hr2 : l.receive ts = .waiting l1 d1 := hr
        simp only [lossyChannel.receives, hr2]
      rw [hrec]
      simp [hd1]
    | failed l1 d1 => exact absurd hr (h3 l1 d1)
    | returned m l1 d1 rest =>
      obtain ⟨x, xs, e1, e2, e3, e4, e5, e6, e7, e8, e9⟩ := h1 m l1 d1 rest hr
      have hd1 : ∀ t ∈ rest, l1.drop ≤ t.draw := by
        intro t ht
        rw [e7]
        exact hd t (e9 t ht)
      obtain ⟨i1, i2, i3, i4⟩ := ih l1 rest e5 e6 e4 hd1
      have hrec : l.receives (k + 1) ts =
          { l1.receives k rest with
            returned := m :: (l1.receives k rest).returned,
            dropped := d1 ++ (l1.receives k rest).dropped } := by
        have hr2 : l.receive ts = .returned m l1 d1 rest := hr
        simp only [lossyChannel.receives, hr2]
      rw [hrec]
      refine ⟨?_, ?_, i3, ?_⟩
      · simp only [List.length_cons, e1, List.take_succ_cons, List.map_cons, e2]
        rw [← e3, ← i1]
      · simp only [List.length_cons]; omega
      · simp [e8, i4]

/-- C17: with `drop = 0` and `size = 1` the lossy channel is a FIFO: for every
input sequence, every number of calls and every outcome of the timer and of
the shuffle (draws in `[0, 1)`), the messages returned by the successive calls
of `receive` are the first messages of the input sequence, in the same order
and with nothing skipped or discarded, and no call fails; `k` calls all return
when at least `k` messages are sent and enough loop iterations are supplied. -/
theorem lossy_channel_fifo {α : Type} (msgs : List α) (k : Nat) (ticks : List Tick)
    (hdraw : ∀ t ∈ ticks, 0 ≤ t.draw ∧ t.draw < 1) :
    ((lossyChannel.new 1 0 msgs).receives k ticks).returned =
      (msgs.take ((lossyChannel.new 1 0 msgs).receives k ticks).returned.length).map some ∧
    ((lossyChannel.new 1 0 msgs).receives k ticks).returned.length ≤ k ∧
    ((lossyChannel.new 1 0 msgs).receives k ticks).status ≠ .failed ∧
    ((lossyChannel.new 1 0 msgs).receives k ticks).dropped = [] ∧
    (k ≤ msgs.length → k * (msgs.length + 2) ≤ ticks.length →
      ((lossyChannel.new 1 0 msgs).receives k ticks).status = .done ∧
      ((lossyChannel.new 1 0 msgs).receives k ticks).returned = (msgs.take k).map some) := by
  have hd : ∀ t ∈ ticks, (lossyChannel.new 1 0 msgs).drop ≤ t.draw :=
    fun t ht => (hdraw t ht).1
  obtain ⟨h1, h2, h3, h4⟩ :=
    lossyChannel.receives_fifo k (lossyChannel.new 1 0 msgs) ticks rfl rfl rfl hd
  have h1b : ((lossyChannel.new 1 0 msgs).receives k ticks).returned =
      (msgs.take ((lossyChannel.new 1 0 msgs).receives k ticks).returned.length).map some := h1
  refine ⟨h1b, h2, h3, h4, ?_⟩
  intro hk hfuel
  obtain ⟨h5, h6, -⟩ := lossyChannel.receives_done k (lossyChannel.new 1 0 msgs) ticks rfl
    (le_refl _) hd (by simpa [lossyChannel.new] using hk) (by simpa [lossyChannel.new] using hfuel)
  refine ⟨h5, ?_⟩
  rw [h6] at h1b
  exact h1b

/-- Witness of C17: three messages, `size = 1`, fifteen iterations in which
the input case is taken. -/
theorem lossy_channel_fifo_witness :
    (∀ t ∈ List.replicate 15 tickInput, 0 ≤ t.draw ∧ t.draw < 1) ∧
    (((lossyChannel.new 1 0 [7, 8, 9]).receives 3 (List.replicate 15 tickInput)).returned =
      (([7, 8, 9] : List Nat).take ((lossyChannel.new 1 0 [7, 8, 9]).receives 3
        (List.replicate 15 tickInput)).returned.length).map some ∧
    ((lossyChannel.new 1 0 [7, 8, 9]).receives 3 (List.replicate 15 tickInput)).returned.length ≤ 3 ∧
    ((lossyChannel.new 1 0 [7, 8, 9]).receives 3 (List.replicate 15 tickInput)).status ≠ .failed ∧
    ((lossyChannel.new 1 0 [7, 8, 9]).receives 3 (List.replicate 15 tickInput)).dropped = [] ∧
    (3 ≤ ([7, 8, 9] : List Nat).length →
      3 * (([7, 8, 9] : List Nat).length + 2) ≤ (List.replicate 15 tickInput).length →
      ((lossyChannel.new 1 0 [7, 8, 9]).receives 3 (List.replicate 15 tickInput)).status = .done ∧
      ((lossyChannel.new 1 0 [7, 8, 9]).receives 3 (List.replicate 15 tickInput)).returned =
        (([7, 8, 9] : List Nat).take 3).map some)) :=
  have hd : ∀ t ∈ List.replicate 15 tickInput, 0 ≤ t.draw ∧ t.draw < 1 := by
    intro t ht
    rw [(List.mem_replicate.mp ht).2]
    norm_num [tickInput]
  ⟨hd, lossy_channel_fifo [7, 8, 9] 3 (List.replicate 15 tickInput) hd⟩

/-! ## Quorums -/

/-- Two duplicate-free lists of acceptor ids in `[0, A)` whose lengths add up
to more than `A` share an id. -/
theorem lists_of_ids_intersect (A : Nat) (l1 l2 : List Int) (h1 : l1.Nodup) (h2 : l2.Nodup)
    (r1 : ∀ x ∈ l1, 0 ≤ x ∧ x < A) (r2 : ∀ x ∈ l2, 0 ≤ x ∧ x < A)
    (hlen : A < l1.length + l2.length) : ∃ x, x ∈ l1 ∧ x ∈ l2 := by
  by_contra hcon
  push_neg at hcon
  have hdis : List.Disjoint l1 l2 := fun x hx1 hx2 => hcon x hx1 hx2
  have hnd : (l1 ++ l2).Nodup := List.Nodup.append h1 h2 hdis
  have hsub : (l1 ++ l2).toFinset ⊆ Finset.Ico (0 : Int) A := by
    intro x hx
    rw [List.mem_toFinset, List.mem_append] at hx
    rw [Finset.mem_Ico]
    rcases hx with hx | hx
    · exact r1 x hx
    · exact r2 x hx
  have hcard := Finset.card_le_card hsub
  rw [List.toFinset_card_of_nodup hnd, Int.card_Ico, List.length_append] at hcard
  simp only [sub_zero, Int.toNat_ofNat] at hcard
  omega

/-- C27 (quorum intersection): for every acceptor count `A >= 1` the quorum
size `A / 2 + 1` used by both phases of the proposer is at least 1, at most
`A`, and more than half of `A`; any two sets of that many distinct acceptor ids
among `0 .. A - 1` have an id in common; for `A = 1` the quorum size is 1. -/
theorem quorum_intersection (A : Nat) (hA : 1 ≤ A) :
    1 ≤ quorum A ∧ quorum A ≤ A ∧ A < 2 * quorum A ∧ quorum 1 = 1 ∧
    ∀ l1 l2 : List Int, l1.Nodup → l2.Nodup → (∀ x ∈ l1, 0 ≤ x ∧ x < A) →
      (∀ x ∈ l2, 0 ≤ x ∧ x < A) → l1.length = quorum A → l2.length = quorum A →
      ∃ x, x ∈ l1 ∧ x ∈ l2 := by
  have hq : quorum A = A / 2 + 1 := rfl
  refine ⟨by omega, by omega, by omega, rfl, ?_⟩
  intro l1 l2 h1 h2 r1 r2 e1 e2
  exact lists_of_ids_intersect A l1 l2 h1 h2 r1 r2 (by omega)

/-- Witness of C27: three acceptors, quorum 2. -/
theorem quorum_intersection_witness :
    (1 ≤ 3) ∧
    (1 ≤ quorum 3 ∧ quorum 3 ≤ 3 ∧ 3 < 2 * quorum 3 ∧ quorum 1 = 1 ∧
    ∀ l1 l2 : List Int, l1.Nodup → l2.Nodup → (∀ x ∈ l1, 0 ≤ x ∧ x < (3 : Nat)) →
      (∀ x ∈ l2, 0 ≤ x ∧ x < (3 : Nat)) → l1.length = quorum 3 → l2.length = quorum 3 →
      ∃ x, x ∈ l1 ∧ x ∈ l2) :=
  ⟨by decide, quorum_intersection 3 (by decide)⟩

/-! ## The size of the reordering buffer -/

/-- The inner loop of `receive` leaves the buffer and the size alone. -/
theorem lossyChannel.forced_buf {α : Type} (ts : List Tick) :
    ∀ (l : lossyChannel α) (d : List (Option α)),
    (l.forced d ts).chan.buf = l.buf ∧ (l.forced d ts).chan.size = l.size ∧
      ∀ l1 d1, l.forced d ts ≠ .failed l1 d1 := by
  induction ts with
  | nil => intro l d; simp [lossyChannel.forced, Received.chan]
  | cons t ts ih =>
    intro l d
    cases hin : l.input with
    | nil =>
      cases hc : l.closed with
      | false => simp [lossyChannel.forced, hin, hc, Received.chan]
      | true =>
        by_cases hk : t.draw ≥ l.drop
        · simp [lossyChannel.forced, hin, hc, hk, Received.chan]
        · have hf : l.forced d (t :: ts) = l.forced (d ++ [none]) ts := by
            simp [lossyChannel.forced, hin, hc, hk]
          rw [hf]
          exact ih l (d ++ [none])
    | cons m rest =>
      by_cases hk : t.draw ≥ l.drop
      · simp [lossyChannel.forced, hin, hk, Received.chan]
      · have hf : l.forced d (t :: ts) =
            lossyChannel.forced { l with input := rest } (d ++ [some m]) ts := by
          simp [lossyChannel.forced, hin, hk]
        rw [hf]
        exact ih { l with input := rest } (d ++ [some m])

/-- The iteration of `receive` that reads `l.buf[0]`: with `size >= 1` the
buffer is not empty there, the call returns an element of the buffer, and the
buffer keeps exactly the other elements. -/
theorem lossyChannel.loop_cons_top {α : Type} (l : lossyChannel α) (e : Bool)
    (d : List (Option α)) (t : Tick) (ts : List Tick) (hs : 1 ≤ l.size)
    (htop : (l.buf.length : Int) ≥ l.size ∨ ((e || t.late) = true ∧ 0 < l.buf.length)) :
    l.buf ≠ [] ∧ ∃ m rest, l.loop e d (t :: ts) = .returned m { l with buf := rest } d ts ∧
      (m :: rest).Perm l.buf := by
  have hb : l.buf ≠ [] := by
    intro hb
    rw [hb] at htop
    simp only [List.length_nil, Nat.cast_zero, lt_self_iff_false, and_false, or_false] at htop
    omega
  obtain ⟨m, rest, hsh⟩ := shuffle_ne_nil t.pick l.buf hb
  refine ⟨hb, m, rest, ?_, ?_⟩
  · simp only [lossyChannel.loop, htop, if_true, hsh]
  · rw [← hsh]
    exact shuffle_perm t.pick l.buf

/-- A call of `receive` on a channel with `size >= 1` whose buffer holds at
most `size` messages: the buffer never holds more than `size` messages, the
call does not fail, and when it returns the buffer holds at most `size - 1`
messages. -/
theorem lossyChannel.loop_bounded {α : Type} (ts : List Tick) :
    ∀ (l : lossyChannel α) (e : Bool) (d : List (Option α)), 1 ≤ l.size →
    (l.buf.length : Int) ≤ l.size →
    ((l.loop e d ts).chan.buf.length : Int) ≤ l.size ∧ (l.loop e d ts).chan.size = l.size ∧
      (∀ l1 d1, l.loop e d ts ≠ .failed l1 d1) ∧
      (∀ m l1 d1 rest, l.loop e d ts = .returned m l1 d1 rest →
        (l1.buf.length : Int) ≤ l.size - 1) := by
  induction ts with
  | nil =>
    intro l e d _ hb
    simp [lossyChannel.loop, Received.chan, hb]
  | cons t ts ih =>
    intro l e d hs hb
    by_cases htop : (l.buf.length : Int) ≥ l.size ∨ ((e || t.late) = true ∧ 0 < l.buf.length)
    · obtain ⟨-, m, rest, h1, h2⟩ := lossyChannel.loop_cons_top l e d t ts hs htop
      rw [h1]
      have hlen := h2.length_eq
      simp only [List.length_cons] at hlen
      have hr : (rest.length : Int) ≤ l.size - 1 := by omega
      refine ⟨?_, rfl, by simp, ?_⟩
      · simp only [Received.chan]; omega
      · intro m1 l1 d1 rest1 h
        simp only [Received.returned.injEq] at h
        obtain ⟨-, rfl, -, -⟩ := h
        exact hr
    · have hlt : (l.buf.length : Int) < l.size := by
        by_contra hcon
        exact htop (Or.inl (by omega))
      by_cases htim : t.timer = true ∨ (l.input.isEmpty = true ∧ l.closed = false)
      · by_cases hbe : l.buf.length ≤ 0
        · rw [lossyChannel.loop_cons_timer_empty l e d t ts htop htim hbe]
          obtain ⟨f1, f2, f3⟩ := lossyChannel.forced_buf ts l d
          refine ⟨by rw [f1]; exact hb, f2, f3, ?_⟩
          intro m1 l1 d1 rest1 h
          rw [h] at f1
          simp only [Received.chan] at f1
          rw [f1]
          omega
        · rw [lossyChannel.loop_cons_timer_nonempty l e d t ts htop htim hbe]
          exact ih l true d hs hb
      · cases hin : l.input with
        | nil =>
          have htim2 := htim
          rw [hin] at htim2
          by_cases hk : t.draw ≥ l.drop
          · have hf : l.loop e d (t :: ts) =
                lossyChannel.loop { l with buf := l.buf ++ [none] } (e || t.late) d ts := by
              simp only [lossyChannel.loop, htop, if_false, htim, htim2, hin, hk, if_true]
            rw [hf]
            have hb2 : (((l.buf ++ [none]).length : Nat) : Int) ≤ l.size := by
              simp only [List.length_append, List.length_singleton]; omega
            exact ih { l with buf := l.buf ++ [none] } (e || t.late) d hs hb2
          · have hf : l.loop e d (t :: ts) = l.loop (e || t.late) (d ++ [none]) ts := by
              simp only [lossyChannel.loop, htop, if_false, htim, htim2, hin, hk]
            rw [hf]
            exact ih l (e || t.late) (d ++ [none]) hs hb
        | cons m rest =>
          have htim2 := htim
          rw [hin] at htim2
          by_cases hk : t.draw ≥ l.drop
          · rw [lossyChannel.loop_cons_keep l e d t ts m rest htop htim hin hk]
            have hb2 : (((l.buf ++ [some m]).length : Nat) : Int) ≤ l.size := by
              simp only [List.length_append, List.length_singleton]; omega
            exact ih { l with input := rest, buf := l.buf ++ [some m] } (e || t.late) d hs hb2
          · have hf : l.loop e d (t :: ts) =
                lossyChannel.loop { l with input := rest } (e || t.late) (d ++ [some m]) ts := by
              simp only [lossyChannel.loop, htop, if_false, htim, htim2, hin, hk]
            rw [hf]
            exact ih { l with input := rest } (e || t.late) (d ++ [some m]) hs hb

/-- Successive calls of `receive` on a channel with `size >= 1` whose buffer
holds at most `size` messages never fail and never let the buffer hold more
than `size` messages. -/
theorem lossyChannel.receives_bounded {α : Type} (k : Nat) :
    ∀ (l : lossyChannel α) (ts : List Tick), 1 ≤ l.size → (l.buf.length : Int) ≤ l.size →
    (((l.receives k ts).chan.buf.length : Nat) : Int) ≤ l.size ∧
      (l.receives k ts).status ≠ .failed ∧
      ((l.receives k ts).status = .done →
        k ≠ 0 → (((l.receives k ts).chan.buf.length : Nat) : Int) ≤ l.size - 1) := by
  induction k with
  | zero => intro l ts _ hb; simp [lossyChannel.receives, hb]
  | succ k ih =>
    intro l ts hs hb
    obtain ⟨h1, h2, h3, h4⟩ := lossyChannel.loop_bounded ts l false [] hs hb
    cases hr : l.loop false [] ts with
    | waiting l1 d1 =>
      rw [hr] at h1
      have hr2 : l.receive ts = .waiting l1 d1 := hr
      simp only [lossyChannel.receives, hr2]
      exact ⟨h1, by simp, by simp⟩
    | failed l1 d1 => exact absurd hr (h3 l1 d1)
    | returned m l1 d1 rest =>
      have hb1 := h4 m l1 d1 rest hr
      rw [hr] at h2
      simp only [Received.chan] at h2
      have hr2 : l.receive ts = .returned m l1 d1 rest := hr
      obtain ⟨i1, i2, i3⟩ := ih l1 rest (by rw [h2]; exact hs) (by rw [h2]; omega)
      simp only [lossyChannel.receives, hr2]
      rw [h2] at i1 i3
      refine ⟨i1, i2, ?_⟩
      intro hdone _
      cases k with
      | zero => simpa [lossyChannel.receives] using hb1
      | succ k => exact i3 hdone (by simp)

/-- C26 (bounded buffer): for every channel with `size >= 1` whose buffer holds
at most `size` messages, every number of calls of `receive` and every outcome
of the inputs, the drop trials, the timer and the shuffles: the buffer never
holds more than `size` messages and no call fails; when a call returns the
buffer holds at most `size - 1` messages; whenever `receive` reads `l.buf[0]`
the buffer is not empty, the call returns one of its elements and the buffer
keeps exactly the others. -/
theorem lossy_channel_buffer_bounded {α : Type} (l : lossyChannel α) (hs : 1 ≤ l.size)
    (hb : (l.buf.length : Int) ≤ l.size) (k : Nat) (ticks : List Tick) :
    ((((l.receives k ticks).chan.buf.length : Nat) : Int) ≤ l.size ∧
      (l.receives k ticks).status ≠ .failed) ∧
    (∀ m l1 d1 rest, l.receive ticks = .returned m l1 d1 rest →
      (l1.buf.length : Int) ≤ l.size - 1) ∧
    (∀ (e : Bool) (d : List (Option α)) (t : Tick) (ts : List Tick),
      ((l.buf.length : Int) ≥ l.size ∨ ((e || t.late) = true ∧ 0 < l.buf.length)) →
      l.buf ≠ [] ∧ ∃ m rest, l.loop e d (t :: ts) = .returned m { l with buf := rest } d ts ∧
        (m :: rest).Perm l.buf) := by
  obtain ⟨h1, h2, -⟩ := lossyChannel.receives_bounded k l ticks hs hb
  obtain ⟨-, -, -, h4⟩ := lossyChannel.loop_bounded ticks l false [] hs hb
  exact ⟨⟨h1, h2⟩, h4, fun e d t ts htop => lossyChannel.loop_cons_top l e d t ts hs htop⟩

/-- Witness of C26: a channel of size 2 with five messages to come. -/
theorem lossy_channel_buffer_bounded_witness :
    ((1 : Int) ≤ (lossyChannel.new 2 (1 / 2) [1, 2, 3, 4, 5] : lossyChannel Nat).size) ∧
    ((((lossyChannel.new 2 (1 / 2) [1, 2, 3, 4, 5] : lossyChannel Nat).buf.length : Nat) : Int) ≤
      (lossyChannel.new 2 (1 / 2) [1, 2, 3, 4, 5] : lossyChannel Nat).size) ∧
    (((((((lossyChannel.new 2 (1 / 2) [1, 2, 3, 4, 5] : lossyChannel Nat).receives 3
          (List.replicate 9 tickInput)).chan.buf.length : Nat) : Int) ≤
        (lossyChannel.new 2 (1 / 2) [1, 2, 3, 4, 5] : lossyChannel Nat).size ∧
      ((lossyChannel.new 2 (1 / 2) [1, 2, 3, 4, 5] : lossyChannel Nat).receives 3
          (List.replicate 9 tickInput)).status ≠ .failed) ∧
    (∀ m l1 d1 rest, (lossyChannel.new 2 (1 / 2) [1, 2, 3, 4, 5] : lossyChannel Nat).receive
        (List.replicate 9 tickInput) = .returned m l1 d1 rest →
      (l1.buf.length : Int) ≤
        (lossyChannel.new 2 (1 / 2) [1, 2, 3, 4, 5] : lossyChannel Nat).size - 1) ∧
    (∀ (e : Bool) (d : List (Option Nat)) (t : Tick) (ts : List Tick),
      ((((lossyChannel.new 2 (1 / 2) [1, 2, 3, 4, 5] : lossyChannel Nat).buf.length : Nat) : Int) ≥
          (lossyChannel.new 2 (1 / 2) [1, 2, 3, 4, 5] : lossyChannel Nat).size ∨
        ((e || t.late) = true ∧
          0 < (lossyChannel.new 2 (1 / 2) [1, 2, 3, 4, 5] : lossyChannel Nat).buf.length)) →
      (lossyChannel.new 2 (1 / 2) [1, 2, 3, 4, 5] : lossyChannel Nat).buf ≠ [] ∧
      ∃ m rest, (lossyChannel.new 2 (1 / 2) [1, 2, 3, 4, 5] : lossyChannel Nat).loop e d (t :: ts) =
          .returned m
            { (lossyChannel.new 2 (1 / 2) [1, 2, 3, 4, 5] : lossyChannel Nat) with buf := rest }
            d ts ∧
        (m :: rest).Perm (lossyChannel.new 2 (1 / 2) [1, 2, 3, 4, 5] : lossyChannel Nat).buf))) :=
  ⟨by decide, by decide,
    lossy_channel_buffer_bounded (lossyChannel.new 2 (1 / 2) [1, 2, 3, 4, 5]) (by decide)
      (by decide) 3 (List.replicate 9 tickInput)⟩

/-! ## Nil epochs stay out of the comparisons -/

/-- An epoch that is `Epoch{}` or real and fails the test `Nil()` is real. -/
theorem nilOrReal_not_Nil (e : Epoch) (he : e.nilOrReal) (hn : e.Nil = false) : e.i ≠ none := by
  rcases he with h | h
  · subst h; simp [Epoch.Nil] at hn
  · exact h

/-- A well-formed message has a real epoch field. -/
theorem message.epochsOK_epochOf (m : message) (hm : m.epochsOK) : m.epochOf.i ≠ none := by
  cases m with
  | promise e ae av id => exact hm.1
  | prepare e pid r => exact hm
  | propose e v pid r => exact hm
  | accept e id => exact hm

/-- The comparison of two real epochs does not fail. -/
theorem Cmp_real (e f : Epoch) (h : Heap) (he : e.i ≠ none) (hf : f.i ≠ none) :
    ∃ c, e.Cmp f h = some c := by
  obtain ⟨ei, en⟩ := e
  obtain ⟨fi, fn⟩ := f
  cases ei with
  | none => exact absurd rfl he
  | some a =>
    cases fi with
    | none => exact absurd rfl hf
    | some b => exact ⟨_, bigCmp_some h a b⟩

/-- The top of the proposer loop on a proposer whose epoch is `Epoch{}` or
real: it does not fail and the new epoch, carried by the prepare, is real. -/
theorem proposer_attempt_epochs (id n : Int) (r : Nat) (h : Heap) (ps : ProposerState)
    (hps : ps.epoch.nilOrReal) :
    ∃ h1 ps1 e, proposer.attempt id n r h ps = some (h1, ps1, .prepare e id r) ∧ e.i ≠ none ∧
      ps1.epoch = e ∧ ps1.pc = .phase1 ∧ ps1.maxEpoch = { i := none, nProposers := 0 } := by
  unfold proposer.attempt
  by_cases hn : ps.epoch.Nil = true
  · simp only [hn, if_true]
    exact ⟨_, _, _, rfl, by simp [newEpoch, Heap.NewInt], rfl, rfl, rfl⟩
  · have hreal := nilOrReal_not_Nil ps.epoch hps (by simpa using hn)
    obtain ⟨h1, hnx, -⟩ := Next_some ps.epoch h hreal
    simp only [hn, hnx]
    exact ⟨_, _, _, rfl, hreal, rfl, rfl, rfl⟩

/-- The test of the first receive loop on well-formed epochs does not fail. -/
theorem proposer_greater_epochs (h : Heap) (ae me : Epoch) (hae : ae.nilOrReal)
    (hme : me.nilOrReal) : ∃ b, proposer.greater h ae me = some b ∧ (b = true → ae.i ≠ none) := by
  unfold proposer.greater
  by_cases h1 : ae.Nil = true
  · simp [h1]
  · have hr1 := nilOrReal_not_Nil ae hae (by simpa using h1)
    by_cases h2 : me.Nil = true
    · simp [h1, h2, hr1]
    · have hr2 := nilOrReal_not_Nil me hme (by simpa using h2)
      obtain ⟨c, hc⟩ := Cmp_real ae me h hr1 hr2
      simp [h1, h2, hc, hr1]

/-- The body of the first receive loop on a well-formed message does not fail
and keeps `maxEpoch` well formed. -/
theorem proposer_onPromise_epochs (h : Heap) (ps : ProposerState) (m : message)
    (hmax : ps.maxEpoch.nilOrReal) (hm : m.epochsOK) :
    ∃ ps1, proposer.onPromise h ps m = some ps1 ∧ ps1.epoch = ps.epoch ∧ ps1.pc = ps.pc ∧
      ps1.maxEpoch.nilOrReal := by
  cases m with
  | promise e ae av id =>
    obtain ⟨b, hb, hreal⟩ := proposer_greater_epochs h ae ps.maxEpoch hm.2 hmax
    cases b with
    | true =>
      simp only [proposer.onPromise, hb]
      exact ⟨_, rfl, rfl, rfl, Or.inr (hreal rfl)⟩
    | false =>
      simp only [proposer.onPromise, hb]
      exact ⟨_, rfl, rfl, rfl, hmax⟩
  | prepare e pid r => exact ⟨ps, rfl, rfl, rfl, hmax⟩
  | propose e v pid r => exact ⟨ps, rfl, rfl, rfl, hmax⟩
  | accept e id => exact ⟨ps, rfl, rfl, rfl, hmax⟩

/-- The body of the second receive loop of a proposer with a real epoch on a
well-formed message does not fail. -/
theorem proposer_onAccept_epochs (h : Heap) (ps : ProposerState) (m : message)
    (he : ps.epoch.i ≠ none) (hm : m.epochsOK) :
    ∃ ps1, proposer.onAccept h ps m = some ps1 ∧ ps1.epoch = ps.epoch ∧ ps1.pc = ps.pc ∧
      ps1.maxEpoch = ps.maxEpoch := by
  cases m with
  | accept e id =>
    obtain ⟨c, hc⟩ := Cmp_real ps.epoch e h he hm
    by_cases h0 : c = 0
    · simp only [proposer.onAccept, hc, h0, if_true]
      exact ⟨_, rfl, rfl, rfl, rfl⟩
    · simp only [proposer.onAccept, hc, h0, if_false]
      exact ⟨_, rfl, rfl, rfl, rfl⟩
  | prepare e pid r => exact ⟨ps, rfl, rfl, rfl, rfl⟩
  | propose e v pid r => exact ⟨ps, rfl, rfl, rfl, rfl⟩
  | promise e ae av id => exact ⟨ps, rfl, rfl, rfl, rfl⟩

/-- A receive of a proposer inside one of its loops, with a real epoch, on a
well-formed message: it does not fail, the epoch stays, `maxEpoch` stays well
formed, and a message it broadcasts is well formed. -/
theorem proposer_recv_epochs (id : Int) (r nA : Nat) (h : Heap) (ps : ProposerState)
    (m : message) (hpc : ps.pc ≠ .start) (he : ps.epoch.i ≠ none)
    (hmax : ps.maxEpoch.nilOrReal) (hm : m.epochsOK) :
    ∃ ps1 o, proposer.recv id r nA h ps m = some (ps1, o) ∧ ps1.epoch = ps.epoch ∧
      ps1.maxEpoch.nilOrReal ∧ ∀ m1, o = .broadcast m1 → m1.epochsOK := by
  unfold proposer.recv
  cases hp : ps.pc with
  | start => exact absurd hp hpc
  | phase1 =>
    obtain ⟨ps1, h1, h2, -, h4⟩ := proposer_onPromise_epochs h ps m hmax hm
    simp only [h1]
    by_cases hq : ps1.promisedAcceptors.length < quorum nA
    · simp only [hq, if_true]
      exact ⟨_, _, rfl, h2, h4, fun m1 hm1 => absurd hm1 (by simp)⟩
    · simp only [hq, if_false]
      refine ⟨_, _, rfl, h2, h4, ?_⟩
      intro m1 hm1
      simp only [Outcome.broadcast.injEq] at hm1
      subst hm1
      show ps1.epoch.i ≠ none
      rw [h2]; exact he
  | phase2 =>
    obtain ⟨ps1, h1, h2, -, h4⟩ := proposer_onAccept_epochs h ps m he hm
    simp only [h1]
    by_cases hq : ps1.acceptedAcceptors.length < quorum nA
    · simp only [hq, if_true]
      exact ⟨_, _, rfl, h2, by rw [h4]; exact hmax, fun m1 hm1 => absurd hm1 (by simp)⟩
    · simp only [hq, if_false]
      exact ⟨_, _, rfl, h2, by show ps1.maxEpoch.nilOrReal; rw [h4]; exact hmax,
        fun m1 hm1 => absurd hm1 (by simp)⟩

/-- The guard of the acceptor on a real request epoch does not fail. -/
theorem acceptor_guard_real (h : Heap) (pe e : Epoch) (he : e.i ≠ none) :
    ∃ b, acceptor.guard h pe e = some b := by
  unfold acceptor.guard
  by_cases hn : pe.nil = true
  · simp [hn]
  · have hp : pe.i ≠ none := by
      intro hp
      simp [Epoch.nil, hp] at hn
    obtain ⟨c, hc⟩ := Cmp_real e pe h he hp
    have hc2 : e.cmp pe h = some c := hc
    simp [hn, hc2]

/-- A step of an acceptor on a well-formed message: it does not fail, the
accepted epoch stays `Epoch{}` or real, and the replies are well formed. -/
theorem acceptor_step_epochs (id : Int) (h : Heap) (st : AcceptorState) (m : message)
    (hst : st.acceptedEpoch.nilOrReal) (hm : m.epochsOK) :
    ∃ st1 out, acceptor.step id h st m = some (st1, out) ∧ st1.acceptedEpoch.nilOrReal ∧
      ∀ o ∈ out, message.epochsOK o.2 := by
  cases m with
  | prepare e pid r =>
    have he : e.i ≠ none := hm
    obtain ⟨b, hb⟩ := acceptor_guard_real h st.promisedEpoch e he
    cases b with
    | true =>
      simp only [acceptor.step, hb]
      refine ⟨_, _, rfl, hst, ?_⟩
      intro o ho
      simp only [List.mem_singleton] at ho
      subst ho
      exact ⟨he, hst⟩
    | false =>
      simp only [acceptor.step, hb]
      exact ⟨_, _, rfl, hst, fun o ho => absurd ho (by simp)⟩
  | propose e v pid r =>
    have he : e.i ≠ none := hm
    obtain ⟨b, hb⟩ := acceptor_guard_real h st.promisedEpoch e he
    cases b with
    | true =>
      simp only [acceptor.step, hb]
      refine ⟨_, _, rfl, Or.inr he, ?_⟩
      intro o ho
      simp only [List.mem_singleton] at ho
      subst ho
      exact he
    | false =>
      simp only [acceptor.step, hb]
      exact ⟨_, _, rfl, hst, fun o ho => absurd ho (by simp)⟩
  | promise e ae av aid => exact ⟨st, [], rfl, hst, fun o ho => absurd ho (by simp)⟩
  | accept e aid => exact ⟨st, [], rfl, hst, fun o ho => absurd ho (by simp)⟩

/-- Replacing one proposer by a well-formed one keeps all proposers well formed. -/
theorem proposers_set_epochs (l : List ProposerState) (p : Nat) (ps1 : ProposerState)
    (hl : ∀ q ∈ l, q.epoch.nilOrReal ∧ (q.pc ≠ .start → q.epoch.i ≠ none) ∧ q.maxEpoch.nilOrReal)
    (h1 : ps1.epoch.nilOrReal ∧ (ps1.pc ≠ .start → ps1.epoch.i ≠ none) ∧ ps1.maxEpoch.nilOrReal) :
    ∀ q ∈ l.set p ps1,
      q.epoch.nilOrReal ∧ (q.pc ≠ .start → q.epoch.i ≠ none) ∧ q.maxEpoch.nilOrReal := by
  intro q hq
  rcases List.mem_or_eq_of_mem_set hq with h | h
  · exact hl q h
  · subst h; exact h1

/-- Every move of the system preserves the epoch invariant. -/
theorem System.step_epochsOK (s s1 : System) (a : Move) (hinv : s.EpochsOK)
    (hstep : s.step a = some s1) : s1.EpochsOK := by
  cases a with
  | attempt p =>
    simp only [System.step] at hstep
    cases hps : s.proposers[p]? with
    | none => simp [hps] at hstep
    | some ps =>
      simp only [hps] at hstep
      by_cases hpc : ps.pc ≠ .start
      · simp [hpc] at hstep
      · simp only [hpc, if_false] at hstep
        have hmem : ps ∈ s.proposers := List.getElem?_mem hps
        obtain ⟨h1, ps1, e, hat, he, hpe, hp1, hmx⟩ :=
          proposer_attempt_epochs (p : Int) (s.proposers.length : Int) p s.heap ps
            (hinv.proposers ps hmem).1
        simp only [hat, Option.some.injEq] at hstep
        subst hstep
        refine ⟨?_, hinv.propIn, hinv.acceptors, ?_⟩
        · intro c hc x hx
          rcases mem_broadcast s.acceptorIn _ x c hc hx with h2 | ⟨c0, hc0, hx0⟩
          · subst h2; exact he
          · exact hinv.accIn c0 hc0 x hx0
        · refine proposers_set_epochs s.proposers p ps1 hinv.proposers ⟨?_, ?_, ?_⟩
          · rw [hpe]; exact Or.inr he
          · intro _; rw [hpe]; exact he
          · rw [hmx]; exact Or.inl rfl
  | timeout p =>
    simp only [System.step] at hstep
    cases hps : s.proposers[p]? with
    | none => simp [hps] at hstep
    | some ps =>
      simp only [hps] at hstep
      cases hto : proposer.timeout ps with
      | none => simp [hto] at hstep
      | some ps1 =>
        simp only [hto, Option.some.injEq] at hstep
        subst hstep
        have hmem : ps ∈ s.proposers := List.getElem?_mem hps
        have hres : ps1.epoch = ps.epoch ∧ ps1.maxEpoch = ps.maxEpoch ∧ ps1.pc = .start := by
          unfold proposer.timeout at hto
          cases hpc : ps.pc <;> simp [hpc] at hto <;> subst hto <;> exact ⟨rfl, rfl, rfl⟩
        refine ⟨hinv.accIn, hinv.propIn, hinv.acceptors, ?_⟩
        refine proposers_set_epochs s.proposers p ps1 hinv.proposers ⟨?_, ?_, ?_⟩
        · rw [hres.1]; exact (hinv.proposers ps hmem).1
        · intro h2; exact absurd hres.2.2 h2
        · rw [hres.2.1]; exact (hinv.proposers ps hmem).2.2
  | proposerRecv p k =>
    simp only [System.step] at hstep
    cases hps : s.proposers[p]? with
    | none => simp [hps] at hstep
    | some ps =>
      simp only [hps] at hstep
      cases htk : takeFrom s.proposerIn p k with
      | none => simp [htk] at hstep
      | some res =>
        obtain ⟨m, chans⟩ := res
        simp only [htk] at hstep
        obtain ⟨⟨c0, hc0, hm0⟩, hrest⟩ := takeFrom_mem s.proposerIn chans p k m htk
        have hm : message.epochsOK m := hinv.propIn c0 hc0 m hm0
        have hchans : ∀ c ∈ chans, ∀ x ∈ c, message.epochsOK x := by
          intro c hc x hx
          obtain ⟨c1, hc1, hx1⟩ := hrest c hc x hx
          exact hinv.propIn c1 hc1 x hx1
        have hmem : ps ∈ s.proposers := List.getElem?_mem hps
        obtain ⟨hpe, hpr, hpm⟩ := hinv.proposers ps hmem
        cases hrv : proposer.recv (p : Int) p s.acceptors.length s.heap ps m with
        | none => simp [hrv] at hstep
        | some res =>
          obtain ⟨ps1, o⟩ := res
          have hpc : ps.pc ≠ .start := by
            intro hpc
            simp [proposer.recv, hpc] at hrv
          obtain ⟨ps2, o2, hrv2, hep, hmx, hbro⟩ :=
            proposer_recv_epochs (p : Int) p s.acceptors.length s.heap ps m hpc (hpr hpc) hpm hm
          rw [hrv] at hrv2
          simp only [Option.some.injEq, Prod.mk.injEq] at hrv2
          obtain ⟨rfl, rfl⟩ := hrv2
          have hset := proposers_set_epochs s.proposers p ps1 hinv.proposers
            ⟨by rw [hep]; exact hpe, fun _ => by rw [hep]; exact hpr hpc, hmx⟩
          cases o with
          | wait =>
            simp only [hrv, Option.some.injEq] at hstep
            subst hstep
            exact ⟨hinv.accIn, hchans, hinv.acceptors, hset⟩
          | broadcast m1 =>
            simp only [hrv, Option.some.injEq] at hstep
            subst hstep
            refine ⟨?_, hchans, hinv.acceptors, hset⟩
            intro c hc x hx
            rcases mem_broadcast s.acceptorIn _ x c hc hx with h2 | ⟨c1, hc1, hx1⟩
            · subst h2; exact hbro _ rfl
            · exact hinv.accIn c1 hc1 x hx1
          | decide v =>
            simp only [hrv, Option.some.injEq] at hstep
            subst hstep
            exact ⟨hinv.accIn, hchans, hinv.acceptors, hset⟩
  | acceptorRecv a k =>
    simp only [System.step] at hstep
    cases hst : s.acceptors[a]? with
    | none => simp [hst] at hstep
    | some st =>
      simp only [hst] at hstep
      cases htk : takeFrom s.acceptorIn a k with
      | none => simp [htk] at hstep
      | some res =>
        obtain ⟨m, chans⟩ := res
        simp only [htk] at hstep
        obtain ⟨⟨c0, hc0, hm0⟩, hrest⟩ := takeFrom_mem s.acceptorIn chans a k m htk
        have hm : message.epochsOK m := hinv.accIn c0 hc0 m hm0
        have hchans : ∀ c ∈ chans, ∀ x ∈ c, message.epochsOK x := by
          intro c hc x hx
          obtain ⟨c1, hc1, hx1⟩ := hrest c hc x hx
          exact hinv.accIn c1 hc1 x hx1
        have hmem : st ∈ s.acceptors := List.getElem?_mem hst
        obtain ⟨st1, out, hsp, hst1, hout⟩ :=
          acceptor_step_epochs (a : Int) s.heap st m (hinv.acceptors st hmem) hm
        simp only [hsp, Option.some.injEq] at hstep
        subst hstep
        refine ⟨hchans, ?_, ?_, hinv.proposers⟩
        · intro c hc x hx
          rcases mem_sendAll out s.proposerIn x c hc hx with ⟨o, ho, rfl⟩ | ⟨c1, hc1, hx1⟩
          · exact hout o ho
          · exact hinv.propIn c1 hc1 x hx1
        · intro q hq
          rcases List.mem_or_eq_of_mem_set hq with h2 | h2
          · exact hinv.acceptors q h2
          · subst h2; exact hst1
  | dropProposer p k =>
    simp only [System.step] at hstep
    cases htk : takeFrom s.proposerIn p k with
    | none => simp [htk] at hstep
    | some res =>
      obtain ⟨m, chans⟩ := res
      simp only [htk, Option.some.injEq] at hstep
      subst hstep
      obtain ⟨-, hrest⟩ := takeFrom_mem s.proposerIn chans p k m htk
      refine ⟨hinv.accIn, ?_, hinv.acceptors, hinv.proposers⟩
      intro c hc x hx
      obtain ⟨c1, hc1, hx1⟩ := hrest c hc x hx
      exact hinv.propIn c1 hc1 x hx1
  | dropAcceptor a k =>
    simp only [System.step] at hstep
    cases htk : takeFrom s.acceptorIn a k with
    | none => simp [htk] at hstep
    | some res =>
      obtain ⟨m, chans⟩ := res
      simp only [htk, Option.some.injEq] at hstep
      subst hstep
      obtain ⟨-, hrest⟩ := takeFrom_mem s.acceptorIn chans a k m htk
      refine ⟨?_, hinv.propIn, hinv.acceptors, hinv.proposers⟩
      intro c hc x hx
      obtain ⟨c1, hc1, hx1⟩ := hrest c hc x hx
      exact hinv.accIn c1 hc1 x hx1

/-- The epoch invariant holds in the initial system. -/
theorem System.init_epochsOK (n a : Nat) : (System.init n a).EpochsOK := by
  refine ⟨?_, ?_, ?_, ?_⟩
  · intro c hc x hx
    simp only [System.init, List.mem_replicate] at hc
    rw [hc.2] at hx; simp at hx
  · intro c hc x hx
    simp only [System.init, List.mem_replicate] at hc
    rw [hc.2] at hx; simp at hx
  · intro st hst
    simp only [System.init, List.mem_replicate] at hst
    rw [hst.2]; exact Or.inl rfl
  · intro ps hps
    simp only [System.init, List.mem_replicate] at hps
    rw [hps.2]
    exact ⟨Or.inl rfl, fun h => absurd rfl h, Or.inl rfl⟩

/-- The epoch invariant holds after any sequence of moves. -/
theorem System.run_epochsOK (acts : List Move) :
    ∀ s s1 : System, s.EpochsOK → s.run acts = some s1 → s1.EpochsOK := by
  induction acts with
  | nil =>
    intro s s1 hinv hrun
    simp only [System.run, Option.some.injEq] at hrun
    subst hrun; exact hinv
  | cons a as ih =>
    intro s s1 hinv hrun
    simp only [System.run] at hrun
    cases hst : s.step a with
    | none => simp [hst] at hrun
    | some s2 =>
      simp only [hst] at hrun
      exact ih s2 s1 (System.step_epochsOK s s2 a hinv hst) hrun

/-- C25 (nil epochs stay out of message epoch fields): in every reachable state
of the system, the epoch field of every pending message is a real epoch; a
receive by an acceptor, a receive by a proposer inside one of its loops and the
top of the proposer loop do not fail; and where `cmp` or `Cmp` is called (the
acceptor with a promised epoch that is not nil, the first proposer loop on a
promise whose accepted epoch and the current `maxEpoch` both fail `Nil()`, the
second proposer loop on an accept) both operands hold a `big.Int`. -/
theorem nil_epochs_stay_out_of_messages (nP nA : Nat) (s : System) (hreach : Reachable nP nA s) :
    (∀ c ∈ s.acceptorIn ++ s.proposerIn, ∀ m ∈ c, m.epochOf.i ≠ none) ∧
    (∀ (a k : Nat) (st : AcceptorState) (m : message) (chans : List (List message)),
      s.acceptors[a]? = some st → takeFrom s.acceptorIn a k = some (m, chans) →
      (acceptor.step (a : Int) s.heap st m).isSome = true ∧
      (st.promisedEpoch.nil = false → m.epochOf.i ≠ none ∧ st.promisedEpoch.i ≠ none)) ∧
    (∀ (p k : Nat) (ps : ProposerState) (m : message) (chans : List (List message)),
      s.proposers[p]? = some ps → ps.pc ≠ .start → takeFrom s.proposerIn p k = some (m, chans) →
      (proposer.recv (p : Int) p s.acceptors.length s.heap ps m).isSome = true ∧
      (∀ e ae av id, m = .promise e ae av id → ae.Nil = false → ps.maxEpoch.Nil = false →
        ae.i ≠ none ∧ ps.maxEpoch.i ≠ none) ∧
      (∀ e id, m = .accept e id → ps.epoch.i ≠ none ∧ e.i ≠ none)) ∧
    (∀ (p : Nat) (ps : ProposerState), s.proposers[p]? = some ps →
      (proposer.attempt (p : Int) (s.proposers.length : Int) p s.heap ps).isSome = true) := by
  obtain ⟨acts, hrun⟩ := hreach
  have hinv := System.run_epochsOK acts _ s (System.init_epochsOK nP nA) hrun
  refine ⟨?_, ?_, ?_, ?_⟩
  · intro c hc m hm
    rcases List.mem_append.mp hc with h | h
    · exact message.epochsOK_epochOf m (hinv.accIn c h m hm)
    · exact message.epochsOK_epochOf m (hinv.propIn c h m hm)
  · intro a k st m chans hst htk
    obtain ⟨⟨c0, hc0, hm0⟩, -⟩ := takeFrom_mem s.acceptorIn chans a k m htk
    have hm := hinv.accIn c0 hc0 m hm0
    obtain ⟨st1, out, hsp, -, -⟩ :=
      acceptor_step_epochs (a : Int) s.heap st m (hinv.acceptors st (List.getElem?_mem hst)) hm
    refine ⟨by rw [hsp]; rfl, ?_⟩
    intro hn
    refine ⟨message.epochsOK_epochOf m hm, ?_⟩
    intro hi
    simp [Epoch.nil, hi] at hn
  · intro p k ps m chans hps hpc htk
    obtain ⟨⟨c0, hc0, hm0⟩, -⟩ := takeFrom_mem s.proposerIn chans p k m htk
    have hm := hinv.propIn c0 hc0 m hm0
    obtain ⟨hpe, hpr, hpm⟩ := hinv.proposers ps (List.getElem?_mem hps)
    obtain ⟨ps1, o, hrv, -, -, -⟩ :=
      proposer_recv_epochs (p : Int) p s.acceptors.length s.heap ps m hpc (hpr hpc) hpm hm
    refine ⟨by rw [hrv]; rfl, ?_, ?_⟩
    · intro e ae av id hme h1 h2
      subst hme
      exact ⟨nilOrReal_not_Nil ae hm.2 h1, nilOrReal_not_Nil ps.maxEpoch hpm h2⟩
    · intro e id hme
      subst hme
      exact ⟨hpr hpc, hm⟩
  · intro p ps hps
    obtain ⟨h1, ps1, e, hat, -⟩ :=
      proposer_attempt_epochs (p : Int) (s.proposers.length : Int) p s.heap ps
        (hinv.proposers ps (List.getElem?_mem hps)).1
    rw [hat]; rfl

/-- Witness of C25: the state after `schedAdvance`, with 2 proposers and 3
acceptors. -/
theorem nil_epochs_stay_out_of_messages_witness :
    Reachable 2 3 systemAdvance ∧
    ((∀ c ∈ systemAdvance.acceptorIn ++ systemAdvance.proposerIn, ∀ m ∈ c, m.epochOf.i ≠ none) ∧
    (∀ (a k : Nat) (st : AcceptorState) (m : message) (chans : List (List message)),
      systemAdvance.acceptors[a]? = some st →
      takeFrom systemAdvance.acceptorIn a k = some (m, chans) →
      (acceptor.step (a : Int) systemAdvance.heap st m).isSome = true ∧
      (st.promisedEpoch.nil = false → m.epochOf.i ≠ none ∧ st.promisedEpoch.i ≠ none)) ∧
    (∀ (p k : Nat) (ps : ProposerState) (m : message) (chans : List (List message)),
      systemAdvance.proposers[p]? = some ps → ps.pc ≠ .start →
      takeFrom systemAdvance.proposerIn p k = some (m, chans) →
      (proposer.recv (p : Int) p systemAdvance.acceptors.length systemAdvance.heap ps m).isSome
        = true ∧
      (∀ e ae av id, m = .promise e ae av id → ae.Nil = false → ps.maxEpoch.Nil = false →
        ae.i ≠ none ∧ ps.maxEpoch.i ≠ none) ∧
      (∀ e id, m = .accept e id → ps.epoch.i ≠ none ∧ e.i ≠ none)) ∧
    (∀ (p : Nat) (ps : ProposerState), systemAdvance.proposers[p]? = some ps →
      (proposer.attempt (p : Int) (systemAdvance.proposers.length : Int) p systemAdvance.heap
        ps).isSome = true)) :=
  have hreach : Reachable 2 3 systemAdvance := ⟨schedAdvance, rfl⟩
  ⟨hreach, nil_epochs_stay_out_of_messages 2 3 systemAdvance hreach⟩

/-! ## Counting promises -/

/-- The keys of a map after an assignment. -/
theorem mapSet_mem (l : List Int) (k x : Int) : x ∈ mapSet l k ↔ x = k ∨ x ∈ l := by
  unfold mapSet
  by_cases h : k ∈ l
  · simp only [h, if_true]
    constructor
    · exact Or.inr
    · rintro (rfl | h1)
      · exact h
      · exact h1
  · simp only [h, if_false, List.mem_cons]

/-- An assignment keeps the key list free of duplicates. -/
theorem mapSet_nodup (l : List Int) (k : Int) (hl : l.Nodup) : (mapSet l k).Nodup := by
  unfold mapSet
  by_cases h : k ∈ l
  · simp only [h, if_true]; exact hl
  · simp only [h, if_false]; exact List.nodup_cons.mpr ⟨h, hl⟩

/-- The body of the first receive loop assigns the key `acceptorID` of a promise
and leaves the promised set alone on any other message. -/
theorem proposer_onPromise_promised (h : Heap) (s s1 : ProposerState) (m : message)
    (hr : proposer.onPromise h s m = some s1) :
    s1.promisedAcceptors =
      match m.promiseID with
      | some id => mapSet s.promisedAcceptors id
      | none => s.promisedAcceptors := by
  cases m with
  | promise e ae av id =>
    simp only [proposer.onPromise] at hr
    cases hg : proposer.greater h ae s.maxEpoch with
    | none => simp [hg] at hr
    | some b =>
      cases b <;> simp only [hg, Option.some.injEq] at hr <;> subst hr <;> rfl
  | prepare e pid r =>
    simp only [proposer.onPromise, Option.some.injEq] at hr
    subst hr; rfl
  | propose e v pid r =>
    simp only [proposer.onPromise, Option.some.injEq] at hr
    subst hr; rfl
  | accept e id =>
    simp only [proposer.onPromise, Option.some.injEq] at hr
    subst hr; rfl

/-- The first receive loop on well-formed messages, from any promised set
without duplicates. -/
theorem proposer_phase1_counts (nA : Nat) (msgs : List (Heap × message)) :
    ∀ s : ProposerState, s.maxEpoch.nilOrReal → (∀ x ∈ msgs, message.epochsOK x.2) →
    s.promisedAcceptors.Nodup →
    ∃ s1 ended taken rest, proposer.phase1 nA s msgs = some (s1, ended, rest) ∧
      msgs = taken ++ rest ∧
      (∀ id, id ∈ s1.promisedAcceptors ↔
        id ∈ s.promisedAcceptors ∨ id ∈ taken.filterMap (fun x => x.2.promiseID)) ∧
      s1.promisedAcceptors.Nodup ∧
      (ended = true ↔ quorum nA ≤ s1.promisedAcceptors.length) ∧
      (ended = false → rest = []) := by
  induction msgs with
  | nil =>
    intro s _ _ hnd
    refine ⟨s, _, [], [], rfl, rfl, ?_, hnd, ?_, fun _ => rfl⟩
    · intro id; simp
    · simp
  | cons x ms ih =>
    intro s hmax hwf hnd
    obtain ⟨h, m⟩ := x
    by_cases hq : s.promisedAcceptors.length < quorum nA
    · obtain ⟨s1, hon, -, -, hmx1⟩ :=
        proposer_onPromise_epochs h s m hmax (hwf (h, m) (List.mem_cons_self _ _))
      have hpa := proposer_onPromise_promised h s s1 m hon
      have hnd1 : s1.promisedAcceptors.Nodup := by
        rw [hpa]
        cases m.promiseID with
        | none => exact hnd
        | some id => exact mapSet_nodup _ _ hnd
      obtain ⟨s2, ended, taken, rest, hrun, hsplit, hmem, hnd2, hend, hrest⟩ :=
        ih s1 hmx1 (fun y hy => hwf y (List.mem_cons_of_mem _ hy)) hnd1
      refine ⟨s2, ended, (h, m) :: taken, rest, ?_, ?_, ?_, hnd2, hend, hrest⟩
      · simp only [proposer.phase1, hq, if_true, hon]
        exact hrun
      · rw [hsplit]; rfl
      · intro id
        rw [hmem id, hpa]
        cases hid : m.promiseID with
        | none => simp [List.filterMap_cons, hid]
        | some k =>
          simp only [List.filterMap_cons, hid, List.mem_cons, mapSet_mem]
          constructor
          · rintro ((h1 | h1) | h1)
            · exact Or.inr (Or.inl h1)
            · exact Or.inl h1
            · exact Or.inr (Or.inr h1)
          · rintro (h1 | h1 | h1)
            · exact Or.inl (Or.inr h1)
            · exact Or.inl (Or.inl h1)
            · exact Or.inr h1
    · refine ⟨s, true, [], (h, m) :: ms, ?_, rfl, ?_, hnd, ?_, ?_⟩
      · simp only [proposer.phase1, hq, if_false]
      · intro id; simp
      · simp only [true_iff]; omega
      · intro hf; exact absurd hf (by simp)

/-- C23 (phase-1 quorum counting): the first receive loop, started with an
empty promised set on well-formed messages, does not fail; the promised set it
ends with holds exactly the acceptorIDs of the promises among the messages it
received, each once, so its size is the number of distinct such ids; the loop
stops by its test exactly when that number has reached `A/2 + 1`; a message
that is not a promise changes nothing; and the epoch field of a promise plays
no part. -/
theorem phase1_counts_distinct_promises (nA : Nat) (s : ProposerState)
    (msgs : List (Heap × message)) (hs : s.promisedAcceptors = [])
    (hmax : s.maxEpoch.nilOrReal) (hwf : ∀ x ∈ msgs, message.epochsOK x.2) :
    (∃ s1 ended taken rest, proposer.phase1 nA s msgs = some (s1, ended, rest) ∧
      msgs = taken ++ rest ∧
      (∀ id, id ∈ s1.promisedAcceptors ↔ id ∈ taken.filterMap (fun x => x.2.promiseID)) ∧
      s1.promisedAcceptors.Nodup ∧
      s1.promisedAcceptors.length = (taken.filterMap (fun x => x.2.promiseID)).dedup.length ∧
      (ended = true ↔
        nA / 2 + 1 ≤ (taken.filterMap (fun x => x.2.promiseID)).dedup.length) ∧
      (ended = false → rest = [])) ∧
    (∀ (h : Heap) (s0 : ProposerState) (m : message), m.promiseID = none →
      proposer.onPromise h s0 m = some s0) ∧
    (∀ (h : Heap) (s0 : ProposerState) (e e1 ae : Epoch) (av : String) (id : Int),
      proposer.onPromise h s0 (.promise e ae av id) =
        proposer.onPromise h s0 (.promise e1 ae av id)) := by
  refine ⟨?_, ?_, ?_⟩
  · obtain ⟨s1, ended, taken, rest, hrun, hsplit, hmem, hnd, hend, hrest⟩ :=
      proposer_phase1_counts nA msgs s hmax hwf (by rw [hs]; exact List.nodup_nil)
    have hmem2 : ∀ id, id ∈ s1.promisedAcceptors ↔
        id ∈ taken.filterMap (fun x => x.2.promiseID) := by
      intro id
      rw [hmem id, hs]
      simp
    have hlen : s1.promisedAcceptors.length =
        (taken.filterMap (fun x => x.2.promiseID)).dedup.length := by
      apply List.Perm.length_eq
      rw [List.perm_ext_iff_of_nodup hnd (List.nodup_dedup _)]
      intro id
      rw [hmem2 id, List.mem_dedup]
    refine ⟨s1, ended, taken, rest, hrun, hsplit, hmem2, hnd, hlen, ?_, hrest⟩
    rw [hend, hlen]
    rfl
  · intro h s0 m hm
    cases m with
    | promise e ae av id => simp [message.promiseID] at hm
    | prepare e pid r => rfl
    | propose e v pid r => rfl
    | accept e id => rfl
  · intro h s0 e e1 ae av id
    rfl

/-- Witness of C23: proposer 0 of 2 with 5 acceptors receives six messages. -/
theorem phase1_counts_distinct_promises_witness :
    proposerPhase1.promisedAcceptors = [] ∧ proposerPhase1.maxEpoch.nilOrReal ∧
    (∀ x ∈ promisesReceived, message.epochsOK x.2) ∧
    ((∃ s1 ended taken rest,
      proposer.phase1 5 proposerPhase1 promisesReceived = some (s1, ended, rest) ∧
      promisesReceived = taken ++ rest ∧
      (∀ id, id ∈ s1.promisedAcceptors ↔ id ∈ taken.filterMap (fun x => x.2.promiseID)) ∧
      s1.promisedAcceptors.Nodup ∧
      s1.promisedAcceptors.length = (taken.filterMap (fun x => x.2.promiseID)).dedup.length ∧
      (ended = true ↔
        5 / 2 + 1 ≤ (taken.filterMap (fun x => x.2.promiseID)).dedup.length) ∧
      (ended = false → rest = [])) ∧
    (∀ (h : Heap) (s0 : ProposerState) (m : message), m.promiseID = none →
      proposer.onPromise h s0 m = some s0) ∧
    (∀ (h : Heap) (s0 : ProposerState) (e e1 ae : Epoch) (av : String) (id : Int),
      proposer.onPromise h s0 (.promise e ae av id) =
        proposer.onPromise h s0 (.promise e1 ae av id))) :=
  have hwf : ∀ x ∈ promisesReceived, message.epochsOK x.2 := by
    intro x hx
    simp only [promisesReceived, List.mem_cons, List.mem_singleton, List.not_mem_nil,
      or_false] at hx
    rcases hx with rfl | rfl | rfl | rfl | rfl | rfl
    · exact ⟨by decide, Or.inl rfl⟩
    · show epochP0.i ≠ none
      decide
    · exact ⟨by decide, Or.inl rfl⟩
    · exact ⟨by decide, Or.inl rfl⟩
    · exact ⟨by decide, Or.inr (by decide)⟩
    · exact ⟨by decide, Or.inl rfl⟩
  ⟨rfl, Or.inl rfl, hwf,
    phase1_counts_distinct_promises 5 proposerPhase1 promisesReceived rfl (Or.inl rfl) hwf⟩

/-! ## Closing a lossy channel -/

/-- Once the output channel is closed, `run` puts nothing on it any more. -/
theorem lossyChannel.run_closed_output {α : Type} (n : Nat) :
    ∀ (p : Piped α) (ticks : List Tick), p.outputClosed = true →
    (lossyChannel.run n p ticks).1.output = p.output := by
  induction n with
  | zero => intro p ticks _; rfl
  | succ n ih =>
    intro p ticks hc
    cases hp : p.pending with
    | some m => simp [lossyChannel.run, hp, hc]
    | none =>
      cases hr : p.chan.receive ticks with
      | waiting l1 d => simp [lossyChannel.run, hp, hr]
      | failed l1 d => simp [lossyChannel.run, hp, hr]
      | returned m l1 d rest =>
        cases m with
        | none => simp [lossyChannel.run, hp, hr]
        | some m =>
          simp only [lossyChannel.run, hp, hr]
          exact ih { p with chan := l1, pending := some m } rest hc

/-- C21 at the failing input: a channel of size 2 without drops; the producer
sends 5 and 7; `run` buffers both, puts 7 on the output channel and comes back
to the top of its loop with 5 in the buffer; then `close` is called, with two
surviving messages in the channel.  If the timeout has elapsed, `receive`
returns 5 and `run` panics on the send to the closed output channel.  If not,
`receive` reads nil from the closed input, buffers it, the shuffle brings it to
the front, `receive` returns nil and `run` returns with 5 still in the buffer.
In no continuation does `run` put anything on the output channel, so the
consumer receives 7 and then the end-of-stream signal.  A send after `close`
fails. -/
theorem close_loses_buffered_messages :
    pipedBeforeClose.view = ([], [some 5], [7], false, false, none) ∧
    lossyChannel.close pipedBeforeClose = some pipedClosed ∧
    pipedClosed.view = ([], [some 5], [7], true, true, none) ∧
    (lossyChannel.run 2 pipedClosed [tickTimer]).2 = .panicked ∧
    (lossyChannel.run 2 pipedClosed [tickTimer]).1.view = ([], [], [7], true, true, some 5) ∧
    (lossyChannel.run 2 pipedClosed [tickInput, tickInput]).2 = .returned ∧
    (lossyChannel.run 2 pipedClosed [tickInput, tickInput]).1.view =
      ([], [some 5], [7], true, true, none) ∧
    (∀ (n : Nat) (ticks : List Tick), (lossyChannel.run n pipedClosed ticks).1.output = [7]) ∧
    (Piped.recv pipedClosed).1 = .msg 7 ∧
    (Piped.recv (Piped.recv pipedClosed).2).1 = .endOfStream ∧
    Piped.send pipedClosed 9 = none := by
  have h1 : pipedBeforeClose.view = ([], [some 5], [7], false, false, none) := by
    simp [pipedBeforeClose, lossyChannel.run, Piped.new, lossyChannel.new, lossyChannel.receive,
      lossyChannel.loop, tickInput, Piped.view, shuffle, shuffleFrom, swapAt]
  have h2 : pipedClosed.view = ([], [some 5], [7], true, true, none) := by
    simp [pipedClosed, lossyChannel.close, pipedBeforeClose, lossyChannel.run, Piped.new,
      lossyChannel.new, lossyChannel.receive, lossyChannel.loop, tickInput, Piped.view, shuffle,
      shuffleFrom, swapAt]
  have h3 : lossyChannel.close pipedBeforeClose = some pipedClosed := by
    simp [pipedClosed, lossyChannel.close, pipedBeforeClose, lossyChannel.run, Piped.new,
      lossyChannel.new, lossyChannel.receive, lossyChannel.loop, tickInput, shuffle,
      shuffleFrom, swapAt]
  have h4 : pipedClosed.output = [7] ∧ pipedClosed.outputClosed = true ∧
      pipedClosed.chan.closed = true := by
    simp only [Piped.view, Prod.mk.injEq] at h2
    exact ⟨h2.2.2.1, h2.2.2.2.2.1, h2.2.2.2.1⟩
  refine ⟨h1, h3, h2, ?_, ?_, ?_, ?_, ?_, ?_, ?_, ?_⟩
  · simp [pipedClosed, lossyChannel.close, pipedBeforeClose, lossyChannel.run, Piped.new,
      lossyChannel.new, lossyChannel.receive, lossyChannel.loop, tickInput, tickTimer, shuffle,
      shuffleFrom, swapAt]
  · simp [pipedClosed, lossyChannel.close, pipedBeforeClose, lossyChannel.run, Piped.new,
      lossyChannel.new, lossyChannel.receive, lossyChannel.loop, tickInput, tickTimer, Piped.view,
      shuffle, shuffleFrom, swapAt]
  · simp [pipedClosed, lossyChannel.close, pipedBeforeClose, lossyChannel.run, Piped.new,
      lossyChannel.new, lossyChannel.receive, lossyChannel.loop, tickInput, shuffle,
      shuffleFrom, swapAt]
  · simp [pipedClosed, lossyChannel.close, pipedBeforeClose, lossyChannel.run, Piped.new,
      lossyChannel.new, lossyChannel.receive, lossyChannel.loop, tickInput, Piped.view,
      shuffle, shuffleFrom, swapAt]
  · intro n ticks
    rw [lossyChannel.run_closed_output n pipedClosed ticks h4.2.1]
    exact h4.1
  · simp [Piped.recv, h4.1]
  · simp [Piped.recv, h4.1, h4.2.1]
  · simp [Piped.send, h4.2.2]

/-! ## The second receive loop and accepts of an earlier attempt -/

/-- A run along two schedules in a row. -/
theorem System.run_append (l1 l2 : List Move) :
    ∀ s : System, s.run (l1 ++ l2) = (s.run l1).bind (fun s1 => s1.run l2) := by
  induction l1 with
  | nil => intro s; rfl
  | cons a as ih =>
    intro s
    simp only [List.cons_append, System.run]
    cases s.step a with
    | none => rfl
    | some s1 => exact ih s1

/-- C24 at the failing schedule: with 2 proposers and 3 acceptors, after the
first 10 moves of `schedNoQuorum` proposer 0 has given up its attempt with epoch
0 and the accept that acceptor 0 sent for that attempt is pending; two moves
before the end of the schedule proposer 0 is in the second receive loop of its
attempt with epoch 2, its accepted set is empty, and the same accept is still
pending, followed by the accept of acceptor 1; acceptor 0 executed the propose
branch once, for epoch 0.  Proposer 0 then receives the accept of acceptor 0,
and its accepted set becomes [0]. -/
theorem phase2_counts_accept_of_earlier_attempt :
    ∃ s0 s1 s2 : System,
      (System.init 2 3).run (schedNoQuorum.take 10) = some s0 ∧
      Reachable 2 3 s1 ∧ s1.step (.proposerRecv 0 0) = some s2 ∧
      s0.view 0 = some (((0 : Int) : WithBot Int), .start, "v0", [1, 0], [],
        [.accept { i := some 0, nProposers := 2 } 0]) ∧
      s0.acceptedView = [(0, ((0 : Int) : WithBot Int), "v0")] ∧
      s1.view 0 = some (((2 : Int) : WithBot Int), .phase2, "v1", [2, 1], [],
        [.accept { i := some 0, nProposers := 2 } 0,
         .accept { i := some 0, nProposers := 2 } 1]) ∧
      s1.acceptedView = [(0, ((0 : Int) : WithBot Int), "v0"),
        (1, ((1 : Int) : WithBot Int), "v1"), (1, ((2 : Int) : WithBot Int), "v1")] ∧
      s2.view 0 = some (((2 : Int) : WithBot Int), .phase2, "v1", [2, 1], [0],
        [.accept { i := some 0, nProposers := 2 } 1]) := by
  have h0 : ((System.init 2 3).run (schedNoQuorum.take 10)).map
      (fun s => (s.view 0, s.acceptedView)) =
      some (some (((0 : Int) : WithBot Int), .start, "v0", [1, 0], [],
        [.accept { i := some 0, nProposers := 2 } 0]),
        [(0, ((0 : Int) : WithBot Int), "v0")]) := rfl
  have h1 : ((System.init 2 3).run schedNoQuorum.dropLast.dropLast).map
      (fun s => (s.view 0, s.acceptedView)) =
      some (some (((2 : Int) : WithBot Int), .phase2, "v1", [2, 1], [],
        [.accept { i := some 0, nProposers := 2 } 0,
         .accept { i := some 0, nProposers := 2 } 1]),
        [(0, ((0 : Int) : WithBot Int), "v0"),
         (1, ((1 : Int) : WithBot Int), "v1"), (1, ((2 : Int) : WithBot Int), "v1")]) := rfl
  have h2 : ((System.init 2 3).run schedNoQuorum.dropLast).map (fun s => s.view 0) =
      some (some (((2 : Int) : WithBot Int), .phase2, "v1", [2, 1], [0],
        [.accept { i := some 0, nProposers := 2 } 1])) := rfl
  obtain ⟨s0, hr0, hv0⟩ := Option.map_eq_some'.mp h0
  obtain ⟨s1, hr1, hv1⟩ := Option.map_eq_some'.mp h1
  obtain ⟨s2, hr2, hv2⟩ := Option.map_eq_some'.mp h2
  simp only [Prod.mk.injEq] at hv0 hv1
  have hsplit : schedNoQuorum.dropLast = schedNoQuorum.dropLast.dropLast ++ [.proposerRecv 0 0] := by
    decide
  have hstep : s1.step (.proposerRecv 0 0) = some s2 := by
    rw [hsplit, System.run_append, hr1] at hr2
    simp only [Option.some_bind, System.run] at hr2
    cases hs : s1.step (.proposerRecv 0 0) with
    | none => rw [hs] at hr2; exact absurd hr2 (by simp)
    | some s3 =>
      rw [hs] at hr2
      exact hr2
  exact ⟨s0, s1, s2, hr0, ⟨_, hr1⟩, hstep, hv0.1, hv0.2, hv1.1, hv1.2, hv2⟩

/-! ## Value selection -/

/-- C22 at the failing schedule: with 3 proposers and 5 acceptors (quorum 3),
after `schedSelectSent` the promises of acceptors 0, 1 and 2 are pending for
proposer 2 and report the accepted proposals (0, "v0"), (1, "v1") and none.
Proposer 2 counts the first, adopting "v0".  Proposer 0 calls `Next`: the
promises now read (3, "v0"), (1, "v1") and none, and proposer 2 counts the
second without adopting "v1".  Proposer 1 calls `Next`: the promises read
(3, "v0"), (4, "v1") and none.  Proposer 2 counts the third, has its quorum, and
sends propose with value "v0" to every acceptor, while the counted promise that
reports the greatest accepted epoch, when the promises were sent as well as
when the propose is sent, is that of acceptor 1, with value "v1". -/
theorem value_selection_not_greatest_accepted :
    ∃ sA sB sC : System,
      Reachable 3 5 sA ∧ (System.init 3 5).run schedSelectSecond.dropLast = some sB ∧
      (System.init 3 5).run schedSelect = some sC ∧
      sA.view 2 = some (((2 : Int) : WithBot Int), .phase1, "", [], [], promisesSelect) ∧
      promisesSelect.filterMap (message.report sA.heap) =
        [(0, ((0 : Int) : WithBot Int), "v0"), (1, ((1 : Int) : WithBot Int), "v1"),
         (2, ⊥, "")] ∧
      sB.view 2 = some (((2 : Int) : WithBot Int), .phase1, "v0", [0], [],
        promisesSelect.tail) ∧
      promisesSelect.filterMap (message.report sB.heap) =
        [(0, ((3 : Int) : WithBot Int), "v0"), (1, ((1 : Int) : WithBot Int), "v1"),
         (2, ⊥, "")] ∧
      sC.view 2 = some (((2 : Int) : WithBot Int), .phase2, "v0", [2, 1, 0], [], []) ∧
      promisesSelect.filterMap (message.report sC.heap) =
        [(0, ((3 : Int) : WithBot Int), "v0"), (1, ((4 : Int) : WithBot Int), "v1"),
         (2, ⊥, "")] ∧
      sC.acceptorIn.map (fun c => c.getLast?) =
        List.replicate 5 (some (.propose { i := some 2, nProposers := 3 } "v0" 2 2)) := by
  have hA : ((System.init 3 5).run schedSelectSent).map
      (fun s => (s.view 2, promisesSelect.filterMap (message.report s.heap))) =
      some (some (((2 : Int) : WithBot Int), .phase1, "", [], [], promisesSelect),
        [(0, ((0 : Int) : WithBot Int), "v0"), (1, ((1 : Int) : WithBot Int), "v1"),
         (2, ⊥, "")]) := rfl
  have hB : ((System.init 3 5).run schedSelectSecond.dropLast).map
      (fun s => (s.view 2, promisesSelect.filterMap (message.report s.heap))) =
      some (some (((2 : Int) : WithBot Int), .phase1, "v0", [0], [], promisesSelect.tail),
        [(0, ((3 : Int) : WithBot Int), "v0"), (1, ((1 : Int) : WithBot Int), "v1"),
         (2, ⊥, "")]) := rfl
  have hC : ((System.init 3 5).run schedSelect).map
      (fun s => (s.view 2, promisesSelect.filterMap (message.report s.heap),
        s.acceptorIn.map (fun c => c.getLast?))) =
      some (some (((2 : Int) : WithBot Int), .phase2, "v0", [2, 1, 0], [], []),
        [(0, ((3 : Int) : WithBot Int), "v0"), (1, ((4 : Int) : WithBot Int), "v1"),
         (2, ⊥, "")],
        List.replicate 5 (some (.propose { i := some 2, nProposers := 3 } "v0" 2 2))) := rfl
  obtain ⟨sA, hrA, hvA⟩ := Option.map_eq_some'.mp hA
  obtain ⟨sB, hrB, hvB⟩ := Option.map_eq_some'.mp hB
  obtain ⟨sC, hrC, hvC⟩ := Option.map_eq_some'.mp hC
  simp only [Prod.mk.injEq] at hvA hvB hvC
  exact ⟨sA, sB, sC, ⟨_, hrA⟩, hrB, hrC, hvA.1, hvA.2, hvB.1, hvB.2, hvC.1, hvC.2.1, hvC.2.2⟩

/-! ## What the receive loops do in a store that does not change -/

/-- The comparison of two real epochs is positive exactly when the integer of
the first is above that of the second, and zero exactly when they are equal. -/
theorem Cmp_real_sign (e f : Epoch) (h : Heap) (he : e.i ≠ none) (hf : f.i ≠ none) :
    ∃ c, e.Cmp f h = some c ∧ (c > 0 ↔ f.val h < e.val h) ∧ (c = 0 ↔ e.val h = f.val h) := by
  obtain ⟨ei, en⟩ := e
  obtain ⟨fi, fn⟩ := f
  cases ei with
  | none => exact absurd rfl he
  | some a =>
    cases fi with
    | none => exact absurd rfl hf
    | some b =>
      refine ⟨_, bigCmp_some h a b, ?_, ?_⟩
      · simp only [Epoch.val, WithBot.coe_lt_coe]
        rcases lt_trichotomy (h.cell a) (h.cell b) with h1 | h1 | h1
        · rw [if_pos h1]; constructor <;> intro h3 <;> omega
        · rw [if_neg (by omega), if_pos h1]; constructor <;> intro h3 <;> omega
        · rw [if_neg (by omega), if_neg (by omega)]; constructor <;> intro _ <;> omega
      · simp only [Epoch.val, WithBot.coe_inj]
        rcases lt_trichotomy (h.cell a) (h.cell b) with h1 | h1 | h1
        · rw [if_pos h1]; constructor <;> intro h3 <;> omega
        · rw [if_neg (by omega), if_pos h1]; constructor <;> intro _
          · exact h1
          · rfl
        · rw [if_neg (by omega), if_neg (by omega)]; constructor <;> intro h3 <;> omega

/-- The filter of the second receive loop: an accept is counted exactly when
its epoch and the epoch of the proposer denote the same integer in the store
at the time of the receive; any other message changes nothing. -/
theorem proposer_onAccept_filter (h : Heap) (s : ProposerState) :
    (∀ (e : Epoch) (id : Int), s.epoch.i ≠ none → e.i ≠ none →
      proposer.onAccept h s (.accept e id) =
        some (if s.epoch.val h = e.val h then
          { s with acceptedAcceptors := mapSet s.acceptedAcceptors id } else s)) ∧
    (∀ m : message, (∀ e id, m ≠ .accept e id) → proposer.onAccept h s m = some s) := by
  constructor
  · intro e id hs he
    obtain ⟨c, hc, -, h0⟩ := Cmp_real_sign s.epoch e h hs he
    simp only [proposer.onAccept, hc]
    by_cases hz : c = 0
    · simp only [hz, if_true, h0.mp hz]
    · have hne : ¬ s.epoch.val h = e.val h := fun hv => hz (h0.mpr hv)
      simp only [hz, if_false, hne]
  · intro m hm
    cases m with
    | accept e id => exact absurd rfl (hm e id)
    | prepare e pid r => rfl
    | propose e v pid r => rfl
    | promise e ae av id => rfl

/-- One pass through the body of the first receive loop keeps the selection
right when the store is the one in which the earlier promises were received. -/
theorem proposer_onPromise_selected (h : Heap) (seen : List message) (s s1 : ProposerState)
    (m : message) (hsel : proposer.Selected h seen s) (hm : m.epochsOK)
    (hr : proposer.onPromise h s m = some s1) : proposer.Selected h (seen ++ [m]) s1 := by
  obtain ⟨hmax, hle, hex, hemp⟩ := hsel
  cases m with
  | prepare e pid r =>
    simp only [proposer.onPromise, Option.some.injEq] at hr
    subst hr
    refine ⟨hmax, ?_, ?_, hemp⟩
    · intro e1 ae av id hmem hn
      simp only [List.mem_append, List.mem_singleton] at hmem
      rcases hmem with h1 | h1
      · exact hle e1 ae av id h1 hn
      · exact absurd h1 (by simp)
    · intro hn
      obtain ⟨e1, id, h1⟩ := hex hn
      exact ⟨e1, id, List.mem_append_left _ h1⟩
  | propose e v pid r =>
    simp only [proposer.onPromise, Option.some.injEq] at hr
    subst hr
    refine ⟨hmax, ?_, ?_, hemp⟩
    · intro e1 ae av id hmem hn
      simp only [List.mem_append, List.mem_singleton] at hmem
      rcases hmem with h1 | h1
      · exact hle e1 ae av id h1 hn
      · exact absurd h1 (by simp)
    · intro hn
      obtain ⟨e1, id, h1⟩ := hex hn
      exact ⟨e1, id, List.mem_append_left _ h1⟩
  | accept e aid =>
    simp only [proposer.onPromise, Option.some.injEq] at hr
    subst hr
    refine ⟨hmax, ?_, ?_, hemp⟩
    · intro e1 ae av id hmem hn
      simp only [List.mem_append, List.mem_singleton] at hmem
      rcases hmem with h1 | h1
      · exact hle e1 ae av id h1 hn
      · exact absurd h1 (by simp)
    · intro hn
      obtain ⟨e1, id, h1⟩ := hex hn
      exact ⟨e1, id, List.mem_append_left _ h1⟩
  | promise e0 ae0 av0 id0 =>
    simp only [proposer.onPromise] at hr
    by_cases hn0 : ae0.Nil = true
    · have hg : proposer.greater h ae0 s.maxEpoch = some false := by
        simp [proposer.greater, hn0]
      simp only [hg, Option.some.injEq] at hr
      subst hr
      refine ⟨hmax, ?_, ?_, hemp⟩
      · intro e1 ae av id hmem hn
        simp only [List.mem_append, List.mem_singleton, message.promise.injEq] at hmem
        rcases hmem with h1 | ⟨-, rfl, -, -⟩
        · exact hle e1 ae av id h1 hn
        · rw [hn0] at hn; exact absurd hn (by simp)
      · intro hn
        obtain ⟨e1, id, h1⟩ := hex hn
        exact ⟨e1, id, List.mem_append_left _ h1⟩
    · have hn0f : ae0.Nil = false := by simpa using hn0
      have hreal0 := nilOrReal_not_Nil ae0 hm.2 hn0f
      by_cases hnm : s.maxEpoch.Nil = true
      · have hg : proposer.greater h ae0 s.maxEpoch = some true := by
          simp [proposer.greater, hn0f, hnm]
        simp only [hg, Option.some.injEq] at hr
        subst hr
        refine ⟨Or.inr hreal0, ?_, ?_, ?_⟩
        · intro e1 ae av id hmem hn
          simp only [List.mem_append, List.mem_singleton, message.promise.injEq] at hmem
          rcases hmem with h1 | ⟨-, rfl, -, -⟩
          · have := (hle e1 ae av id h1 hn).1
            rw [hnm] at this; exact absurd this (by simp)
          · exact ⟨hn0f, le_refl _⟩
        · intro _
          exact ⟨e0, id0, by simp⟩
        · intro hn
          have hn2 : ae0.Nil = true := hn
          rw [hn0f] at hn2; exact absurd hn2 (by simp)
      · have hnmf : s.maxEpoch.Nil = false := by simpa using hnm
        have hrealm := nilOrReal_not_Nil s.maxEpoch hmax hnmf
        obtain ⟨c, hc, hpos, -⟩ := Cmp_real_sign ae0 s.maxEpoch h hreal0 hrealm
        by_cases hcp : c > 0
        · have hg : proposer.greater h ae0 s.maxEpoch = some true := by
            simp [proposer.greater, hn0f, hnmf, hc, hcp]
          simp only [hg, Option.some.injEq] at hr
          subst hr
          have hlt := hpos.mp hcp
          refine ⟨Or.inr hreal0, ?_, ?_, ?_⟩
          · intro e1 ae av id hmem hn
            simp only [List.mem_append, List.mem_singleton, message.promise.injEq] at hmem
            rcases hmem with h1 | ⟨-, rfl, -, -⟩
            · exact ⟨hn0f, le_of_lt (lt_of_le_of_lt (hle e1 ae av id h1 hn).2 hlt)⟩
            · exact ⟨hn0f, le_refl _⟩
          · intro _
            exact ⟨e0, id0, by simp⟩
          · intro hn
            have hn2 : ae0.Nil = true := hn
            rw [hn0f] at hn2; exact absurd hn2 (by simp)
        · have hg : proposer.greater h ae0 s.maxEpoch = some false := by
            simp only [proposer.greater, hn0f, hnmf, hc, Bool.false_eq_true, if_false,
              Option.some.injEq, decide_eq_false_iff_not]
            exact hcp
          simp only [hg, Option.some.injEq] at hr
          subst hr
          have hge : ae0.val h ≤ s.maxEpoch.val h := not_lt.mp (fun hlt => hcp (hpos.mpr hlt))
          refine ⟨hmax, ?_, ?_, hemp⟩
          · intro e1 ae av id hmem hn
            simp only [List.mem_append, List.mem_singleton, message.promise.injEq] at hmem
            rcases hmem with h1 | ⟨-, rfl, -, -⟩
            · exact hle e1 ae av id h1 hn
            · exact ⟨hnmf, hge⟩
          · intro hn
            obtain ⟨e1, id, h1⟩ := hex hn
            exact ⟨e1, id, List.mem_append_left _ h1⟩

/-- The first receive loop in a store that does not change keeps the selection
right along the messages it receives. -/
theorem proposer_phase1_selected (nA : Nat) (h : Heap) (msgs : List message) :
    ∀ (s : ProposerState) (seen : List message), proposer.Selected h seen s →
    (∀ m ∈ msgs, message.epochsOK m) →
    ∃ s1 ended taken rest,
      proposer.phase1 nA s (msgs.map (fun m => (h, m))) =
        some (s1, ended, rest.map (fun m => (h, m))) ∧
      msgs = taken ++ rest ∧ proposer.Selected h (seen ++ taken) s1 := by
  induction msgs with
  | nil =>
    intro s seen hsel _
    exact ⟨s, _, [], [], rfl, rfl, by simpa using hsel⟩
  | cons m ms ih =>
    intro s seen hsel hwf
    by_cases hq : s.promisedAcceptors.length < quorum nA
    · obtain ⟨s1, hon, -, -, -⟩ :=
        proposer_onPromise_epochs h s m hsel.1 (hwf m (List.mem_cons_self _ _))
      have hsel1 := proposer_onPromise_selected h seen s s1 m hsel
        (hwf m (List.mem_cons_self _ _)) hon
      obtain ⟨s2, ended, taken, rest, hrun, hsplit, hsel2⟩ :=
        ih s1 (seen ++ [m]) hsel1 (fun y hy => hwf y (List.mem_cons_of_mem _ hy))
      refine ⟨s2, ended, m :: taken, rest, ?_, ?_, ?_⟩
      · simp only [List.map_cons, proposer.phase1, hq, if_true, hon]
        exact hrun
      · rw [hsplit]; rfl
      · simpa using hsel2
    · refine ⟨s, true, [], m :: ms, ?_, rfl, by simpa using hsel⟩
      simp only [List.map_cons, proposer.phase1, hq, if_false]

/-- Value selection in a store that does not change during the first receive
loop: started with an empty `value` and `maxEpoch`, the loop ends with the
accepted epoch and value of a received promise whose accepted epoch is not
below that of any received promise, if some received promise reports an
accepted epoch, and with an empty `value` (replaced by the candidate value
after the loop) otherwise. -/
theorem proposer_phase1_value_unchanged_store (nA : Nat) (h : Heap) (msgs : List message)
    (s : ProposerState) (hmax : s.maxEpoch = { i := none, nProposers := 0 })
    (hval : s.value = "") (hwf : ∀ m ∈ msgs, message.epochsOK m) :
    ∃ s1 ended taken rest,
      proposer.phase1 nA s (msgs.map (fun m => (h, m))) =
        some (s1, ended, rest.map (fun m => (h, m))) ∧
      msgs = taken ++ rest ∧
      ((∀ e ae av id, message.promise e ae av id ∈ taken → ae.Nil = true) → s1.value = "") ∧
      ((∃ e ae av id, message.promise e ae av id ∈ taken ∧ ae.Nil = false) →
        (∃ e id, message.promise e s1.maxEpoch s1.value id ∈ taken) ∧
        s1.maxEpoch.Nil = false ∧
        ∀ e ae av id, message.promise e ae av id ∈ taken → ae.Nil = false →
          ae.val h ≤ s1.maxEpoch.val h) := by
  have hsel : proposer.Selected h [] s := by
    refine ⟨Or.inl hmax, ?_, ?_, fun _ => hval⟩
    · intro e ae av id hmem; exact absurd hmem (by simp)
    · intro hn
      rw [hmax] at hn
      simp [Epoch.Nil] at hn
  obtain ⟨s1, ended, taken, rest, hrun, hsplit, hsel1⟩ :=
    proposer_phase1_selected nA h msgs s [] hsel hwf
  simp only [List.nil_append] at hsel1
  obtain ⟨-, hle, hex, hemp⟩ := hsel1
  refine ⟨s1, ended, taken, rest, hrun, hsplit, ?_, ?_⟩
  · intro hall
    apply hemp
    by_contra hn
    have hnf : s1.maxEpoch.Nil = false := by simpa using hn
    obtain ⟨e, id, hmem⟩ := hex hnf
    have := hall e s1.maxEpoch s1.value id hmem
    rw [hnf] at this; exact absurd this (by simp)
  · rintro ⟨e, ae, av, id, hmem, hn⟩
    have hnf := (hle e ae av id hmem hn).1
    exact ⟨hex hnf, hnf, fun e1 ae1 av1 id1 hm1 hn1 => (hle e1 ae1 av1 id1 hm1 hn1).2⟩

/-! ## `Run` and `runPaxos` -/

/-- The worker of a channel just made panics in its first iteration exactly
when the size of the channel is not positive. -/
theorem lossyChannel.workerPanics_iff (size : Int) (drop : ℚ) :
    lossyChannel.workerPanics size drop = true ↔ size ≤ 0 := by
  by_cases h : size ≤ 0
  · have h2 : (0 : Int) ≥ size := h
    simp [lossyChannel.workerPanics, lossyChannel.run, Piped.new, lossyChannel.new,
      lossyChannel.receive, lossyChannel.loop, shuffle, shuffleFrom, h, h2]
  · have h2 : ¬ (0 : Int) ≥ size := h
    simp [lossyChannel.workerPanics, lossyChannel.run, Piped.new, lossyChannel.new,
      lossyChannel.receive, lossyChannel.loop, lossyChannel.forced, tickInput, h, h2]

/-- The first call of `receive` on a channel just made, whatever is sent to the
channel and whatever the clock and the random numbers do, fails at `l.buf[0]`
exactly when the size of the channel is not positive. -/
theorem lossyChannel.first_receive_fails_iff {α : Type} (size : Int) (drop : ℚ) (msgs : List α)
    (t : Tick) (ts : List Tick) :
    (∃ l d, (lossyChannel.new size drop msgs).receive (t :: ts) = .failed l d) ↔ size ≤ 0 := by
  constructor
  · rintro ⟨l, d, hf⟩
    by_contra hs
    have h1 : 1 ≤ (lossyChannel.new size drop msgs).size := by
      show 1 ≤ size
      omega
    have h2 : (((lossyChannel.new size drop msgs).buf.length : Nat) : Int) ≤
        (lossyChannel.new size drop msgs).size := by
      show ((0 : Nat) : Int) ≤ size
      omega
    exact (lossyChannel.loop_bounded (t :: ts) (lossyChannel.new size drop msgs) false [] h1
      h2).2.2.1 l d hf
  · intro hs
    have h2 : (0 : Int) ≥ size := hs
    refine ⟨lossyChannel.new size drop msgs, [], ?_⟩
    simp [lossyChannel.receive, lossyChannel.loop, lossyChannel.new, shuffle, shuffleFrom, h2]

/-- With counts that are not negative and a positive buffer size, `Run` starts
every channel and task and then ends as `checkValues` ends on the values that
the schedule makes the proposers send. -/
theorem Config.Run_of_execute (c : Config) (early : Nat) (acts : List Move)
    (ha : 0 ≤ c.NAcceptors) (hp : 0 ≤ c.NProposers) (hb : 1 ≤ c.Buffer) :
    c.Run early acts =
      (System.execute c.Drop c.NProposers.toNat c.NAcceptors.toNat acts).map (fun s =>
        ({ channels := c.NAcceptors.toNat + c.NProposers.toNat, acceptors := c.NAcceptors.toNat,
           proposers := c.NProposers.toNat }, c.checkValues s.values)) := by
  have h1 : ¬ c.NAcceptors < 0 := by omega
  have h2 : ¬ (0 < c.NAcceptors ∧ c.Buffer < 0) := by omega
  have h3 : ¬ c.NProposers < 0 := by omega
  have h4 : ¬ (0 < c.NProposers ∧ c.Buffer < 0) := by omega
  have h5 : ¬ (lossyChannel.workerPanics c.Buffer c.Drop = true ∧
      0 < c.NAcceptors.toNat + c.NProposers.toNat) := by
    rw [lossyChannel.workerPanics_iff]
    omega
  simp only [Config.Run, Config.newAcceptors, Config.newProposers, h1, h2, h3, h4, h5, if_false]
  cases System.execute c.Drop c.NProposers.toNat c.NAcceptors.toNat acts <;> rfl

/-- The configuration `configNoBuffer` (`Buffer = 0`, `Drop = 1`): `Run` ends
with a panic after one channel has been started when the first worker runs at
once, and after both channels and the acceptor when it runs after the third
`go` statement. -/
theorem Run_buffer_zero_example :
    configNoBuffer.Run 0 schedLost =
      some ({ channels := 1, acceptors := 0, proposers := 0 }, .panicked) ∧
    configNoBuffer.Run 3 schedLost =
      some ({ channels := 2, acceptors := 1, proposers := 0 }, .panicked) := by
  refine ⟨by decide, by decide⟩

/-- With counts that are not negative and a positive buffer size, `Run` returns
an error only when two of the values sent on the value channel differ. -/
theorem Run_error_only_on_disagreement (c : Config) (early : Nat) (acts : List Move)
    (ha : 0 ≤ c.NAcceptors) (hp : 0 ≤ c.NProposers) (hb : 1 ≤ c.Buffer)
    (st : Started) (e : String) (hr : c.Run early acts = some (st, .returned (some e))) :
    ∃ s, System.execute c.Drop c.NProposers.toNat c.NAcceptors.toNat acts = some s ∧
      ∃ x ∈ s.values, ∃ y ∈ s.values, x ≠ y := by
  rw [Config.Run_of_execute c early acts ha hp hb] at hr
  obtain ⟨s, hex, hrs⟩ := Option.map_eq_some'.mp hr
  refine ⟨s, hex, ?_⟩
  simp only [Prod.mk.injEq] at hrs
  have he := hrs.2
  have h1 : ¬ c.NAcceptors < 0 := by omega
  simp only [Config.checkValues, h1, if_false] at he
  cases hl : checkValues.loop c.NProposers.toNat s.values [] false with
  | none => simp [hl] at he
  | some r =>
    obtain ⟨vals, problem⟩ := r
    simp only [hl] at he
    obtain ⟨-, hmem, hprob⟩ := checkValues_loop_sound _ _ _ _ _ _ hl
    have hpt : problem = true := by
      cases problem with
      | true => rfl
      | false =>
        cases vals <;> simp [checkValues.result] at he
    rcases hprob hpt with h5 | ⟨x, hx, y, hy, hxy⟩
    · exact absurd h5 (by decide)
    · refine ⟨x, ?_, y, ?_, hxy⟩
      · rcases hmem x hx with h6 | h6
        · simp at h6
        · exact h6
      · rcases hmem y hy with h6 | h6
        · simp at h6
        · exact h6

/-! ## What a promise reports after `Next` -/

/-- C8 at the failing input: acceptor 0 of a system with 2 proposers receives
prepare and propose (0, "v0") of proposer 0 and accepts, proposer 0 calls
`Next`, and the acceptor receives the prepare of the second attempt.  The
acceptor accepted one proposal, with epoch 0; its second promise reports the
accepted pair (2, "v0").  In the system (first 24 moves of `schedDisagree`) the
promise of acceptor 0 pending for proposer 0 reports (2, "v0"), while acceptor
0 executed the propose branch once, for (0, "v0"). -/
theorem promise_reports_epoch_never_accepted :
    (∃ t, acceptor.run 0 heap01 acceptor.init eventsRetry = some t ∧
      acceptor.acceptedInts eventsRetry t = [(((0 : Int) : WithBot Int), "v0")] ∧
      acceptor.reports t = [(⊥, ""), (((2 : Int) : WithBot Int), "v0")]) ∧
    (∃ s, Reachable 2 3 s ∧
      s.reports 0 = [(0, ((2 : Int) : WithBot Int), "v0")] ∧
      s.acceptedView = [(0, ((0 : Int) : WithBot Int), "v0"),
        (1, ((1 : Int) : WithBot Int), "v1"), (2, ((1 : Int) : WithBot Int), "v1")]) := by
  have h1 : (acceptor.run 0 heap01 acceptor.init eventsRetry).map
      (fun t => (acceptor.acceptedInts eventsRetry t, acceptor.reports t)) =
      some ([(((0 : Int) : WithBot Int), "v0")],
        [(⊥, ""), (((2 : Int) : WithBot Int), "v0")]) := rfl
  have h2 : ((System.init 2 3).run (schedDisagree.take 24)).map
      (fun s => (s.reports 0, s.acceptedView)) =
      some ([(0, ((2 : Int) : WithBot Int), "v0")],
        [(0, ((0 : Int) : WithBot Int), "v0"),
         (1, ((1 : Int) : WithBot Int), "v1"), (2, ((1 : Int) : WithBot Int), "v1")]) := rfl
  obtain ⟨t, ht, hv⟩ := Option.map_eq_some'.mp h1
  obtain ⟨s, hs, hw⟩ := Option.map_eq_some'.mp h2
  simp only [Prod.mk.injEq] at hv hw
  exact ⟨⟨t, ht, hv.1, hv.2⟩, ⟨s, ⟨_, hs⟩, hw.1, hw.2⟩⟩
